import Mathlib

/-!
# MyRayTracingRenderer: transform and intersection core

A shallow embedding of `include/matrix.h`, `include/hittable.h`, `include/quad.h` and
`src/constant_medium.h`.

* The definitions are written once, over a type `α` that carries the operations the sources
  apply to a `double` (`+`, `-`, `*`, `/`, unary minus, the comparisons, integer literals), in
  the order the sources apply them. Two arithmetics are used: `α = ℝ` is exact arithmetic, and
  `α = double` is IEEE 754 binary64 with every operation rounded to nearest, ties to even.
  A theorem over `ℝ` speaks of the code under exact arithmetic; the counterexamples over
  `double` evaluate the same definitions with rounding.
* `std::cos`, `std::sin`, `std::sqrt`, `std::log`, the constant `pi` and the sample returned by
  `random_double()` are explicit arguments of the functions that call them.
* `bool f(..., hit_record &rec)` becomes a function returning the boolean together with the
  record as the call leaves it.
* `vec3`, `ray`, `interval` come from headers outside the listed sources; they are given here
  with the members the listed sources use. An interval endpoint may be infinite, every other
  `double` is finite.
* `src/matrix.h` and `src/hittable.h` are older copies of the same classes: `inverse`,
  `transpose`, `operator*`, `translate` and `rotate` read the same there; the default
  constructor is `m{0}` and the Euler constructor assigns every diagonal entry by hand.
* The cached bounding boxes and `center()` are not fields of the records below; the value a
  constructor caches is given by a function of its own (`rotate.bbox`, `quad.set_bounding_box`),
  and `center()` of a decorator takes the value of `object->center()` as an argument.
* `hittable_list` is the list of its objects in the order they are added.
-/

namespace RayTracer

/-! ## vec3, ray, interval (external math library) -/

/-- Three `double` components, read through `x()`, `y()`, `z()` or `operator[]`. -/
@[ext]
structure vec3 (α : Type) where
  x : α
  y : α
  z : α

/-- The class `ray`: origin, direction and a time tag. -/
structure ray (α : Type) where
  orig : vec3 α
  dir : vec3 α
  tm : α

/-- The class `matrix`: the array `double m[4][4]`. -/
structure matrix (α : Type) where
  m : Fin 4 → Fin 4 → α

/-- A `double` that may be infinite: the value of an interval endpoint. -/
inductive extended (α : Type) where
  | neg_infinity : extended α
  | finite : α → extended α
  | infinity : extended α

/-- The class `interval`: the two endpoints `min` and `max`. -/
structure interval (β : Type) where
  min : β
  max : β

/-- Opaque shared handle of a material (`shared_ptr<material>`). -/
abbrev material := Nat

/-- The class `hit_record`. -/
structure hit_record (α : Type) where
  p : vec3 α
  normal : vec3 α
  mat : material
  t : α
  u : α
  v : α
  front_face : Bool

/-- The abstract class `hittable`: the virtual `hit`, returning the boolean and the record as the
call leaves it. -/
structure hittable (α : Type) where
  hit : ray α → interval (extended α) → hit_record α → Bool × hit_record α

/-- The class `translate`. -/
structure translate (α : Type) where
  object : hittable α
  offset : vec3 α

/-- The class `rotate`. -/
structure rotate (α : Type) where
  object : hittable α
  trans : matrix α
  trans_inv : matrix α

/-- The class `scale`. -/
structure scale (α : Type) where
  object : hittable α
  trans : matrix α
  trans_inv : matrix α

/-- The class `quad`. -/
structure quad (α : Type) where
  Q : vec3 α
  u : vec3 α
  v : vec3 α
  w : vec3 α
  mat : material
  normal : vec3 α
  D : α

/-- The class `triangle`. -/
structure triangle (α : Type) where
  Q : vec3 α
  u : vec3 α
  v : vec3 α
  w : vec3 α
  mat : material
  normal : vec3 α
  D : α

/-- The class `constant_medium`. -/
structure constant_medium (α : Type) where
  boundary : hittable α
  neg_inv_density : α
  phase_function : material

/-- The ways the sources build a transform: `matrix()`, `matrix(euler_xyz, offset)` and
`matrix(x, y, z)`. -/
inductive transform_ctor (α : Type) where
  | identity : transform_ctor α
  | euler (euler_xyz offset : vec3 α) : transform_ctor α
  | basis (x y z : vec3 α) : transform_ctor α

/-- Modelled from the spec: the external class `aabb`, whose header is not among the sources: one
interval per axis, read as `bbox.x`, `bbox.y`, `bbox.z`. -/
structure aabb (β : Type) where
  x : interval β
  y : interval β
  z : interval β

/-- The class `transform`: the child and the three decorators the constructor allocates, each
under its dynamic type (`make_shared<scale>`, `make_shared<rotate>`, `make_shared<translate>`). -/
structure transform (α : Type) where
  object : hittable α
  scaling : scale α
  rotation : rotate α
  translation : translate α

/-- A finite IEEE 754 binary64 value, the C++ `double`. Every finite `double` is an integer
multiple of the least subnormal `2⁻¹⁰⁷⁴`; `num` is that integer, so `1.0` is `2¹⁰⁷⁴`. Infinities
and NaN are not represented. -/
structure double where
  num : Int
deriving DecidableEq

/-- Two vectors are equal when their components are. -/
instance [DecidableEq α] : DecidableEq (vec3 α) := fun a b =>
  decidable_of_iff (a.x = b.x ∧ a.y = b.y ∧ a.z = b.z)
    ⟨fun h => vec3.ext h.1 h.2.1 h.2.2, fun h => h ▸ ⟨rfl, rfl, rfl⟩⟩

section Defs

variable {α : Type} [LinearOrder α] [Add α] [Sub α] [Mul α] [Div α] [Neg α] [Zero α] [One α]
  [NatCast α]

/-- The library function `std::fabs`. -/
def fabs (x : α) : α := if x < 0 then -x else x

namespace vec3

/-- Component access `v[i]`. -/
def get (v : vec3 α) (i : Fin 3) : α :=
  if i = 0 then v.x else if i = 1 then v.y else v.z

/-- Vector sum `a + b`. -/
def add (a b : vec3 α) : vec3 α := ⟨a.x + b.x, a.y + b.y, a.z + b.z⟩

/-- Vector difference `a - b`. -/
def sub (a b : vec3 α) : vec3 α := ⟨a.x - b.x, a.y - b.y, a.z - b.z⟩

/-- Unary minus `-a`. -/
def neg (a : vec3 α) : vec3 α := ⟨-a.x, -a.y, -a.z⟩

/-- Scalar multiple `t * a`. -/
def smul (t : α) (a : vec3 α) : vec3 α := ⟨t * a.x, t * a.y, t * a.z⟩

/-- Scalar quotient `a / t`, which the library computes as `(1/t) * a`. -/
def sdiv (a : vec3 α) (t : α) : vec3 α := smul (1 / t) a

instance : Add (vec3 α) := ⟨add⟩
instance : Sub (vec3 α) := ⟨sub⟩
instance : Neg (vec3 α) := ⟨neg⟩

/-- Squared length `length_squared()`. -/
def length_squared (a : vec3 α) : α := a.x * a.x + a.y * a.y + a.z * a.z

/-- Euclidean length `length()`, the square root of `length_squared()`. -/
def length (sqrt : α → α) (a : vec3 α) : α := sqrt (length_squared a)

end vec3

/-- Inner product `dot(a, b)`. -/
def dot (a b : vec3 α) : α := a.x * b.x + a.y * b.y + a.z * b.z

/-- Cross product `cross(a, b)`. -/
def cross (a b : vec3 α) : vec3 α :=
  ⟨a.y * b.z - a.z * b.y, a.z * b.x - a.x * b.z, a.x * b.y - a.y * b.x⟩

/-- Normalisation `unit_vector(v) = v / v.length()`. -/
def unit_vector (sqrt : α → α) (v : vec3 α) : vec3 α := vec3.sdiv v (vec3.length sqrt v)

/-- Member `ray::at(t) = orig + t * dir`. -/
def ray.at (r : ray α) (t : α) : vec3 α := r.orig + vec3.smul t r.dir

/-- Conversion `degrees_to_radians(d) = d * pi / 180`. -/
def degrees_to_radians (pi : α) (degrees : α) : α := degrees * pi / 180

/-! ## matrix.h -/

namespace matrix

/-- Assignment `M.m[i][j] = v`. -/
def set (M : matrix α) (i j : Fin 4) (v : α) : matrix α :=
  ⟨fun a b => if a = i ∧ b = j then v else M.m a b⟩

/-- The initialiser `m{0}`. -/
def zero : matrix α := ⟨fun _ _ => 0⟩

/-- Default constructor `matrix()`: the identity. -/
def identity : matrix α := ⟨fun i j => if i = j then 1 else 0⟩

/-- Constructor `matrix(vec3 p, bool is_point)`: `p` and the flag are stored in `m[0][..]`. -/
def of_vec3 (p : vec3 α) (is_point : Bool) : matrix α :=
  (((zero.set 0 0 p.x).set 0 1 p.y).set 0 2 p.z).set 0 3 (if is_point then 1 else 0)

/-- Constructor `matrix(vec3 x, vec3 y, vec3 z)`: after `m{0}`, the rows `m[0]`, `m[1]`, `m[2]`
receive the three components of `x`, `y`, `z`, and `m[3][3] = 1`. -/
def of_basis (x y z : vec3 α) : matrix α :=
  (⟨fun i j =>
      if j = 3 then 0
      else
        let c : Fin 3 := if j = 0 then 0 else if j = 1 then 1 else 2
        if i = 0 then x.get c else if i = 1 then y.get c else if i = 2 then z.get c else 0⟩ :
    matrix α).set 3 3 1

/-- Accessor `to_vec3()`. -/
def to_vec3 (M : matrix α) : vec3 α := ⟨M.m 0 0, M.m 0 1, M.m 0 2⟩

/-- Member `transpose()`. -/
def transpose (M : matrix α) : matrix α := ⟨fun j i => M.m i j⟩

/-- Member `operator*`: `result.m[i][j] = Σ_k m[k][j] * a.m[i][k]`, accumulated from `0`. -/
def operator_mul (self a : matrix α) : matrix α :=
  ⟨fun i j => 0 + self.m 0 j * a.m i 0 + self.m 1 j * a.m i 1
                + self.m 2 j * a.m i 2 + self.m 3 j * a.m i 3⟩

end matrix

/-- Free `operator*(a, b)`: `result.m[i][j] = Σ_k a.m[k][j] * b.m[i][k]`, accumulated from `0`. -/
def operator_mul (a b : matrix α) : matrix α :=
  ⟨fun i j => 0 + a.m 0 j * b.m i 0 + a.m 1 j * b.m i 1
                + a.m 2 j * b.m i 2 + a.m 3 j * b.m i 3⟩

namespace matrix

/-- Constructor `matrix(vec3 euler_xyz, vec3 offset)`: angles in degrees, then a translation.
The products are taken with the member `operator*` (the left operands are not `const`). The
entries the constructor first gives to its own `m` are all overwritten by the final copy of
`result`, so the value is `result`. -/
def of_euler (cos sin : α → α) (pi : α) (euler_xyz offset : vec3 α) : matrix α :=
  let translate : matrix α :=
    (((identity : matrix α).set 3 0 offset.x).set 3 1 offset.y).set 3 2 offset.z
  let alpha := degrees_to_radians pi (euler_xyz.get 0)
  let beta := degrees_to_radians pi (euler_xyz.get 1)
  let theta := degrees_to_radians pi (euler_xyz.get 2)
  let rotation0 : matrix α :=
    (((((identity : matrix α).set 0 0 1).set 1 1 (cos alpha)).set 2 1 (-sin alpha)).set 1 2
      (sin alpha)).set 2 2 (cos alpha)
  let rotation1 : matrix α :=
    (((((identity : matrix α).set 1 1 1).set 0 0 (cos beta)).set 2 0 (sin beta)).set 0 2
      (-sin beta)).set 2 2 (cos beta)
  let rotation2 : matrix α :=
    (((((identity : matrix α).set 2 2 1).set 0 0 (cos theta)).set 1 0 (-sin theta)).set 0 1
      (sin theta)).set 1 1 (cos theta)
  let rotate := ((rotation2.operator_mul rotation1).operator_mul rotation0).set 3 3 1
  translate.operator_mul rotate

/-- Member `inverse()`: transpose of the rotation block times the negated translation. -/
def inverse (self : matrix α) : matrix α :=
  let rotate := (((self.set 3 0 0).set 3 1 0).set 3 2 0).transpose
  let trans : matrix α :=
    ⟨fun i j =>
      if i ≠ 3 ∧ j ≠ 3 then (if i ≠ j then 0 else 1)
      else if i = 3 ∧ j ≠ 3 then -self.m i j
      else self.m i j⟩
  rotate.operator_mul trans

end matrix

/-! ## interval -/

namespace extended

/-- Order of possibly infinite doubles. -/
def le : extended α → extended α → Bool
  | neg_infinity, _ => true
  | finite _, neg_infinity => false
  | finite a, finite b => decide (a ≤ b)
  | finite _, infinity => true
  | infinity, neg_infinity => false
  | infinity, finite _ => false
  | infinity, infinity => true

end extended

namespace interval

/-- Member `contains(x)`: `min <= x && x <= max`. -/
def contains (self : interval (extended α)) (x : α) : Bool :=
  extended.le self.min (extended.finite x) && extended.le (extended.finite x) self.max

/-- The constant `interval::universe` (the bare name is a keyword here). -/
def universe_ : interval (extended α) := ⟨extended.neg_infinity, extended.infinity⟩

end interval

/-! ## hittable.h -/

/-- Member `hit_record::set_face_normal`. -/
def hit_record.set_face_normal (rec : hit_record α) (r : ray α) (outward_normal : vec3 α) :
    hit_record α :=
  let front_face := decide (dot r.dir outward_normal < 0)
  { rec with front_face := front_face,
             normal := if front_face then outward_normal else -outward_normal }

/-- Constructor `translate::translate`. -/
def translate.new (object : hittable α) (offset : vec3 α) : translate α :=
  { object := object, offset := offset }

/-- The local `offset_r` of `translate::hit`: the ray moved backwards by the offset. -/
def translate.offset_r (self : translate α) (r : ray α) : ray α :=
  ⟨r.orig - self.offset, r.dir, r.tm⟩

/-- Member `translate::hit`. -/
def translate.hit (self : translate α) (r : ray α) (ray_t : interval (extended α))
    (rec : hit_record α) : Bool × hit_record α :=
  let res := self.object.hit (self.offset_r r) ray_t rec
  if !res.1 then (false, res.2)
  else (true, { res.2 with p := res.2.p + self.offset })

/-- Constructor `rotate::rotate`. -/
def rotate.new (cos sin : α → α) (pi : α) (object : hittable α) (euler_xyz : vec3 α) :
    rotate α :=
  let trans := matrix.of_euler cos sin pi euler_xyz ⟨0, 0, 0⟩
  { object := object, trans := trans, trans_inv := trans.inverse }

/-- The local `object_r` of `rotate::hit`: the ray in object space. -/
def rotate.object_r (self : rotate α) (r : ray α) : ray α :=
  ⟨(operator_mul self.trans_inv (matrix.of_vec3 r.orig true)).to_vec3,
   (operator_mul self.trans_inv (matrix.of_vec3 r.dir false)).to_vec3, r.tm⟩

/-- Member `rotate::hit`. -/
def rotate.hit (self : rotate α) (r : ray α) (ray_t : interval (extended α))
    (rec : hit_record α) : Bool × hit_record α :=
  let res := self.object.hit (self.object_r r) ray_t rec
  if !res.1 then (false, res.2)
  else
    let rec1 := { res.2 with p := (operator_mul self.trans (matrix.of_vec3 res.2.p true)).to_vec3 }
    (true, { rec1 with
      normal := (operator_mul self.trans (matrix.of_vec3 rec1.normal false)).to_vec3 })

/-- Constructor `scale::scale`. -/
def scale.new (object : hittable α) (scaling_factors : vec3 α) : scale α :=
  { object := object,
    trans := matrix.of_basis ⟨scaling_factors.x, 0, 0⟩ ⟨0, scaling_factors.y, 0⟩
      ⟨0, 0, scaling_factors.z⟩,
    trans_inv := matrix.of_basis ⟨1 / scaling_factors.x, 0, 0⟩ ⟨0, 1 / scaling_factors.y, 0⟩
      ⟨0, 0, 1 / scaling_factors.z⟩ }

/-- The local `object_r` of `scale::hit`: the ray in object space. -/
def scale.object_r (self : scale α) (r : ray α) : ray α :=
  ⟨(operator_mul self.trans_inv (matrix.of_vec3 r.orig true)).to_vec3,
   (operator_mul self.trans_inv (matrix.of_vec3 r.dir false)).to_vec3, r.tm⟩

/-- Member `scale::hit`. -/
def scale.hit (sqrt : α → α) (self : scale α) (r : ray α) (ray_t : interval (extended α))
    (rec : hit_record α) : Bool × hit_record α :=
  let res := self.object.hit (self.object_r r) ray_t rec
  if !res.1 then (false, res.2)
  else
    let rec1 := { res.2 with p := (operator_mul self.trans (matrix.of_vec3 res.2.p true)).to_vec3 }
    let rec_normal := (operator_mul self.trans (matrix.of_vec3 rec1.normal false)).to_vec3
    (true, { rec1 with normal := unit_vector sqrt rec_normal })

/-- Upcasts `shared_ptr<translate>`, `shared_ptr<rotate>`, `shared_ptr<scale>` to
`shared_ptr<hittable>`: the virtual call dispatches to the member `hit`. -/
def translate.to_hittable (self : translate α) : hittable α := ⟨self.hit⟩

/-- Upcast of a `rotate` to `hittable`. -/
def rotate.to_hittable (self : rotate α) : hittable α := ⟨self.hit⟩

/-- Upcast of a `scale` to `hittable`. -/
def scale.to_hittable (sqrt : α → α) (self : scale α) : hittable α := ⟨scale.hit sqrt self⟩

/-! ## quad.h -/

/-- Constructor `quad::quad`. -/
def quad.new (sqrt : α → α) (Q u v : vec3 α) (mat : material) : quad α :=
  let n := cross u v
  let normal := unit_vector sqrt n
  { Q := Q, u := u, v := v, mat := mat, normal := normal, D := dot normal Q,
    w := vec3.sdiv n (dot n n) }

/-- Member `quad::is_interior`. -/
def quad.is_interior (_self : quad α) (a b : α) (rec : hit_record α) : Bool × hit_record α :=
  let unit_interval : interval (extended α) := ⟨extended.finite 0, extended.finite 1⟩
  if !unit_interval.contains a || !unit_interval.contains b then (false, rec)
  else (true, { rec with u := a, v := b })

/-- Member `quad::hit`. -/
def quad.hit (self : quad α) (r : ray α) (ray_t : interval (extended α))
    (rec : hit_record α) : Bool × hit_record α :=
  let denom := dot self.normal r.dir
  if fabs denom < 1 / 100000000 then (false, rec)
  else
    let t := (self.D - dot self.normal r.orig) / denom
    if !ray_t.contains t then (false, rec)
    else
      let intersection := r.at t
      let planar_hitpt_vector := intersection - self.Q
      let alpha := dot self.w (cross planar_hitpt_vector self.v)
      let beta := dot self.w (cross self.u planar_hitpt_vector)
      let res := self.is_interior alpha beta rec
      if !res.1 then (false, res.2)
      else
        (true, ({ res.2 with t := t, p := intersection, mat := self.mat }).set_face_normal r
          self.normal)

/-- Upcast of a `quad` to `hittable`. -/
def quad.to_hittable (self : quad α) : hittable α := ⟨self.hit⟩

/-- Constructor `triangle::triangle`. -/
def triangle.new (sqrt : α → α) (Q u v : vec3 α) (mat : material) : triangle α :=
  let n := cross u v
  let normal := unit_vector sqrt n
  { Q := Q, u := u, v := v, mat := mat, normal := normal, D := dot normal Q,
    w := vec3.sdiv n (dot n n) }

/-- Member `triangle::is_interior`. -/
def triangle.is_interior (_self : triangle α) (a b : α) (rec : hit_record α) :
    Bool × hit_record α :=
  if a < 0 ∨ b < 0 ∨ a + b > 1 then (false, rec)
  else (true, { rec with u := a, v := b })

/-- Member `triangle::hit`. -/
def triangle.hit (self : triangle α) (r : ray α) (ray_t : interval (extended α))
    (rec : hit_record α) : Bool × hit_record α :=
  let denom := dot self.normal r.dir
  if fabs denom < 1 / 100000000 then (false, rec)
  else
    let t := (self.D - dot self.normal r.orig) / denom
    if !ray_t.contains t then (false, rec)
    else
      let intersection := r.at t
      let planar_hitpt_vector := intersection - self.Q
      let alpha := dot self.w (cross planar_hitpt_vector self.v)
      let beta := dot self.w (cross self.u planar_hitpt_vector)
      let res := self.is_interior alpha beta rec
      if !res.1 then (false, res.2)
      else
        (true, ({ res.2 with t := t, p := intersection, mat := self.mat }).set_face_normal r
          self.normal)

/-- Upcast of a `triangle` to `hittable`. -/
def triangle.to_hittable (self : triangle α) : hittable α := ⟨self.hit⟩

/-! ## constant_medium.h -/

/-- Constructor `constant_medium::constant_medium`; `phase_function` is the handle of the
isotropic material it allocates. -/
def constant_medium.new (boundary : hittable α) (density : α) (phase_function : material) :
    constant_medium α :=
  { boundary := boundary, neg_inv_density := -1 / density, phase_function := phase_function }

/-- Member `constant_medium::hit`. `random_double` is the sample the call draws; `rec1` and
`rec2` are the initial contents of the two local records. The parameter `ray_t` is not read. -/
def constant_medium.hit (sqrt log : α → α) (random_double : α) (rec1 rec2 : hit_record α)
    (self : constant_medium α) (r : ray α) (_ray_t : interval (extended α))
    (rec : hit_record α) : Bool × hit_record α :=
  let res1 := self.boundary.hit r interval.universe_ rec1
  if !res1.1 then (false, rec)
  else
    let res2 := self.boundary.hit r
      ⟨extended.finite (res1.2.t + 1 / 10000), extended.infinity⟩ rec2
    if !res2.1 then (false, rec)
    else
      let rec1 := if res1.2.t < 0 then { res1.2 with t := 0 } else res1.2
      let rec2 := res2.2
      let ray_length := vec3.length sqrt r.dir
      let distance_inside_boundary := (rec2.t - rec1.t) * ray_length
      let hit_distance := self.neg_inv_density * log random_double
      if hit_distance > distance_inside_boundary then (false, rec)
      else
        let t := rec1.t + hit_distance / ray_length
        (true, { rec with t := t, p := r.at t, normal := ⟨1, 0, 0⟩, front_face := true,
                          mat := self.phase_function })

/-! ## Reference rotations (specification side) -/

/-- Standard right-handed rotation about the x axis by the angle `θ` (radians). -/
def standard_Rx (cos sin : α → α) (θ : α) : Matrix (Fin 3) (Fin 3) α :=
  !![1, 0, 0; 0, cos θ, -sin θ; 0, sin θ, cos θ]

/-- Standard right-handed rotation about the y axis by the angle `θ` (radians). -/
def standard_Ry (cos sin : α → α) (θ : α) : Matrix (Fin 3) (Fin 3) α :=
  !![cos θ, 0, sin θ; 0, 1, 0; -sin θ, 0, cos θ]

/-- Standard right-handed rotation about the z axis by the angle `θ` (radians). -/
def standard_Rz (cos sin : α → α) (θ : α) : Matrix (Fin 3) (Fin 3) α :=
  !![cos θ, -sin θ, 0; sin θ, cos θ, 0; 0, 0, 1]

/-- The column of coordinates of a `vec3`. -/
def vec3.column (v : vec3 α) : Fin 3 → α := ![v.x, v.y, v.z]

/-- Plane rotation of the `(y, z)` coordinates with cosine `c` and sine `s`. -/
def turn_x (c s : α) (v : vec3 α) : vec3 α := ⟨v.x, c * v.y - s * v.z, s * v.y + c * v.z⟩

/-- Plane rotation of the `(z, x)` coordinates with cosine `c` and sine `s`. -/
def turn_y (c s : α) (v : vec3 α) : vec3 α := ⟨c * v.x + s * v.z, v.y, -(s * v.x) + c * v.z⟩

/-- Plane rotation of the `(x, y)` coordinates with cosine `c` and sine `s`. -/
def turn_z (c s : α) (v : vec3 α) : vec3 α := ⟨c * v.x - s * v.y, s * v.x + c * v.y, v.z⟩

/-- The matrix a constructor call returns. -/
def transform_ctor.build (cos sin : α → α) (pi : α) : transform_ctor α → matrix α
  | identity => matrix.identity
  | euler euler_xyz offset => matrix.of_euler cos sin pi euler_xyz offset
  | basis x y z => matrix.of_basis x y z

/-! ## Sample scene values -/

/-- A record whose fields are all zero: the contents before any hit is written. -/
def blank_record : hit_record α := ⟨⟨0, 0, 0⟩, ⟨0, 0, 0⟩, 0, 0, 0, 0, false⟩

/-- The ray from `(1/2, 1/2, 1)` with direction `(0, 0, -1)`. -/
def probe_ray : ray α := ⟨⟨1 / 2, 1 / 2, 1⟩, ⟨0, 0, -1⟩, 0⟩

/-- The interval `[0, ∞)`. -/
def nonneg_interval : interval (extended α) := ⟨extended.finite 0, extended.infinity⟩

/-! ## hittable_list (external aggregate) and further sample scenes -/

/-- Modelled from the spec: the external aggregate `hittable_list`, whose header is not among
the sources. Its `hit` honours the contract of the intersection protocol by asking every child in
turn over the interval narrowed to the nearest hit found so far, and reports that nearest hit
(the entry of the ray for a closed boundary). The fold state is `hit_anything`,
`closest_so_far`, `temp_rec`, `rec`. -/
def hittable_list.hit (objects : List (hittable α)) (r : ray α)
    (ray_t : interval (extended α)) (rec : hit_record α) : Bool × hit_record α :=
  let final := objects.foldl
    (fun (st : Bool × extended α × hit_record α × hit_record α) (object : hittable α) =>
      let res := object.hit r ⟨ray_t.min, st.2.1⟩ st.2.2.1
      if res.1 then (true, extended.finite res.2.t, res.2, res.2)
      else (st.1, st.2.1, res.2, st.2.2.2))
    (false, ray_t.max, blank_record, rec)
  (final.1, final.2.2.2)

/-- Upcast of a `hittable_list` to `hittable`. -/
def hittable_list.to_hittable (objects : List (hittable α)) : hittable α :=
  ⟨hittable_list.hit objects⟩

/-- A closed two-sided boundary for the sample ray: the unit squares in the planes `z = 1` and
`z = 0`, both with material handle `0`. -/
def slab_boundary (sqrt : α → α) : hittable α :=
  hittable_list.to_hittable
    [(quad.new sqrt ⟨0, 0, 1⟩ ⟨1, 0, 0⟩ ⟨0, 1, 0⟩ 0).to_hittable,
     (quad.new sqrt ⟨0, 0, 0⟩ ⟨1, 0, 0⟩ ⟨0, 1, 0⟩ 0).to_hittable]

/-- The ray from `(1/2, 1/2, 2)` with direction `(0, 0, -1)`: it enters the slab at `t = 1` and
leaves it at `t = 2`. -/
def slab_ray : ray α := ⟨⟨1 / 2, 1 / 2, 2⟩, ⟨0, 0, -1⟩, 0⟩

/-- The interval `[0, 1/2]`. -/
def near_interval : interval (extended α) := ⟨extended.finite 0, extended.finite (1 / 2)⟩

/-- The unit square of the sample scene, doubled in every direction. -/
def doubled_quad (sqrt : α → α) : scale α :=
  scale.new (quad.new sqrt ⟨0, 0, 0⟩ ⟨1, 0, 0⟩ ⟨0, 1, 0⟩ 0).to_hittable ⟨2, 2, 2⟩

/-- The world ray from `(1, 1, 2)` with direction `(0, 0, -2)`; in the object space of the
doubled square it is the sample ray. -/
def doubled_ray : ray α := ⟨⟨1, 1, 2⟩, ⟨0, 0, -2⟩, 0⟩

/-- The world ray from `(-1/2, 1/2, 1)` with direction `(0, 0, -1)`; after a quarter turn back
about z it is the sample ray. -/
def spun_ray : ray α := ⟨⟨-1 / 2, 1 / 2, 1⟩, ⟨0, 0, -1⟩, 0⟩

/-- The world ray from `(3/2, 5/2, 4)` with direction `(0, 0, -1)`: the sample ray moved by
`(1, 2, 3)`. -/
def shifted_ray : ray α := ⟨⟨3 / 2, 5 / 2, 4⟩, ⟨0, 0, -1⟩, 0⟩

/-! ## aabb (external) and the cached bounding boxes -/

namespace extended

/-- The smaller of two possibly infinite doubles (`std::fmin`). -/
def fmin (a b : extended α) : extended α := if le a b then a else b

/-- The larger of two possibly infinite doubles (`std::fmax`). -/
def fmax (a b : extended α) : extended α := if le a b then b else a

end extended

namespace aabb

/-- Modelled from the spec: `aabb(a, b)`, construction from two arbitrary corner points, with
the smaller coordinate as `min` and the larger as `max` on every axis. -/
def of_points (a b : vec3 α) : aabb α :=
  ⟨⟨min a.x b.x, max a.x b.x⟩, ⟨min a.y b.y, max a.y b.y⟩, ⟨min a.z b.z, max a.z b.z⟩⟩

/-- Modelled from the spec: `aabb(a, b)` for corner points whose coordinates may be infinite. -/
def of_extended_points (a b : vec3 (extended α)) : aabb (extended α) :=
  ⟨⟨extended.fmin a.x b.x, extended.fmax a.x b.x⟩,
   ⟨extended.fmin a.y b.y, extended.fmax a.y b.y⟩,
   ⟨extended.fmin a.z b.z, extended.fmax a.z b.z⟩⟩

/-- Modelled from the spec: `aabb(box0, box1)`, the union of two boxes. -/
def union (box0 box1 : aabb α) : aabb α :=
  ⟨⟨min box0.x.min box1.x.min, max box0.x.max box1.x.max⟩,
   ⟨min box0.y.min box1.y.min, max box0.y.max box1.y.max⟩,
   ⟨min box0.z.min box1.z.min, max box0.z.max box1.z.max⟩⟩

/-- A box with finite endpoints, read as a box whose endpoints may be infinite. -/
def lift (box : aabb α) : aabb (extended α) :=
  ⟨⟨extended.finite box.x.min, extended.finite box.x.max⟩,
   ⟨extended.finite box.y.min, extended.finite box.y.max⟩,
   ⟨extended.finite box.z.min, extended.finite box.z.max⟩⟩

/-- The point `p` lies in the box on every axis. -/
def contains (box : aabb (extended α)) (p : vec3 α) : Bool :=
  box.x.contains p.x && box.y.contains p.y && box.z.contains p.z

end aabb

/-- One pass of the innermost loop body of `rotate::rotate`: the corner selected by `i`, `j`,
`k` is transformed as a point and folded into the accumulators `min` and `max`. -/
def rotate.bbox_step (trans : matrix α) (bbox : aabb α) (i j k : α)
    (acc : vec3 (extended α) × vec3 (extended α)) : vec3 (extended α) × vec3 (extended α) :=
  let x := i * bbox.x.max + (1 - i) * bbox.x.min
  let y := j * bbox.y.max + (1 - j) * bbox.y.min
  let z := k * bbox.z.max + (1 - k) * bbox.z.min
  let a := (trans.operator_mul (matrix.of_vec3 ⟨x, y, z⟩ true)).to_vec3
  (⟨extended.fmin acc.1.x (extended.finite a.x), extended.fmin acc.1.y (extended.finite a.y),
    extended.fmin acc.1.z (extended.finite a.z)⟩,
   ⟨extended.fmax acc.2.x (extended.finite a.x), extended.fmax acc.2.y (extended.finite a.y),
    extended.fmax acc.2.z (extended.finite a.z)⟩)

/-- The bounding box `rotate::rotate` stores in `bbox`, as a function of
`object->bounding_box()`: the accumulators start at plus and minus infinity and the three nested
loops visit the eight corners. -/
def rotate.bbox (cos sin : α → α) (pi : α) (bbox : aabb α) (euler_xyz : vec3 α) :
    aabb (extended α) :=
  let trans := matrix.of_euler cos sin pi euler_xyz ⟨0, 0, 0⟩
  let acc := ([0, 1] : List α).foldl
    (fun acc i => ([0, 1] : List α).foldl
      (fun acc j => ([0, 1] : List α).foldl
        (fun acc k => rotate.bbox_step trans bbox i j k acc) acc) acc)
    ((⟨extended.infinity, extended.infinity, extended.infinity⟩ : vec3 (extended α)),
     (⟨extended.neg_infinity, extended.neg_infinity, extended.neg_infinity⟩ :
       vec3 (extended α)))
  aabb.of_extended_points acc.1 acc.2

/-- Member `quad::set_bounding_box`: the value it stores in `bbox`. -/
def quad.set_bounding_box (self : quad α) : aabb α :=
  let bbox_diagonal1 := aabb.of_points self.Q (self.Q + self.u + self.v)
  let bbox_diagonal2 := aabb.of_points (self.Q + self.u) (self.Q + self.v)
  aabb.union bbox_diagonal1 bbox_diagonal2

/-- Member `quad::center`. -/
def quad.center (self : quad α) : vec3 α :=
  self.Q + vec3.sdiv self.u 2 + vec3.sdiv self.v 2

/-- Member `triangle::set_bounding_box`: the value it stores in `bbox`. -/
def triangle.set_bounding_box (self : triangle α) : aabb α :=
  let bbox_1 := aabb.of_points self.Q (self.Q + self.u)
  let bbox_2 := aabb.of_points self.Q (self.Q + self.v)
  aabb.union bbox_1 bbox_2

/-- Member `triangle::center`. -/
def triangle.center (self : triangle α) : vec3 α :=
  vec3.sdiv self.Q 3 + vec3.sdiv (self.Q + self.u) 3 + vec3.sdiv (self.Q + self.v) 3

/-! ## Solid builders of quad.h -/

/-- The array `point3 pts[4] = {p0, p1, p2, p3}`. -/
def pts_array (p0 p1 p2 p3 : vec3 α) : Fin 4 → vec3 α :=
  fun k => if k = 0 then p0 else if k = 1 then p1 else if k = 2 then p2 else p3

/-- Exchange of `pts[i]` and `pts[j]`. -/
def swap_pts (pts : Fin 4 → vec3 α) (i j : Fin 4) : Fin 4 → vec3 α :=
  fun k => if k = i then pts j else if k = j then pts i else pts k

/-- Body of the loop of `tetrahedron` for the index `i`: the state is the array `pts` and the
list of the triangles added so far. -/
def tetrahedron_step (sqrt : α → α) (mat : material)
    (st : (Fin 4 → vec3 α) × List (triangle α)) (i : Fin 4) :
    (Fin 4 → vec3 α) × List (triangle α) :=
  let pts := st.1
  let n := cross (pts (i + 1) - pts i) (pts (i + 2) - pts i)
  let pts := if dot n (pts (i + 3) - pts i) > 0 then swap_pts pts (i + 1) (i + 2) else pts
  (pts, st.2 ++ [triangle.new sqrt (pts i) (pts (i + 1) - pts i) (pts (i + 2) - pts i) mat])

/-- Function `tetrahedron`: the objects of the list it returns, in the order they are added. -/
def tetrahedron (sqrt : α → α) (a b c d : vec3 α) (mat : material) : List (triangle α) :=
  if fabs (dot (cross (b - a) (c - a)) (d - a)) < 1 / 100000000 then
    [triangle.new sqrt a (b - a) (c - a) mat]
  else
    (([0, 1, 2, 3] : List (Fin 4)).foldl (tetrahedron_step sqrt mat)
      (pts_array a b c d, [])).2

/-- Function `box`: the objects of the list it returns, in the order they are added (front,
right, back, left, top, bottom). -/
def box (sqrt : α → α) (a b : vec3 α) (mat : material) : List (quad α) :=
  let mn : vec3 α := ⟨min a.x b.x, min a.y b.y, min a.z b.z⟩
  let mx : vec3 α := ⟨max a.x b.x, max a.y b.y, max a.z b.z⟩
  let dx : vec3 α := ⟨mx.x - mn.x, 0, 0⟩
  let dy : vec3 α := ⟨0, mx.y - mn.y, 0⟩
  let dz : vec3 α := ⟨0, 0, mx.z - mn.z⟩
  [quad.new sqrt ⟨mn.x, mn.y, mx.z⟩ dx dy mat,
   quad.new sqrt ⟨mx.x, mn.y, mx.z⟩ (-dz) dy mat,
   quad.new sqrt ⟨mx.x, mn.y, mn.z⟩ (-dx) dy mat,
   quad.new sqrt ⟨mn.x, mn.y, mn.z⟩ dz dy mat,
   quad.new sqrt ⟨mn.x, mx.y, mx.z⟩ dx (-dz) mat,
   quad.new sqrt ⟨mn.x, mn.y, mn.z⟩ dx dz mat]

/-- The least value of `g` at the eight corners of a box, taken in the order the loops of
`rotate::rotate` visit the corners. -/
def aabb.corner_min (bbox : aabb α) (g : vec3 α → α) : α :=
  min (min (min (min (min (min (min
    (g ⟨bbox.x.min, bbox.y.min, bbox.z.min⟩) (g ⟨bbox.x.min, bbox.y.min, bbox.z.max⟩))
    (g ⟨bbox.x.min, bbox.y.max, bbox.z.min⟩)) (g ⟨bbox.x.min, bbox.y.max, bbox.z.max⟩))
    (g ⟨bbox.x.max, bbox.y.min, bbox.z.min⟩)) (g ⟨bbox.x.max, bbox.y.min, bbox.z.max⟩))
    (g ⟨bbox.x.max, bbox.y.max, bbox.z.min⟩)) (g ⟨bbox.x.max, bbox.y.max, bbox.z.max⟩)

/-- The greatest value of `g` at the eight corners of a box, in the same order. -/
def aabb.corner_max (bbox : aabb α) (g : vec3 α → α) : α :=
  max (max (max (max (max (max (max
    (g ⟨bbox.x.min, bbox.y.min, bbox.z.min⟩) (g ⟨bbox.x.min, bbox.y.min, bbox.z.max⟩))
    (g ⟨bbox.x.min, bbox.y.max, bbox.z.min⟩)) (g ⟨bbox.x.min, bbox.y.max, bbox.z.max⟩))
    (g ⟨bbox.x.max, bbox.y.min, bbox.z.min⟩)) (g ⟨bbox.x.max, bbox.y.min, bbox.z.max⟩))
    (g ⟨bbox.x.max, bbox.y.max, bbox.z.min⟩)) (g ⟨bbox.x.max, bbox.y.max, bbox.z.max⟩)

/-- The unit cube `[0,1] × [0,1] × [0,1]`. -/
def unit_cube : aabb α := aabb.of_points ⟨0, 0, 0⟩ ⟨1, 1, 1⟩

/-- The union of the boxes of a list, taken from the first box on; there is none for the empty
list. -/
def aabb.union_all : List (aabb α) → Option (aabb α)
  | [] => none
  | b :: bs => some (bs.foldl aabb.union b)

/-- A point `1e-9` above the origin: with `(0,0,0)`, `(1,0,0)`, `(0,1,0)` it spans a signed
volume of `1e-9`. -/
def near_flat_apex : vec3 α := ⟨0, 0, 1 / 1000000000⟩

/-! ## center() of the decorators, and the class transform -/

/-- Member `translate::center`; `object_center` is the value of `object->center()`. -/
def translate.center (self : translate α) (object_center : vec3 α) : vec3 α :=
  object_center + self.offset

/-- Member `rotate::center`; `object_center` is the value of `object->center()`. -/
def rotate.center (self : rotate α) (object_center : vec3 α) : vec3 α :=
  (operator_mul self.trans (matrix.of_vec3 object_center true)).to_vec3

/-- Member `scale::center`; `object_center` is the value of `object->center()`. -/
def scale.center (self : scale α) (object_center : vec3 α) : vec3 α :=
  (operator_mul self.trans (matrix.of_vec3 object_center true)).to_vec3

/-- Constructor `transform::transform`: `scale` wraps the child, `rotate` wraps the scale and
`translate` wraps the rotate. -/
def transform.new (cos sin sqrt : α → α) (pi : α) (object : hittable α) (sca rot trans : vec3 α) :
    transform α :=
  let scaling := scale.new object sca
  let rotation := rotate.new cos sin pi (scaling.to_hittable sqrt) rot
  let translation := translate.new rotation.to_hittable trans
  { object := object, scaling := scaling, rotation := rotation, translation := translation }

/-- Member `transform::hit`. -/
def transform.hit (self : transform α) (r : ray α) (ray_t : interval (extended α))
    (rec : hit_record α) : Bool × hit_record α :=
  let res := self.translation.hit r ray_t rec
  if !res.1 then (false, res.2)
  else (true, res.2)

/-- Member `transform::center`: `translation->center()`, which asks the rotate, which asks the
scale, which asks the child; `object_center` is the value of the child's `center()`. -/
def transform.center (self : transform α) (object_center : vec3 α) : vec3 α :=
  self.translation.center (self.rotation.center (self.scaling.center object_center))

/-- Upcast of a `transform` to `hittable`. -/
def transform.to_hittable (self : transform α) : hittable α := ⟨self.hit⟩

/-! ## The fused affine map (specification side) -/

/-- Specification side: the scale map `S`, the componentwise product `s ⊙ v`. -/
def fused_S (s v : vec3 α) : vec3 α := ⟨s.x * v.x, s.y * v.y, s.z * v.z⟩

/-- Specification side: the inverse scale map, the componentwise quotient by `s`. -/
def fused_S_inv (s v : vec3 α) : vec3 α := ⟨v.x / s.x, v.y / s.y, v.z / s.z⟩

/-- Specification side: the rotation `R(e) = Rz · Ry · Rx` for Euler angles `e` in degrees. -/
def fused_R (cos sin : α → α) (pi : α) (e v : vec3 α) : vec3 α :=
  turn_z (cos (degrees_to_radians pi e.z)) (sin (degrees_to_radians pi e.z))
    (turn_y (cos (degrees_to_radians pi e.y)) (sin (degrees_to_radians pi e.y))
      (turn_x (cos (degrees_to_radians pi e.x)) (sin (degrees_to_radians pi e.x)) v))

/-- Specification side: the inverse rotation, the three opposite turns in the opposite order. -/
def fused_R_inv (cos sin : α → α) (pi : α) (e v : vec3 α) : vec3 α :=
  turn_x (cos (degrees_to_radians pi e.x)) (-sin (degrees_to_radians pi e.x))
    (turn_y (cos (degrees_to_radians pi e.y)) (-sin (degrees_to_radians pi e.y))
      (turn_z (cos (degrees_to_radians pi e.z)) (-sin (degrees_to_radians pi e.z)) v))

/-- Specification side: the fused affine map, `q ↦ R(e) (s ⊙ q) + o`. -/
def fused_point (cos sin : α → α) (pi : α) (s e o q : vec3 α) : vec3 α :=
  fused_R cos sin pi e (fused_S s q) + o

/-- Specification side: the object-space ray of the fused map, with origin
`S⁻¹ R⁻¹ (r.origin − o)` and direction `S⁻¹ R⁻¹ r.direction`. -/
def fused_ray (cos sin : α → α) (pi : α) (s e o : vec3 α) (r : ray α) : ray α :=
  ⟨fused_S_inv s (fused_R_inv cos sin pi e (r.orig - o)),
   fused_S_inv s (fused_R_inv cos sin pi e r.dir), r.tm⟩

/-! ## IEEE 754 binary64 arithmetic -/

namespace double

/-- The number of binary digits of `n < 2⁴⁰⁹⁶`, found by halving the window. -/
def bit_length (n : Nat) : Nat :=
  if n = 0 then 0
  else
    (([2048, 1024, 512, 256, 128, 64, 32, 16, 8, 4, 2, 1] : List Nat).foldl
      (fun (acc : Nat × Nat) (k : Nat) =>
        if 2 ^ k ≤ acc.1 then (acc.1 / 2 ^ k, acc.2 + k) else acc) (n, 0)).2 + 1

/-- Round to nearest, ties to even: the representable integer nearest to `a / b`. An integer is
representable when it has at most 53 significant binary digits, so the quotient is rounded to a
multiple of `2 ^ s`, where `s` is the number of digits it has beyond 53. Below `2⁵³` (the
subnormals and the first binade) the grid is the integers themselves. -/
def nearest_even (a b : Nat) : Nat :=
  let q := a / b
  let r := a % b
  let s := bit_length q - 53
  let m := q / 2 ^ s
  let low := q % 2 ^ s
  let twice := 2 * (low * b + r)
  let unit := 2 ^ s * b
  if twice < unit then m * 2 ^ s
  else if unit < twice then (m + 1) * 2 ^ s
  else (m + m % 2) * 2 ^ s

/-- The `double` nearest to `(n / d) · 2⁻¹⁰⁷⁴`. Overflow to infinity and division by zero are
not modelled. -/
def round (n : Int) (d : Nat) : double :=
  ⟨if n < 0 then -(nearest_even n.natAbs d : Int) else (nearest_even n.natAbs d : Int)⟩

/-- The integer that stands for `1.0`. -/
def one_num : Nat := 2 ^ 1074

/-- The `double` with the exact value `m · 2⁻ᵉ`, for `m` of at most 53 binary digits. -/
def of_binary (m : Int) (e : Nat) : double := ⟨m * ((2 ^ (1074 - e) : Nat) : Int)⟩

instance : Zero double := ⟨⟨0⟩⟩

instance : One double := ⟨⟨(one_num : Int)⟩⟩

/-- An integer literal: the nearest `double`. -/
instance : NatCast double := ⟨fun n => round ((n * one_num : Nat) : Int) 1⟩

/-- Negation is exact. -/
instance : Neg double := ⟨fun a => ⟨-a.num⟩⟩

/-- Addition: the exact sum, rounded. -/
instance : Add double := ⟨fun a b => round (a.num + b.num) 1⟩

/-- Subtraction: the exact difference, rounded. -/
instance : Sub double := ⟨fun a b => round (a.num - b.num) 1⟩

/-- Multiplication: the exact product, rounded. -/
instance : Mul double := ⟨fun a b => round (a.num * b.num) one_num⟩

/-- Division: the exact quotient, rounded. -/
instance : Div double := ⟨fun a b =>
  round (if b.num < 0 then -(a.num * (one_num : Int)) else a.num * (one_num : Int)) b.num.natAbs⟩

/-- Finite doubles are ordered as the integers that stand for them. -/
instance : LinearOrder double :=
  LinearOrder.lift' double.num (fun a b h => by cases a; cases b; cases h; rfl)

end double

/-- The constant `pi` of the math header, `3.1415926535897932385`, as the nearest `double`
`884279719003555 · 2⁻⁴⁸`. -/
def pi_double : double := double.of_binary 884279719003555 48

/-- The values `std::cos` returns at the two arguments the sample scenes reach: `cos(0) = 1` and,
for the `double` `1.5707963267948966` that `degrees_to_radians(90)` returns, the correctly rounded
cosine `6.123233995736766e-17 = 4967757600021511 · 2⁻¹⁰⁶`. No other argument is used. -/
def std_cos (x : double) : double :=
  if x = 0 then 1
  else if x = double.of_binary 884279719003555 49 then double.of_binary 4967757600021511 106
  else 0

/-- The values `std::sin` returns at the two arguments the sample scenes reach: `sin(0) = 0` and
`sin(1.5707963267948966) = 1`. No other argument is used. -/
def std_sin (x : double) : double :=
  if x = 0 then 0
  else if x = double.of_binary 884279719003555 49 then 1
  else 0

/-- The values `std::sqrt` returns at the two arguments the sample scenes reach: `sqrt(1) = 1`
and `sqrt(9) = 3`. No other argument is used. -/
def std_sqrt (x : double) : double :=
  if x = 1 then 1
  else if x = 9 then 3
  else 0

/-- The ray from `(0, 0.5, 1.5)` with direction `(0, 0, -1)`. -/
def skew_ray : ray double := ⟨⟨0, 1 / 2, 3 / 2⟩, ⟨0, 0, -1⟩, 0⟩

/-- The ray from `(0, 2, 5)` with direction `(0, 0, -1)`. -/
def edge_ray : ray α := ⟨⟨0, 2, 5⟩, ⟨0, 0, -1⟩, 0⟩

end Defs

/-! ## Auxiliary lemmas -/

section Lemmas

variable {α : Type} [LinearOrderedField α]

/-- In an ordered field `std::fabs` is the absolute value. -/
theorem fabs_eq_abs (x : α) : fabs x = |x| := by
  unfold fabs
  split_ifs with h
  · exact (abs_of_neg h).symm
  · exact (abs_of_nonneg (not_lt.mp h)).symm

theorem vec3.add_def (a b : vec3 α) : a + b = ⟨a.x + b.x, a.y + b.y, a.z + b.z⟩ := rfl

theorem vec3.sub_def (a b : vec3 α) : a - b = ⟨a.x - b.x, a.y - b.y, a.z - b.z⟩ := rfl

theorem vec3.neg_def (a : vec3 α) : -a = ⟨-a.x, -a.y, -a.z⟩ := rfl

/-- The member and the free `operator*` compute the same matrix. -/
theorem matrix.operator_mul_eq_free (a b : matrix α) :
    a.operator_mul b = RayTracer.operator_mul a b := rfl

/-- Applying the Euler matrix: `Rz (Ry (Rx v))`, plus the offset for a point. -/
theorem of_euler_apply (cos sin : α → α) (pi : α) (e o v : vec3 α) (f : Bool) :
    (operator_mul (matrix.of_euler cos sin pi e o) (matrix.of_vec3 v f)).to_vec3 =
      turn_z (cos (degrees_to_radians pi e.z)) (sin (degrees_to_radians pi e.z))
        (turn_y (cos (degrees_to_radians pi e.y)) (sin (degrees_to_radians pi e.y))
          (turn_x (cos (degrees_to_radians pi e.x)) (sin (degrees_to_radians pi e.x)) v))
      + (if f then o else ⟨0, 0, 0⟩) := by
  cases f <;>
  · simp [operator_mul, matrix.operator_mul, matrix.of_euler, matrix.of_vec3, matrix.to_vec3,
      matrix.set, matrix.identity, matrix.zero, vec3.get, turn_x, turn_y, turn_z, vec3.add_def]
    refine ⟨?_, ?_, ?_⟩ <;> ring

/-- Applying the inverse of the Euler matrix: remove the offset of a point, then undo the three
rotations in the opposite order. -/
theorem of_euler_inverse_apply (cos sin : α → α) (pi : α) (e o v : vec3 α) (f : Bool) :
    (operator_mul (matrix.of_euler cos sin pi e o).inverse (matrix.of_vec3 v f)).to_vec3 =
      turn_x (cos (degrees_to_radians pi e.x)) (-sin (degrees_to_radians pi e.x))
        (turn_y (cos (degrees_to_radians pi e.y)) (-sin (degrees_to_radians pi e.y))
          (turn_z (cos (degrees_to_radians pi e.z)) (-sin (degrees_to_radians pi e.z))
            (v - (if f then o else ⟨0, 0, 0⟩)))) := by
  cases f <;>
  · simp [operator_mul, matrix.operator_mul, matrix.of_euler, matrix.inverse, matrix.transpose,
      matrix.of_vec3, matrix.to_vec3,
      matrix.set, matrix.identity, matrix.zero, vec3.get, turn_x, turn_y, turn_z, vec3.sub_def]
    refine ⟨?_, ?_, ?_⟩ <;> ring

theorem vec3.add_sub_cancel_right (a o : vec3 α) : a + o - o = a := by
  ext <;> simp [vec3.add_def, vec3.sub_def]

theorem vec3.sub_add_cancel_right (a o : vec3 α) : a - o + o = a := by
  ext <;> simp [vec3.add_def, vec3.sub_def]

theorem vec3.add_zero_vec (a : vec3 α) : a + ⟨0, 0, 0⟩ = a := by
  ext <;> simp [vec3.add_def]

theorem vec3.sub_zero_vec (a : vec3 α) : a - ⟨0, 0, 0⟩ = a := by
  ext <;> simp [vec3.sub_def]

theorem turn_x_undo (c s : α) (h : c * c + s * s = 1) (v : vec3 α) :
    turn_x c (-s) (turn_x c s v) = v := by
  ext
  · rfl
  · simp only [turn_x]; linear_combination v.y * h
  · simp only [turn_x]; linear_combination v.z * h

theorem turn_y_undo (c s : α) (h : c * c + s * s = 1) (v : vec3 α) :
    turn_y c (-s) (turn_y c s v) = v := by
  ext
  · simp only [turn_y]; linear_combination v.x * h
  · rfl
  · simp only [turn_y]; linear_combination v.z * h

theorem turn_z_undo (c s : α) (h : c * c + s * s = 1) (v : vec3 α) :
    turn_z c (-s) (turn_z c s v) = v := by
  ext
  · simp only [turn_z]; linear_combination v.x * h
  · simp only [turn_z]; linear_combination v.y * h
  · rfl

theorem turn_x_redo (c s : α) (h : c * c + s * s = 1) (v : vec3 α) :
    turn_x c s (turn_x c (-s) v) = v := by
  have := turn_x_undo c (-s) (by linear_combination h) v
  simpa using this

theorem turn_y_redo (c s : α) (h : c * c + s * s = 1) (v : vec3 α) :
    turn_y c s (turn_y c (-s) v) = v := by
  have := turn_y_undo c (-s) (by linear_combination h) v
  simpa using this

theorem turn_z_redo (c s : α) (h : c * c + s * s = 1) (v : vec3 α) :
    turn_z c s (turn_z c (-s) v) = v := by
  have := turn_z_undo c (-s) (by linear_combination h) v
  simpa using this

theorem real_cos_sin (x : ℝ) : Real.cos x * Real.cos x + Real.sin x * Real.sin x = 1 := by
  have := Real.cos_sq_add_sin_sq x
  nlinarith [this]

/-- Composition law for a right factor whose column `m[..][3]` is `(0, 0, 0, 1)`. -/
theorem operator_mul_apply_of_affine (A B : matrix α) (hB0 : B.m 0 3 = 0) (hB1 : B.m 1 3 = 0)
    (hB2 : B.m 2 3 = 0) (hB3 : B.m 3 3 = 1) (x : vec3 α) (f : Bool) :
    (operator_mul (operator_mul A B) (matrix.of_vec3 x f)).to_vec3 =
      (operator_mul A (matrix.of_vec3 (operator_mul B (matrix.of_vec3 x f)).to_vec3 f)).to_vec3 := by
  cases f <;>
  · simp [operator_mul, matrix.of_vec3, matrix.to_vec3, matrix.set, matrix.zero, hB0, hB1, hB2,
      hB3]
    refine ⟨?_, ?_, ?_⟩ <;> ring

theorem transform_ctor.build_affine (cos sin : α → α) (pi : α) (B : transform_ctor α) :
    (B.build cos sin pi).m 0 3 = 0 ∧ (B.build cos sin pi).m 1 3 = 0 ∧
      (B.build cos sin pi).m 2 3 = 0 ∧ (B.build cos sin pi).m 3 3 = 1 := by
  cases B <;>
  simp [transform_ctor.build, matrix.identity, matrix.of_euler, matrix.of_basis,
    matrix.operator_mul, matrix.set]

theorem standard_Rx_mulVec (cos sin : α → α) (θ : α) (v : vec3 α) :
    (standard_Rx cos sin θ).mulVec v.column = (turn_x (cos θ) (sin θ) v).column := by
  funext i
  fin_cases i <;>
  simp [standard_Rx, Matrix.mulVec, Matrix.dotProduct, Fin.sum_univ_three, vec3.column, turn_x,
    Matrix.vecHead, Matrix.vecTail, sub_eq_add_neg]

theorem standard_Ry_mulVec (cos sin : α → α) (θ : α) (v : vec3 α) :
    (standard_Ry cos sin θ).mulVec v.column = (turn_y (cos θ) (sin θ) v).column := by
  funext i
  fin_cases i <;>
  simp [standard_Ry, Matrix.mulVec, Matrix.dotProduct, Fin.sum_univ_three, vec3.column, turn_y,
    Matrix.vecHead, Matrix.vecTail, sub_eq_add_neg]

theorem standard_Rz_mulVec (cos sin : α → α) (θ : α) (v : vec3 α) :
    (standard_Rz cos sin θ).mulVec v.column = (turn_z (cos θ) (sin θ) v).column := by
  funext i
  fin_cases i <;>
  simp [standard_Rz, Matrix.mulVec, Matrix.dotProduct, Fin.sum_univ_three, vec3.column, turn_z,
    Matrix.vecHead, Matrix.vecTail, sub_eq_add_neg]

theorem dot_smul_left (k : α) (a b : vec3 α) : dot (vec3.smul k a) b = k * dot a b := by
  simp only [dot, vec3.smul]; ring

theorem dot_cross_self_left (u v : vec3 α) : dot (cross u v) u = 0 := by
  simp only [dot, cross]; ring

theorem dot_cross_self_right (u v : vec3 α) : dot (cross u v) v = 0 := by
  simp only [dot, cross]; ring

theorem dot_self_pos_of_ne (n : vec3 α) (h : n ≠ ⟨0, 0, 0⟩) : 0 < dot n n := by
  have h0 : 0 ≤ dot n n := by
    simp only [dot]; nlinarith [mul_self_nonneg n.x, mul_self_nonneg n.y, mul_self_nonneg n.z]
  rcases h0.lt_or_eq with h1 | h1
  · exact h1
  · exfalso
    apply h
    simp only [dot] at h1
    have hx : n.x = 0 := by
      nlinarith [mul_self_nonneg n.x, mul_self_nonneg n.y, mul_self_nonneg n.z]
    have hy : n.y = 0 := by
      nlinarith [mul_self_nonneg n.x, mul_self_nonneg n.y, mul_self_nonneg n.z]
    have hz : n.z = 0 := by
      nlinarith [mul_self_nonneg n.x, mul_self_nonneg n.y, mul_self_nonneg n.z]
    ext <;> assumption

/-- The plane parameter the code computes is the parameter of any ray point on the shape's
plane `Q + a u + b v`; `k` is the scale the constructor applies to `cross(u, v)`. -/
theorem plane_parameter (k : α) (Q u v : vec3 α) (r : ray α) (t0 a b : α)
    (hd : dot (vec3.smul k (cross u v)) r.dir ≠ 0)
    (hp : r.at t0 = Q + vec3.smul a u + vec3.smul b v) :
    (dot (vec3.smul k (cross u v)) Q - dot (vec3.smul k (cross u v)) r.orig) /
      dot (vec3.smul k (cross u v)) r.dir = t0 := by
  rw [div_eq_iff hd]
  have hx := congrArg vec3.x hp
  have hy := congrArg vec3.y hp
  have hz := congrArg vec3.z hp
  simp only [ray.at, vec3.add_def, vec3.smul] at hx hy hz
  simp only [dot, cross, vec3.smul]
  linear_combination (-(k * (u.y * v.z - u.z * v.y))) * hx
    + (-(k * (u.z * v.x - u.x * v.z))) * hy + (-(k * (u.x * v.y - u.y * v.x))) * hz

/-- The first planar coordinate the code computes. -/
theorem planar_alpha (Q u v : vec3 α) (r : ray α) (t0 a b : α) (hn : cross u v ≠ ⟨0, 0, 0⟩)
    (hp : r.at t0 = Q + vec3.smul a u + vec3.smul b v) :
    dot (vec3.sdiv (cross u v) (dot (cross u v) (cross u v))) (cross (r.at t0 - Q) v) = a := by
  have hpos := dot_self_pos_of_ne (cross u v) hn
  have hh : r.at t0 - Q = vec3.smul a u + vec3.add (vec3.smul b v) ⟨0, 0, 0⟩ := by
    rw [hp]; ext <;> simp [vec3.add_def, vec3.sub_def, vec3.smul, vec3.add] <;> ring
  rw [hh, vec3.sdiv, dot_smul_left]
  have : dot (cross u v) (cross (vec3.smul a u + vec3.add (vec3.smul b v) ⟨0, 0, 0⟩) v)
      = a * dot (cross u v) (cross u v) := by
    simp only [dot, cross, vec3.smul, vec3.add_def, vec3.add]; ring
  rw [this]
  field_simp

/-- The second planar coordinate the code computes. -/
theorem planar_beta (Q u v : vec3 α) (r : ray α) (t0 a b : α) (hn : cross u v ≠ ⟨0, 0, 0⟩)
    (hp : r.at t0 = Q + vec3.smul a u + vec3.smul b v) :
    dot (vec3.sdiv (cross u v) (dot (cross u v) (cross u v))) (cross u (r.at t0 - Q)) = b := by
  have hpos := dot_self_pos_of_ne (cross u v) hn
  have hh : r.at t0 - Q = vec3.smul a u + vec3.add (vec3.smul b v) ⟨0, 0, 0⟩ := by
    rw [hp]; ext <;> simp [vec3.add_def, vec3.sub_def, vec3.smul, vec3.add] <;> ring
  rw [hh, vec3.sdiv, dot_smul_left]
  have : dot (cross u v) (cross u (vec3.smul a u + vec3.add (vec3.smul b v) ⟨0, 0, 0⟩))
      = b * dot (cross u v) (cross u v) := by
    simp only [dot, cross, vec3.smul, vec3.add_def, vec3.add]; ring
  rw [this]
  field_simp

/-- Value of `quad::hit` for a ray that meets the plane at the point `Q + a u + b v` of the
parallelogram. -/
theorem quad_hit_of_inside (sqrt : α → α) (Q u v : vec3 α) (mat : material) (r : ray α)
    (ray_t : interval (extended α)) (rec : hit_record α) (t0 a b : α)
    (hn : cross u v ≠ ⟨0, 0, 0⟩)
    (hd : 1 / 100000000 ≤ |dot (unit_vector sqrt (cross u v)) r.dir|)
    (ht : ray_t.contains t0 = true)
    (hp : r.at t0 = Q + vec3.smul a u + vec3.smul b v)
    (ha : 0 ≤ a ∧ a ≤ 1) (hb : 0 ≤ b ∧ b ≤ 1) :
    (quad.new sqrt Q u v mat).hit r ray_t rec =
      (true, ({ rec with u := a, v := b, t := t0, p := r.at t0, mat := mat }).set_face_normal r
        (unit_vector sqrt (cross u v))) := by
  have hd0 : dot (vec3.smul (1 / vec3.length sqrt (cross u v)) (cross u v)) r.dir ≠ 0 := by
    intro h0
    rw [unit_vector, vec3.sdiv, h0] at hd
    norm_num at hd
  have hT := plane_parameter (1 / vec3.length sqrt (cross u v)) Q u v r t0 a b hd0 hp
  have hA := planar_alpha Q u v r t0 a b hn hp
  have hB := planar_beta Q u v r t0 a b hn hp
  simp only [quad.hit, quad.new, unit_vector, vec3.sdiv, fabs_eq_abs] at hd ⊢
  rw [if_neg (not_lt.mpr hd), hT]
  simp only [vec3.sdiv] at hA hB
  simp only [ht, hA, hB, Bool.not_true, Bool.false_eq_true, if_false]
  simp [quad.is_interior, interval.contains, extended.le, ha.1, ha.2, hb.1, hb.2]

/-- Value of `triangle::hit` for a ray that meets the plane at the point `Q + a u + b v` of the
triangle. -/
theorem triangle_hit_of_inside (sqrt : α → α) (Q u v : vec3 α) (mat : material) (r : ray α)
    (ray_t : interval (extended α)) (rec : hit_record α) (t0 a b : α)
    (hn : cross u v ≠ ⟨0, 0, 0⟩)
    (hd : 1 / 100000000 ≤ |dot (unit_vector sqrt (cross u v)) r.dir|)
    (ht : ray_t.contains t0 = true)
    (hp : r.at t0 = Q + vec3.smul a u + vec3.smul b v)
    (ha : 0 ≤ a) (hb : 0 ≤ b) (hab : a + b ≤ 1) :
    (triangle.new sqrt Q u v mat).hit r ray_t rec =
      (true, ({ rec with u := a, v := b, t := t0, p := r.at t0, mat := mat }).set_face_normal r
        (unit_vector sqrt (cross u v))) := by
  have hd0 : dot (vec3.smul (1 / vec3.length sqrt (cross u v)) (cross u v)) r.dir ≠ 0 := by
    intro h0
    rw [unit_vector, vec3.sdiv, h0] at hd
    norm_num at hd
  have hT := plane_parameter (1 / vec3.length sqrt (cross u v)) Q u v r t0 a b hd0 hp
  have hA := planar_alpha Q u v r t0 a b hn hp
  have hB := planar_beta Q u v r t0 a b hn hp
  simp only [triangle.hit, triangle.new, unit_vector, vec3.sdiv, fabs_eq_abs] at hd ⊢
  rw [if_neg (not_lt.mpr hd), hT]
  simp only [vec3.sdiv] at hA hB
  simp only [ht, hA, hB, Bool.not_true, Bool.false_eq_true, if_false]
  simp [triangle.is_interior, not_lt.mpr ha, not_lt.mpr hb, not_lt.mpr hab]

/-- Value of `quad::hit` in the sample scene. -/
theorem probe_quad_hit :
    (quad.new Real.sqrt ⟨0, 0, 0⟩ ⟨1, 0, 0⟩ ⟨0, 1, 0⟩ 0).hit probe_ray nonneg_interval
      blank_record = (true, ⟨⟨1 / 2, 1 / 2, 0⟩, ⟨0, 0, 1⟩, 0, 1, 1 / 2, 1 / 2, true⟩) := by
  rw [quad_hit_of_inside Real.sqrt ⟨0, 0, 0⟩ ⟨1, 0, 0⟩ ⟨0, 1, 0⟩ 0 probe_ray nonneg_interval
    blank_record 1 (1 / 2) (1 / 2) (by simp [cross])
    (by
      simp [unit_vector, cross, vec3.sdiv, vec3.length, vec3.length_squared, dot, vec3.smul,
        probe_ray]
      norm_num)
    (by simp [interval.contains, nonneg_interval, extended.le])
    (by simp [ray.at, probe_ray, vec3.add_def, vec3.smul])
    ⟨by norm_num, by norm_num⟩ ⟨by norm_num, by norm_num⟩]
  simp [hit_record.set_face_normal, blank_record, probe_ray, ray.at, unit_vector, cross,
    vec3.sdiv, vec3.length, vec3.length_squared, dot, vec3.smul, vec3.add_def]

/-- Value of `quad::hit` when the plane parameter lies outside `ray_t`. -/
theorem quad_hit_of_not_contains (sqrt : α → α) (Q u v : vec3 α) (mat : material) (r : ray α)
    (ray_t : interval (extended α)) (rec : hit_record α) (t0 a b : α)
    (hd : 1 / 100000000 ≤ |dot (unit_vector sqrt (cross u v)) r.dir|)
    (ht : ray_t.contains t0 = false)
    (hp : r.at t0 = Q + vec3.smul a u + vec3.smul b v) :
    (quad.new sqrt Q u v mat).hit r ray_t rec = (false, rec) := by
  have hd0 : dot (vec3.smul (1 / vec3.length sqrt (cross u v)) (cross u v)) r.dir ≠ 0 := by
    intro h0
    rw [unit_vector, vec3.sdiv, h0] at hd
    norm_num at hd
  have hT := plane_parameter (1 / vec3.length sqrt (cross u v)) Q u v r t0 a b hd0 hp
  simp only [quad.hit, quad.new, unit_vector, vec3.sdiv, fabs_eq_abs] at hd ⊢
  rw [if_neg (not_lt.mpr hd), hT]
  simp only [ht, Bool.not_false, if_true]
/-- Value of `quad::hit` for the two squares of the slab. -/
theorem slab_quad_hit (c : ℝ) (ray_t : interval (extended ℝ)) (rec : hit_record ℝ) :
    (quad.new Real.sqrt ⟨0, 0, c⟩ ⟨1, 0, 0⟩ ⟨0, 1, 0⟩ 0).hit slab_ray ray_t rec
      = if ray_t.contains (2 - c) then
          (true, ⟨⟨1 / 2, 1 / 2, c⟩, ⟨0, 0, 1⟩, 0, 2 - c, 1 / 2, 1 / 2, true⟩)
        else (false, rec) := by
  have hd : 1 / 100000000 ≤
      |dot (unit_vector Real.sqrt (cross ⟨1, 0, 0⟩ ⟨0, 1, 0⟩)) (slab_ray : ray ℝ).dir| := by
    simp [unit_vector, cross, vec3.sdiv, vec3.length, vec3.length_squared, dot, vec3.smul,
      slab_ray]
    norm_num
  have hp : (slab_ray : ray ℝ).at (2 - c)
      = ⟨0, 0, c⟩ + vec3.smul (1 / 2) ⟨1, 0, 0⟩ + vec3.smul (1 / 2) ⟨0, 1, 0⟩ := by
    simp [ray.at, slab_ray, vec3.add_def, vec3.smul]
  by_cases h : ray_t.contains (2 - c) = true
  · rw [if_pos h, quad_hit_of_inside Real.sqrt _ _ _ 0 slab_ray ray_t rec (2 - c) (1 / 2) (1 / 2)
      (by simp [cross]) hd h hp ⟨by norm_num, by norm_num⟩ ⟨by norm_num, by norm_num⟩]
    simp [hit_record.set_face_normal, slab_ray, ray.at, unit_vector, cross,
      vec3.sdiv, vec3.length, vec3.length_squared, dot, vec3.smul, vec3.add_def]
  · rw [if_neg h, quad_hit_of_not_contains Real.sqrt _ _ _ 0 slab_ray ray_t rec (2 - c) (1 / 2)
      (1 / 2) hd (by simpa using h) hp]

/-- The sample ray enters the slab at `t = 1`. -/
theorem slab_entry (rec : hit_record ℝ) :
    (slab_boundary Real.sqrt).hit slab_ray interval.universe_ rec
      = (true, ⟨⟨1 / 2, 1 / 2, 1⟩, ⟨0, 0, 1⟩, 0, 1, 1 / 2, 1 / 2, true⟩) := by
  simp only [slab_boundary, hittable_list.to_hittable, hittable_list.hit, quad.to_hittable,
    List.foldl, slab_quad_hit]
  simp [interval.contains, interval.universe_, extended.le]
  norm_num

/-- Past the entry the sample ray leaves the slab at `t = 2`. -/
theorem slab_exit (lo : ℝ) (h1 : 1 < lo) (h2 : lo ≤ 2) (rec : hit_record ℝ) :
    (slab_boundary Real.sqrt).hit slab_ray ⟨extended.finite lo, extended.infinity⟩ rec
      = (true, ⟨⟨1 / 2, 1 / 2, 0⟩, ⟨0, 0, 1⟩, 0, 2, 1 / 2, 1 / 2, true⟩) := by
  simp only [slab_boundary, hittable_list.to_hittable, hittable_list.hit, quad.to_hittable,
    List.foldl, slab_quad_hit]
  have e1 : (2 : ℝ) - 1 = 1 := by norm_num
  simp [interval.contains, extended.le, e1, not_le.mpr h1, h2]

/-- `constant_medium::hit` never reads its interval argument. -/
theorem constant_medium_hit_ignores_ray_t (sqrt log : α → α) (U : α) (rec1 rec2 : hit_record α)
    (self : constant_medium α) (r : ray α) (ray_t ray_t' : interval (extended α))
    (rec : hit_record α) :
    constant_medium.hit sqrt log U rec1 rec2 self r ray_t rec =
      constant_medium.hit sqrt log U rec1 rec2 self r ray_t' rec := rfl

/-- Applying a diagonal matrix built by `matrix(x, y, z)`. -/
theorem of_basis_diag_apply (a b c : α) (v : vec3 α) (f : Bool) :
    (operator_mul (matrix.of_basis ⟨a, 0, 0⟩ ⟨0, b, 0⟩ ⟨0, 0, c⟩) (matrix.of_vec3 v f)).to_vec3
      = ⟨a * v.x, b * v.y, c * v.z⟩ := by
  cases f <;>
  simp [operator_mul, matrix.of_basis, matrix.of_vec3, matrix.to_vec3, matrix.set,
    matrix.zero, vec3.get, mul_comm]

/-- Value of `scale::hit` in terms of the child's answer. -/
theorem scale_hit_eq (sqrt : α → α) (child : hittable α) (s : vec3 α) (r : ray α)
    (ray_t : interval (extended α)) (rec : hit_record α) :
    scale.hit sqrt (scale.new child s) r ray_t rec =
      if (child.hit ((scale.new child s).object_r r) ray_t rec).1 = true then
        (true, { (child.hit ((scale.new child s).object_r r) ray_t rec).2 with
          p := ⟨s.x * (child.hit ((scale.new child s).object_r r) ray_t rec).2.p.x,
                s.y * (child.hit ((scale.new child s).object_r r) ray_t rec).2.p.y,
                s.z * (child.hit ((scale.new child s).object_r r) ray_t rec).2.p.z⟩,
          normal := unit_vector sqrt
              ⟨s.x * (child.hit ((scale.new child s).object_r r) ray_t rec).2.normal.x,
               s.y * (child.hit ((scale.new child s).object_r r) ray_t rec).2.normal.y,
               s.z * (child.hit ((scale.new child s).object_r r) ray_t rec).2.normal.z⟩ })
      else (false, (child.hit ((scale.new child s).object_r r) ray_t rec).2) := by
  unfold scale.hit
  simp only []
  by_cases h : (child.hit ((scale.new child s).object_r r) ray_t rec).1 = true
  · have h' : ((scale.new child s).object.hit ((scale.new child s).object_r r) ray_t rec).1
        = true := h
    rw [if_pos h]
    simp only [h', Bool.not_true, Bool.false_eq_true, if_false]
    simp only [scale.new, of_basis_diag_apply]
  · have h' : ((scale.new child s).object.hit ((scale.new child s).object_r r) ray_t rec).1
        = false := by simpa using h
    rw [if_neg h]
    simp only [h', Bool.not_false, if_true]
    rfl

/-- The object-space ray of a `scale`. -/
theorem scale_object_r (child : hittable α) (s : vec3 α) (r : ray α) :
    (scale.new child s).object_r r =
      ⟨⟨1 / s.x * r.orig.x, 1 / s.y * r.orig.y, 1 / s.z * r.orig.z⟩,
       ⟨1 / s.x * r.dir.x, 1 / s.y * r.dir.y, 1 / s.z * r.dir.z⟩, r.tm⟩ := by
  simp only [scale.object_r, scale.new, of_basis_diag_apply]
/-- The x rotation maps the ray point `a + t b` to the ray point of the images. -/
theorem turn_x_at (c s t : α) (a b : vec3 α) :
    turn_x c s (a + vec3.smul t b) = turn_x c s a + vec3.smul t (turn_x c s b) := by
  ext <;> simp only [turn_x, vec3.add_def, vec3.smul] <;> ring

/-- The y rotation maps the ray point `a + t b` to the ray point of the images. -/
theorem turn_y_at (c s t : α) (a b : vec3 α) :
    turn_y c s (a + vec3.smul t b) = turn_y c s a + vec3.smul t (turn_y c s b) := by
  ext <;> simp only [turn_y, vec3.add_def, vec3.smul] <;> ring

/-- The z rotation maps the ray point `a + t b` to the ray point of the images. -/
theorem turn_z_at (c s t : α) (a b : vec3 α) :
    turn_z c s (a + vec3.smul t b) = turn_z c s a + vec3.smul t (turn_z c s b) := by
  ext <;> simp only [turn_z, vec3.add_def, vec3.smul] <;> ring

/-- Value of `rotate::hit` in terms of the child's answer. -/
theorem rotate_hit_eq (self : rotate α) (r : ray α)
    (ray_t : interval (extended α)) (rec : hit_record α) :
    self.hit r ray_t rec =
      if (self.object.hit (self.object_r r) ray_t rec).1 = true then
        (true, { (self.object.hit (self.object_r r) ray_t rec).2 with
          p := (operator_mul self.trans
            (matrix.of_vec3 (self.object.hit (self.object_r r) ray_t rec).2.p true)).to_vec3,
          normal := (operator_mul self.trans
            (matrix.of_vec3 (self.object.hit (self.object_r r) ray_t rec).2.normal
              false)).to_vec3 })
      else (false, (self.object.hit (self.object_r r) ray_t rec).2) := by
  unfold rotate.hit
  simp only []
  by_cases h : (self.object.hit (self.object_r r) ray_t rec).1 = true
  · rw [if_pos h]
    simp only [h, Bool.not_true, Bool.false_eq_true, if_false]
  · have h' : (self.object.hit (self.object_r r) ray_t rec).1 = false := by simpa using h
    rw [if_neg h]
    simp only [h', Bool.not_false, if_true]

/-- Value of `translate::hit` in terms of the child's answer. -/
theorem translate_hit_eq (self : translate α) (r : ray α)
    (ray_t : interval (extended α)) (rec : hit_record α) :
    self.hit r ray_t rec =
      if (self.object.hit (self.offset_r r) ray_t rec).1 = true then
        (true, { (self.object.hit (self.offset_r r) ray_t rec).2 with
          p := (self.object.hit (self.offset_r r) ray_t rec).2.p + self.offset })
      else (false, (self.object.hit (self.offset_r r) ray_t rec).2) := by
  unfold translate.hit
  simp only []
  by_cases h : (self.object.hit (self.offset_r r) ray_t rec).1 = true
  · rw [if_pos h]
    simp only [h, Bool.not_true, Bool.false_eq_true, if_false]
  · have h' : (self.object.hit (self.offset_r r) ray_t rec).1 = false := by simpa using h
    rw [if_neg h]
    simp only [h', Bool.not_false, if_true]
/-- The Euler matrix maps the ray point `a + t b` to the ray point of the image of `a` (as a
point) and of `b` (as a direction). -/
theorem of_euler_apply_at (cos sin : α → α) (pi : α) (e o a b : vec3 α) (t : α) :
    (operator_mul (matrix.of_euler cos sin pi e o)
        (matrix.of_vec3 (a + vec3.smul t b) true)).to_vec3 =
      (operator_mul (matrix.of_euler cos sin pi e o) (matrix.of_vec3 a true)).to_vec3 +
        vec3.smul t
          (operator_mul (matrix.of_euler cos sin pi e o) (matrix.of_vec3 b false)).to_vec3 := by
  simp only [of_euler_apply, turn_x_at, turn_y_at, turn_z_at, if_true, Bool.false_eq_true,
    if_false, vec3.add_zero_vec]
  ext <;> simp only [vec3.add_def] <;> ring
theorem vec3.sub_neg_sub_cancel (a o : vec3 α) : a - -o - o = a := by
  ext <;> simp [vec3.sub_def, vec3.neg_def]

theorem vec3.add_add_neg_cancel (a o : vec3 α) : a + o + -o = a := by
  ext <;> simp [vec3.add_def, vec3.neg_def]

/-- Undoing a translation gives the child's ray back. -/
theorem translate_offset_r_round_trip (x : hittable α) (o : vec3 α) (r : ray α) :
    (translate.new x o).offset_r
      ((translate.new (translate.new x o).to_hittable (-o)).offset_r r) = r := by
  cases r
  simp [translate.offset_r, translate.new, vec3.sub_neg_sub_cancel]

theorem extended.fmin_infinity_finite (a : α) :
    extended.fmin extended.infinity (extended.finite a) = extended.finite a := by
  simp [extended.fmin, extended.le]

theorem extended.fmax_neg_infinity_finite (a : α) :
    extended.fmax extended.neg_infinity (extended.finite a) = extended.finite a := by
  simp [extended.fmax, extended.le]

theorem extended.fmin_finite (a b : α) :
    extended.fmin (extended.finite a) (extended.finite b) = extended.finite (min a b) := by
  by_cases h : a ≤ b <;> simp [extended.fmin, extended.le, h, min_def]

theorem extended.fmax_finite (a b : α) :
    extended.fmax (extended.finite a) (extended.finite b) = extended.finite (max a b) := by
  by_cases h : a ≤ b <;> simp [extended.fmax, extended.le, h, max_def]

theorem aabb.corner_min_le_max (bbox : aabb α) (g : vec3 α → α) :
    bbox.corner_min g ≤ bbox.corner_max g := by
  have h1 : bbox.corner_min g ≤ g ⟨bbox.x.min, bbox.y.min, bbox.z.min⟩ := by
    simp [aabb.corner_min, min_le_iff]
  have h2 : g ⟨bbox.x.min, bbox.y.min, bbox.z.min⟩ ≤ bbox.corner_max g := by
    simp [aabb.corner_max, le_max_iff]
  exact h1.trans h2

/-- The box `rotate::rotate` stores: on each axis, from the least to the greatest coordinate of
the eight transformed corners. -/
theorem rotate_bbox_eq (cos sin : α → α) (pi : α) (bbox : aabb α) (e : vec3 α) :
    rotate.bbox cos sin pi bbox e =
      ⟨⟨extended.finite (bbox.corner_min fun c =>
          ((matrix.of_euler cos sin pi e ⟨0, 0, 0⟩).operator_mul (matrix.of_vec3 c true)).to_vec3.x),
        extended.finite (bbox.corner_max fun c =>
          ((matrix.of_euler cos sin pi e ⟨0, 0, 0⟩).operator_mul (matrix.of_vec3 c true)).to_vec3.x)⟩,
       ⟨extended.finite (bbox.corner_min fun c =>
          ((matrix.of_euler cos sin pi e ⟨0, 0, 0⟩).operator_mul (matrix.of_vec3 c true)).to_vec3.y),
        extended.finite (bbox.corner_max fun c =>
          ((matrix.of_euler cos sin pi e ⟨0, 0, 0⟩).operator_mul (matrix.of_vec3 c true)).to_vec3.y)⟩,
       ⟨extended.finite (bbox.corner_min fun c =>
          ((matrix.of_euler cos sin pi e ⟨0, 0, 0⟩).operator_mul (matrix.of_vec3 c true)).to_vec3.z),
        extended.finite (bbox.corner_max fun c =>
          ((matrix.of_euler cos sin pi e ⟨0, 0, 0⟩).operator_mul (matrix.of_vec3 c true)).to_vec3.z)⟩⟩ := by
  have hx := aabb.corner_min_le_max bbox fun c =>
    ((matrix.of_euler cos sin pi e ⟨0, 0, 0⟩).operator_mul (matrix.of_vec3 c true)).to_vec3.x
  have hy := aabb.corner_min_le_max bbox fun c =>
    ((matrix.of_euler cos sin pi e ⟨0, 0, 0⟩).operator_mul (matrix.of_vec3 c true)).to_vec3.y
  have hz := aabb.corner_min_le_max bbox fun c =>
    ((matrix.of_euler cos sin pi e ⟨0, 0, 0⟩).operator_mul (matrix.of_vec3 c true)).to_vec3.z
  simp only [aabb.corner_min, aabb.corner_max] at hx hy hz ⊢
  simp only [rotate.bbox, List.foldl, rotate.bbox_step, zero_mul, one_mul, sub_zero, sub_self,
    zero_add, add_zero, extended.fmin_infinity_finite, extended.fmax_neg_infinity_finite,
    extended.fmin_finite, extended.fmax_finite, aabb.of_extended_points,
    min_eq_left hx, max_eq_right hx, min_eq_left hy, max_eq_right hy, min_eq_left hz,
    max_eq_right hz]

/-- A multiple of a value between two bounds lies above the multiple of one of the bounds. -/
theorem mul_bound_lower (c lo hi t : α) (h1 : lo ≤ t) (h2 : t ≤ hi) :
    ∃ X, (X = lo ∨ X = hi) ∧ c * X ≤ c * t := by
  rcases le_total 0 c with hc | hc
  · exact ⟨lo, Or.inl rfl, mul_le_mul_of_nonneg_left h1 hc⟩
  · exact ⟨hi, Or.inr rfl, mul_le_mul_of_nonpos_left h2 hc⟩

/-- A multiple of a value between two bounds lies below the multiple of one of the bounds. -/
theorem mul_bound_upper (c lo hi t : α) (h1 : lo ≤ t) (h2 : t ≤ hi) :
    ∃ X, (X = lo ∨ X = hi) ∧ c * t ≤ c * X := by
  rcases le_total 0 c with hc | hc
  · exact ⟨hi, Or.inr rfl, mul_le_mul_of_nonneg_left h2 hc⟩
  · exact ⟨lo, Or.inl rfl, mul_le_mul_of_nonpos_left h1 hc⟩

/-- A linear form at a point of a box lies between its least and greatest corner values. -/
theorem linear_form_corner_bounds (bbox : aabb α) (c1 c2 c3 : α) (q : vec3 α)
    (hx : bbox.x.min ≤ q.x ∧ q.x ≤ bbox.x.max) (hy : bbox.y.min ≤ q.y ∧ q.y ≤ bbox.y.max)
    (hz : bbox.z.min ≤ q.z ∧ q.z ≤ bbox.z.max) :
    bbox.corner_min (fun c => c1 * c.x + c2 * c.y + c3 * c.z) ≤ c1 * q.x + c2 * q.y + c3 * q.z ∧
    c1 * q.x + c2 * q.y + c3 * q.z ≤ bbox.corner_max (fun c => c1 * c.x + c2 * c.y + c3 * c.z) := by
  constructor
  · obtain ⟨X, hX, hX'⟩ := mul_bound_lower c1 _ _ _ hx.1 hx.2
    obtain ⟨Y, hY, hY'⟩ := mul_bound_lower c2 _ _ _ hy.1 hy.2
    obtain ⟨Z, hZ, hZ'⟩ := mul_bound_lower c3 _ _ _ hz.1 hz.2
    have hm : bbox.corner_min (fun c => c1 * c.x + c2 * c.y + c3 * c.z)
        ≤ c1 * X + c2 * Y + c3 * Z := by
      rcases hX with rfl | rfl <;> rcases hY with rfl | rfl <;> rcases hZ with rfl | rfl <;>
      simp only [aabb.corner_min, min_le_iff, le_refl, true_or, or_true]
    linarith
  · obtain ⟨X, hX, hX'⟩ := mul_bound_upper c1 _ _ _ hx.1 hx.2
    obtain ⟨Y, hY, hY'⟩ := mul_bound_upper c2 _ _ _ hy.1 hy.2
    obtain ⟨Z, hZ, hZ'⟩ := mul_bound_upper c3 _ _ _ hz.1 hz.2
    have hm : c1 * X + c2 * Y + c3 * Z
        ≤ bbox.corner_max (fun c => c1 * c.x + c2 * c.y + c3 * c.z) := by
      rcases hX with rfl | rfl <;> rcases hY with rfl | rfl <;> rcases hZ with rfl | rfl <;>
      simp only [aabb.corner_max, le_max_iff, le_refl, true_or, or_true]
    linarith

/-- The Euler matrix without offset acts on a point by three linear forms. -/
theorem of_euler_point_linear (cos sin : α → α) (pi : α) (e q : vec3 α) :
    ((matrix.of_euler cos sin pi e ⟨0, 0, 0⟩).operator_mul (matrix.of_vec3 q true)).to_vec3 =
      ⟨cos (degrees_to_radians pi e.z) * cos (degrees_to_radians pi e.y) * q.x
        + (cos (degrees_to_radians pi e.z) * sin (degrees_to_radians pi e.y)
            * sin (degrees_to_radians pi e.x)
          - sin (degrees_to_radians pi e.z) * cos (degrees_to_radians pi e.x)) * q.y
        + (cos (degrees_to_radians pi e.z) * sin (degrees_to_radians pi e.y)
            * cos (degrees_to_radians pi e.x)
          + sin (degrees_to_radians pi e.z) * sin (degrees_to_radians pi e.x)) * q.z,
       sin (degrees_to_radians pi e.z) * cos (degrees_to_radians pi e.y) * q.x
        + (sin (degrees_to_radians pi e.z) * sin (degrees_to_radians pi e.y)
            * sin (degrees_to_radians pi e.x)
          + cos (degrees_to_radians pi e.z) * cos (degrees_to_radians pi e.x)) * q.y
        + (sin (degrees_to_radians pi e.z) * sin (degrees_to_radians pi e.y)
            * cos (degrees_to_radians pi e.x)
          - cos (degrees_to_radians pi e.z) * sin (degrees_to_radians pi e.x)) * q.z,
       -sin (degrees_to_radians pi e.y) * q.x
        + cos (degrees_to_radians pi e.y) * sin (degrees_to_radians pi e.x) * q.y
        + cos (degrees_to_radians pi e.y) * cos (degrees_to_radians pi e.x) * q.z⟩ := by
  rw [matrix.operator_mul_eq_free, of_euler_apply]
  ext <;> simp [turn_x, turn_y, turn_z, vec3.add_def] <;> ring

/-- Every point of a box is mapped by the Euler matrix into the box `rotate::rotate` stores. -/
theorem rotate_bbox_contains (cos sin : α → α) (pi : α) (bbox : aabb α) (e q : vec3 α)
    (hx : bbox.x.min ≤ q.x ∧ q.x ≤ bbox.x.max) (hy : bbox.y.min ≤ q.y ∧ q.y ≤ bbox.y.max)
    (hz : bbox.z.min ≤ q.z ∧ q.z ≤ bbox.z.max) :
    (rotate.bbox cos sin pi bbox e).contains
      ((matrix.of_euler cos sin pi e ⟨0, 0, 0⟩).operator_mul (matrix.of_vec3 q true)).to_vec3
      = true := by
  rw [rotate_bbox_eq]
  simp only [of_euler_point_linear, aabb.contains, interval.contains, extended.le,
    Bool.and_eq_true, decide_eq_true_eq]
  exact ⟨⟨linear_form_corner_bounds bbox _ _ _ q hx hy hz,
    linear_form_corner_bounds bbox _ _ _ q hx hy hz⟩,
    linear_form_corner_bounds bbox _ _ _ q hx hy hz⟩

theorem turn_x_one_zero (v : vec3 α) : turn_x 1 0 v = v := by
  ext <;> simp [turn_x]

theorem turn_y_one_zero (v : vec3 α) : turn_y 1 0 v = v := by
  ext <;> simp [turn_y]

theorem turn_z_one_zero (v : vec3 α) : turn_z 1 0 v = v := by
  ext <;> simp [turn_z]

/-- With all three cosines one and all three sines zero, `rotate::hit` is the child's `hit`. -/
theorem rotate_hit_of_trivial (cos sin : α → α) (pi : α) (child : hittable α) (e : vec3 α)
    (hcx : cos (degrees_to_radians pi e.x) = 1) (hsx : sin (degrees_to_radians pi e.x) = 0)
    (hcy : cos (degrees_to_radians pi e.y) = 1) (hsy : sin (degrees_to_radians pi e.y) = 0)
    (hcz : cos (degrees_to_radians pi e.z) = 1) (hsz : sin (degrees_to_radians pi e.z) = 0)
    (r : ray α) (ray_t : interval (extended α)) (rec : hit_record α) :
    (rotate.new cos sin pi child e).hit r ray_t rec = child.hit r ray_t rec := by
  have hobj : (rotate.new cos sin pi child e).object_r r = r := by
    cases r
    simp only [rotate.object_r, rotate.new, of_euler_inverse_apply, hcx, hsx, hcy, hsy, hcz, hsz,
      neg_zero, turn_x_one_zero, turn_y_one_zero, turn_z_one_zero, if_true, Bool.false_eq_true,
      if_false, vec3.sub_zero_vec]
  have hchild : (rotate.new cos sin pi child e).object = child := rfl
  rw [rotate_hit_eq, hobj, hchild]
  have htr : (rotate.new cos sin pi child e).trans = matrix.of_euler cos sin pi e ⟨0, 0, 0⟩ := rfl
  simp only [htr, of_euler_apply, hcx, hsx, hcy, hsy, hcz, hsz, turn_x_one_zero,
    turn_y_one_zero, turn_z_one_zero, if_true, Bool.false_eq_true, if_false, vec3.add_zero_vec]
  by_cases h : (child.hit r ray_t rec).1 = true
  · rw [if_pos h]
    rw [← h]
  · have h' : (child.hit r ray_t rec).1 = false := by simpa using h
    rw [if_neg h]
    rw [← h']

/-- With all three cosines one and all three sines zero, the box `rotate::rotate` stores is the
child's box, provided the child's box has `min ≤ max` on every axis. -/
theorem rotate_bbox_of_trivial (cos sin : α → α) (pi : α) (bbox : aabb α) (e : vec3 α)
    (hcx : cos (degrees_to_radians pi e.x) = 1) (hsx : sin (degrees_to_radians pi e.x) = 0)
    (hcy : cos (degrees_to_radians pi e.y) = 1) (hsy : sin (degrees_to_radians pi e.y) = 0)
    (hcz : cos (degrees_to_radians pi e.z) = 1) (hsz : sin (degrees_to_radians pi e.z) = 0)
    (hx : bbox.x.min ≤ bbox.x.max) (hy : bbox.y.min ≤ bbox.y.max)
    (hz : bbox.z.min ≤ bbox.z.max) :
    rotate.bbox cos sin pi bbox e = bbox.lift := by
  have hf : ∀ q : vec3 α,
      ((matrix.of_euler cos sin pi e ⟨0, 0, 0⟩).operator_mul (matrix.of_vec3 q true)).to_vec3
        = q := by
    intro q
    rw [matrix.operator_mul_eq_free, of_euler_apply]
    simp only [hcx, hsx, hcy, hsy, hcz, hsz, turn_x_one_zero, turn_y_one_zero, turn_z_one_zero,
      if_true, vec3.add_zero_vec]
  rw [rotate_bbox_eq]
  simp only [hf, aabb.corner_min, aabb.corner_max, aabb.lift, min_self, max_self,
    min_eq_left hx, max_eq_right hx, min_eq_left hy, max_eq_right hy, min_eq_left hz,
    max_eq_right hz, min_eq_right hx, max_eq_left hx, min_eq_right hy, max_eq_left hy,
    min_eq_right hz, max_eq_left hz]

/-- The boxes of the six quads of `box`, for corners already ordered on every axis. -/
theorem box_quad_boxes (sqrt : α → α) (a b : vec3 α) (mat : material) :
    (box sqrt a b mat).map quad.set_bounding_box =
      [⟨⟨min a.x b.x, max a.x b.x⟩, ⟨min a.y b.y, max a.y b.y⟩, ⟨max a.z b.z, max a.z b.z⟩⟩,
       ⟨⟨max a.x b.x, max a.x b.x⟩, ⟨min a.y b.y, max a.y b.y⟩, ⟨min a.z b.z, max a.z b.z⟩⟩,
       ⟨⟨min a.x b.x, max a.x b.x⟩, ⟨min a.y b.y, max a.y b.y⟩, ⟨min a.z b.z, min a.z b.z⟩⟩,
       ⟨⟨min a.x b.x, min a.x b.x⟩, ⟨min a.y b.y, max a.y b.y⟩, ⟨min a.z b.z, max a.z b.z⟩⟩,
       ⟨⟨min a.x b.x, max a.x b.x⟩, ⟨max a.y b.y, max a.y b.y⟩, ⟨min a.z b.z, max a.z b.z⟩⟩,
       ⟨⟨min a.x b.x, max a.x b.x⟩, ⟨min a.y b.y, min a.y b.y⟩, ⟨min a.z b.z, max a.z b.z⟩⟩] := by
  simp only [box]
  have hx : min a.x b.x ≤ max a.x b.x := min_le_max
  have hy : min a.y b.y ≤ max a.y b.y := min_le_max
  have hz : min a.z b.z ≤ max a.z b.z := min_le_max
  generalize min a.x b.x = x0 at *
  generalize max a.x b.x = x1 at *
  generalize min a.y b.y = y0 at *
  generalize max a.y b.y = y1 at *
  generalize min a.z b.z = z0 at *
  generalize max a.z b.z = z1 at *
  simp [quad.new, quad.set_bounding_box, aabb.of_points, aabb.union, vec3.add_def,
    vec3.neg_def, hx, hy, hz]

theorem swap_pts_1_2 (p0 p1 p2 p3 : vec3 α) :
    swap_pts (pts_array p0 p1 p2 p3) 1 2 = pts_array p0 p2 p1 p3 := by
  funext k
  fin_cases k <;> simp [swap_pts, pts_array]

theorem swap_pts_2_3 (p0 p1 p2 p3 : vec3 α) :
    swap_pts (pts_array p0 p1 p2 p3) 2 3 = pts_array p0 p1 p3 p2 := by
  funext k
  fin_cases k <;> simp [swap_pts, pts_array]

theorem swap_pts_3_0 (p0 p1 p2 p3 : vec3 α) :
    swap_pts (pts_array p0 p1 p2 p3) 3 0 = pts_array p3 p1 p2 p0 := by
  funext k
  fin_cases k <;> simp [swap_pts, pts_array]

theorem swap_pts_0_1 (p0 p1 p2 p3 : vec3 α) :
    swap_pts (pts_array p0 p1 p2 p3) 0 1 = pts_array p1 p0 p2 p3 := by
  funext k
  fin_cases k <;> simp [swap_pts, pts_array]

theorem pts_array_0 (p0 p1 p2 p3 : vec3 α) : pts_array p0 p1 p2 p3 0 = p0 := by
  simp [pts_array]

theorem pts_array_1 (p0 p1 p2 p3 : vec3 α) : pts_array p0 p1 p2 p3 1 = p1 := by
  simp [pts_array]

theorem pts_array_2 (p0 p1 p2 p3 : vec3 α) : pts_array p0 p1 p2 p3 2 = p2 := by
  simp [pts_array]

theorem pts_array_3 (p0 p1 p2 p3 : vec3 α) : pts_array p0 p1 p2 p3 3 = p3 := by
  simp [pts_array]

/-- The loop body of `tetrahedron` for `i = 0`. -/
theorem tetrahedron_step_0 (sqrt : α → α) (mat : material) (p0 p1 p2 p3 : vec3 α)
    (l : List (triangle α)) :
    tetrahedron_step sqrt mat (pts_array p0 p1 p2 p3, l) 0 =
      if dot (cross (p1 - p0) (p2 - p0)) (p3 - p0) > 0 then
        (pts_array p0 p2 p1 p3, l ++ [triangle.new sqrt p0 (p2 - p0) (p1 - p0) mat])
      else (pts_array p0 p1 p2 p3, l ++ [triangle.new sqrt p0 (p1 - p0) (p2 - p0) mat]) := by
  have e1 : (0 : Fin 4) + 1 = 1 := rfl
  have e2 : (0 : Fin 4) + 2 = 2 := rfl
  have e3 : (0 : Fin 4) + 3 = 3 := rfl
  simp only [tetrahedron_step, e1, e2, e3, pts_array_0, pts_array_1, pts_array_2, pts_array_3,
    swap_pts_1_2]
  split_ifs <;> simp only [pts_array_0, pts_array_1, pts_array_2, pts_array_3]

/-- The loop body of `tetrahedron` for `i = 1`. -/
theorem tetrahedron_step_1 (sqrt : α → α) (mat : material) (p0 p1 p2 p3 : vec3 α)
    (l : List (triangle α)) :
    tetrahedron_step sqrt mat (pts_array p0 p1 p2 p3, l) 1 =
      if dot (cross (p2 - p1) (p3 - p1)) (p0 - p1) > 0 then
        (pts_array p0 p1 p3 p2, l ++ [triangle.new sqrt p1 (p3 - p1) (p2 - p1) mat])
      else (pts_array p0 p1 p2 p3, l ++ [triangle.new sqrt p1 (p2 - p1) (p3 - p1) mat]) := by
  have e1 : (1 : Fin 4) + 1 = 2 := rfl
  have e2 : (1 : Fin 4) + 2 = 3 := rfl
  have e3 : (1 : Fin 4) + 3 = 0 := rfl
  simp only [tetrahedron_step, e1, e2, e3, pts_array_0, pts_array_1, pts_array_2, pts_array_3,
    swap_pts_2_3]
  split_ifs <;> simp only [pts_array_0, pts_array_1, pts_array_2, pts_array_3]

/-- The loop body of `tetrahedron` for `i = 2`. -/
theorem tetrahedron_step_2 (sqrt : α → α) (mat : material) (p0 p1 p2 p3 : vec3 α)
    (l : List (triangle α)) :
    tetrahedron_step sqrt mat (pts_array p0 p1 p2 p3, l) 2 =
      if dot (cross (p3 - p2) (p0 - p2)) (p1 - p2) > 0 then
        (pts_array p3 p1 p2 p0, l ++ [triangle.new sqrt p2 (p0 - p2) (p3 - p2) mat])
      else (pts_array p0 p1 p2 p3, l ++ [triangle.new sqrt p2 (p3 - p2) (p0 - p2) mat]) := by
  have e1 : (2 : Fin 4) + 1 = 3 := rfl
  have e2 : (2 : Fin 4) + 2 = 0 := rfl
  have e3 : (2 : Fin 4) + 3 = 1 := rfl
  simp only [tetrahedron_step, e1, e2, e3, pts_array_0, pts_array_1, pts_array_2, pts_array_3,
    swap_pts_3_0]
  split_ifs <;> simp only [pts_array_0, pts_array_1, pts_array_2, pts_array_3]

/-- The loop body of `tetrahedron` for `i = 3`. -/
theorem tetrahedron_step_3 (sqrt : α → α) (mat : material) (p0 p1 p2 p3 : vec3 α)
    (l : List (triangle α)) :
    tetrahedron_step sqrt mat (pts_array p0 p1 p2 p3, l) 3 =
      if dot (cross (p0 - p3) (p1 - p3)) (p2 - p3) > 0 then
        (pts_array p1 p0 p2 p3, l ++ [triangle.new sqrt p3 (p1 - p3) (p0 - p3) mat])
      else (pts_array p0 p1 p2 p3, l ++ [triangle.new sqrt p3 (p0 - p3) (p1 - p3) mat]) := by
  have e1 : (3 : Fin 4) + 1 = 0 := rfl
  have e2 : (3 : Fin 4) + 2 = 1 := rfl
  have e3 : (3 : Fin 4) + 3 = 2 := rfl
  simp only [tetrahedron_step, e1, e2, e3, pts_array_0, pts_array_1, pts_array_2, pts_array_3,
    swap_pts_0_1]
  split_ifs <;> simp only [pts_array_0, pts_array_1, pts_array_2, pts_array_3]

/-- The signed volume test of the other three apex positions, in terms of the first. -/
theorem volume_identities (a b c d : vec3 α) :
    dot (cross (b - c) (d - c)) (a - c) = dot (cross (b - a) (c - a)) (d - a) ∧
    dot (cross (b - d) (a - d)) (c - d) = dot (cross (b - a) (c - a)) (d - a) ∧
    dot (cross (b - a) (c - a)) (d - a) = dot (cross (b - a) (c - a)) (d - a) ∧
    dot (cross (c - b) (d - b)) (a - b) = -dot (cross (b - a) (c - a)) (d - a) ∧
    dot (cross (c - d) (a - d)) (b - d) = -dot (cross (b - a) (c - a)) (d - a) ∧
    dot (cross (c - a) (b - a)) (d - a) = -dot (cross (b - a) (c - a)) (d - a) := by
  refine ⟨?_, ?_, rfl, ?_, ?_, ?_⟩ <;> simp only [dot, cross, vec3.sub_def] <;> ring

/-- The flat branch of `tetrahedron`. -/
theorem tetrahedron_of_flat (sqrt : α → α) (a b c d : vec3 α) (mat : material)
    (h : |dot (cross (b - a) (c - a)) (d - a)| < 1 / 100000000) :
    tetrahedron sqrt a b c d mat = [triangle.new sqrt a (b - a) (c - a) mat] := by
  simp only [tetrahedron, fabs_eq_abs, if_pos h]

/-- The solid branch of `tetrahedron` for a positive signed volume: every pass exchanges two
points. -/
theorem tetrahedron_of_pos (sqrt : α → α) (a b c d : vec3 α) (mat : material)
    (h : 1 / 100000000 ≤ |dot (cross (b - a) (c - a)) (d - a)|)
    (hpos : 0 < dot (cross (b - a) (c - a)) (d - a)) :
    tetrahedron sqrt a b c d mat =
      [triangle.new sqrt a (c - a) (b - a) mat, triangle.new sqrt c (d - c) (b - c) mat,
       triangle.new sqrt d (a - d) (b - d) mat, triangle.new sqrt a (c - a) (b - a) mat] := by
  obtain ⟨e1, e2, -, -, -, -⟩ := volume_identities a b c d
  have g0 : dot (cross (b - a) (c - a)) (d - a) > 0 := hpos
  have g1 : dot (cross (b - c) (d - c)) (a - c) > 0 := by rw [e1]; exact hpos
  have g2 : dot (cross (b - d) (a - d)) (c - d) > 0 := by rw [e2]; exact hpos
  simp only [tetrahedron, fabs_eq_abs, if_neg (not_lt.mpr h), List.foldl]
  rw [tetrahedron_step_0, if_pos g0, tetrahedron_step_1, if_pos g1, tetrahedron_step_2,
    if_pos g2, tetrahedron_step_3, if_pos g0]
  rfl

/-- The solid branch of `tetrahedron` for a negative signed volume: every pass but the first
exchanges two points. -/
theorem tetrahedron_of_neg (sqrt : α → α) (a b c d : vec3 α) (mat : material)
    (h : 1 / 100000000 ≤ |dot (cross (b - a) (c - a)) (d - a)|)
    (hneg : dot (cross (b - a) (c - a)) (d - a) < 0) :
    tetrahedron sqrt a b c d mat =
      [triangle.new sqrt a (b - a) (c - a) mat, triangle.new sqrt b (d - b) (c - b) mat,
       triangle.new sqrt d (a - d) (c - d) mat, triangle.new sqrt a (b - a) (c - a) mat] := by
  obtain ⟨-, -, -, e4, e5, e6⟩ := volume_identities a b c d
  have g0 : ¬ dot (cross (b - a) (c - a)) (d - a) > 0 := not_lt.mpr hneg.le
  have g1 : dot (cross (c - b) (d - b)) (a - b) > 0 := by rw [e4]; linarith
  have g2 : dot (cross (c - d) (a - d)) (b - d) > 0 := by rw [e5]; linarith
  have g3 : dot (cross (c - a) (b - a)) (d - a) > 0 := by rw [e6]; linarith
  simp only [tetrahedron, fabs_eq_abs, if_neg (not_lt.mpr h), List.foldl]
  rw [tetrahedron_step_0, if_neg g0, tetrahedron_step_1, if_pos g1, tetrahedron_step_2,
    if_pos g2, tetrahedron_step_3, if_pos g3]
  rfl

theorem vec3.add_sub_cancel_left (a c : vec3 α) : a + (c - a) = c := by
  ext <;> simp [vec3.add_def, vec3.sub_def]

/-- In the solid branch the fourth triangle `tetrahedron` adds is the first one again. -/
theorem tetrahedron_fourth_is_first (sqrt : α → α) (a b c d : vec3 α) (mat : material)
    (h : 1 / 100000000 ≤ |dot (cross (b - a) (c - a)) (d - a)|) :
    (tetrahedron sqrt a b c d mat).get? 3 = (tetrahedron sqrt a b c d mat).get? 0 := by
  rcases lt_trichotomy (dot (cross (b - a) (c - a)) (d - a)) 0 with hneg | h0 | hpos
  · rw [tetrahedron_of_neg sqrt a b c d mat h hneg]; rfl
  · rw [h0] at h; norm_num at h
  · rw [tetrahedron_of_pos sqrt a b c d mat h hpos]; rfl

/-- Value of `constant_medium::hit` when both boundary queries report a hit: `rc1` and `rc2` are
the records they write. -/
theorem constant_medium_hit_of_boundary (sqrt log : α → α) (U density : α) (phase : material)
    (boundary : hittable α) (rec1 rec2 rec rc1 rc2 : hit_record α) (r : ray α)
    (ray_t : interval (extended α))
    (e1 : boundary.hit r interval.universe_ rec1 = (true, rc1))
    (e2 : boundary.hit r ⟨extended.finite (rc1.t + 1 / 10000), extended.infinity⟩ rec2
      = (true, rc2)) :
    constant_medium.hit sqrt log U rec1 rec2 (constant_medium.new boundary density phase) r
        ray_t rec =
      if (rc2.t - max rc1.t 0) * vec3.length sqrt r.dir < -1 / density * log U then (false, rec)
      else (true, { rec with
        t := max rc1.t 0 + -1 / density * log U / vec3.length sqrt r.dir,
        p := r.at (max rc1.t 0 + -1 / density * log U / vec3.length sqrt r.dir),
        normal := ⟨1, 0, 0⟩, front_face := true, mat := phase }) := by
  have ht : (if rc1.t < 0 then { rc1 with t := 0 } else rc1).t = max rc1.t 0 := by
    by_cases h : rc1.t < 0
    · rw [if_pos h, max_eq_right h.le]
    · rw [if_neg h, max_eq_left (not_lt.mp h)]
  simp only [constant_medium.hit, constant_medium.new, e1, e2, Bool.not_true, Bool.false_eq_true,
    if_false, ht, gt_iff_lt]

/-- The ray `transform::hit` hands to the child: the world ray moved back by the offset, turned
back by the inverse Euler matrix and divided by the scale factors. -/
theorem transform_object_r (cos sin sqrt : α → α) (pi : α) (child : hittable α)
    (s e o : vec3 α) (r : ray α) :
    (scale.new child s).object_r
      ((rotate.new cos sin pi ((scale.new child s).to_hittable sqrt) e).object_r
        ((translate.new (rotate.new cos sin pi ((scale.new child s).to_hittable sqrt)
          e).to_hittable o).offset_r r)) = fused_ray cos sin pi s e o r := by
  rw [scale_object_r]
  simp only [rotate.object_r, rotate.new, translate.offset_r, translate.new,
    of_euler_inverse_apply, if_true, Bool.false_eq_true, if_false, vec3.sub_zero_vec, fused_ray,
    fused_S_inv, fused_R_inv, one_div, inv_mul_eq_div]

/-- The call `transform::hit` returns what the outermost decorator returns. -/
theorem transform_hit_nested (cos sin sqrt : α → α) (pi : α) (child : hittable α)
    (s e o : vec3 α) (r : ray α) (ray_t : interval (extended α)) (rec : hit_record α) :
    (transform.new cos sin sqrt pi child s e o).hit r ray_t rec =
      (translate.new (rotate.new cos sin pi ((scale.new child s).to_hittable sqrt)
          e).to_hittable o).hit r ray_t rec := by
  unfold transform.hit
  simp only [transform.new]
  by_cases h : ((translate.new (rotate.new cos sin pi ((scale.new child s).to_hittable sqrt)
        e).to_hittable o).hit r ray_t rec).1 = true
  · simp only [h, Bool.not_true, Bool.false_eq_true, if_false]
    rw [← h]
  · have h' : ((translate.new (rotate.new cos sin pi ((scale.new child s).to_hittable sqrt)
        e).to_hittable o).hit r ray_t rec).1 = false := by simpa using h
    simp only [h', Bool.not_false, if_true]
    rw [← h']

/-- Value of `transform::hit` in terms of the child's answer to the fused object-space ray. -/
theorem transform_hit_fused (cos sin sqrt : α → α) (pi : α) (child : hittable α)
    (s e o : vec3 α) (r : ray α) (ray_t : interval (extended α)) (rec : hit_record α) :
    (transform.new cos sin sqrt pi child s e o).hit r ray_t rec =
      if (child.hit (fused_ray cos sin pi s e o r) ray_t rec).1 = true then
        (true, { (child.hit (fused_ray cos sin pi s e o r) ray_t rec).2 with
          p := fused_point cos sin pi s e o
            (child.hit (fused_ray cos sin pi s e o r) ray_t rec).2.p,
          normal := fused_R cos sin pi e (unit_vector sqrt
            (fused_S s (child.hit (fused_ray cos sin pi s e o r) ray_t rec).2.normal)) })
      else (false, (child.hit (fused_ray cos sin pi s e o r) ray_t rec).2) := by
  have hray := transform_object_r cos sin sqrt pi child s e o r
  rw [transform_hit_nested, translate_hit_eq]
  have h2 : ∀ r', (translate.new (rotate.new cos sin pi ((scale.new child s).to_hittable sqrt)
      e).to_hittable o).object.hit r' ray_t rec =
      (rotate.new cos sin pi ((scale.new child s).to_hittable sqrt) e).hit r' ray_t rec :=
    fun _ => rfl
  have h3 : ∀ r', (rotate.new cos sin pi ((scale.new child s).to_hittable sqrt) e).object.hit
      r' ray_t rec = scale.hit sqrt (scale.new child s) r' ray_t rec := fun _ => rfl
  rw [h2, rotate_hit_eq, h3, scale_hit_eq, hray]
  by_cases hc : (child.hit (fused_ray cos sin pi s e o r) ray_t rec).1 = true
  · simp only [hc, if_true]
    simp only [translate.new, rotate.new, of_euler_apply, if_true, Bool.false_eq_true, if_false,
      vec3.add_zero_vec, fused_point, fused_R, fused_S]
  · simp only [hc, if_false, Bool.false_eq_true]

/-- Value of `transform::center` for the centre `c` of the child. -/
theorem transform_center_fused (cos sin sqrt : α → α) (pi : α) (child : hittable α)
    (s e o c : vec3 α) :
    (transform.new cos sin sqrt pi child s e o).center c = fused_point cos sin pi s e o c := by
  simp only [transform.center, transform.new, translate.center, rotate.center, scale.center,
    scale.new, rotate.new, translate.new, of_basis_diag_apply, of_euler_apply, if_true,
    vec3.add_zero_vec, fused_point, fused_R, fused_S]

/-- The outcome of `quad::is_interior`. -/
theorem quad_is_interior_eq (q : quad α) (a b : α) (rec : hit_record α) :
    q.is_interior a b rec =
      if (0 ≤ a ∧ a ≤ 1) ∧ (0 ≤ b ∧ b ≤ 1) then (true, { rec with u := a, v := b })
      else (false, rec) := by
  unfold quad.is_interior
  by_cases h : (0 ≤ a ∧ a ≤ 1) ∧ (0 ≤ b ∧ b ≤ 1)
  · rw [if_pos h]
    simp [interval.contains, extended.le, h.1.1, h.1.2, h.2.1, h.2.2]
  · rw [if_neg h]
    have : (!(⟨extended.finite 0, extended.finite 1⟩ : interval (extended α)).contains a ||
        !(⟨extended.finite 0, extended.finite 1⟩ : interval (extended α)).contains b) = true := by
      simp only [interval.contains, extended.le, Bool.or_eq_true, Bool.not_eq_true',
        Bool.and_eq_false_iff, decide_eq_false_iff_not]
      by_contra hc
      apply h
      push_neg at hc
      exact ⟨⟨hc.1.1, hc.1.2⟩, ⟨hc.2.1, hc.2.2⟩⟩
    simp only [this, if_true]

/-- The outcome of `triangle::is_interior`. -/
theorem triangle_is_interior_eq (q : triangle α) (a b : α) (rec : hit_record α) :
    q.is_interior a b rec =
      if 0 ≤ a ∧ 0 ≤ b ∧ a + b ≤ 1 then (true, { rec with u := a, v := b })
      else (false, rec) := by
  unfold triangle.is_interior
  by_cases h : 0 ≤ a ∧ 0 ≤ b ∧ a + b ≤ 1
  · rw [if_pos h, if_neg]
    push_neg
    exact ⟨h.1, h.2.1, h.2.2⟩
  · rw [if_neg h, if_pos]
    by_contra hc
    push_neg at hc
    exact h ⟨hc.1, hc.2.1, hc.2.2⟩

/-- Value of `quad::hit`: the three tests, and the record written when all of them pass. -/
theorem quad_hit_eq (q : quad α) (r : ray α) (ray_t : interval (extended α))
    (rec : hit_record α) :
    q.hit r ray_t rec =
      if 1 / 100000000 ≤ |dot q.normal r.dir|
        ∧ ray_t.contains ((q.D - dot q.normal r.orig) / dot q.normal r.dir) = true
        ∧ (0 ≤ dot q.w (cross (r.at ((q.D - dot q.normal r.orig) / dot q.normal r.dir) - q.Q) q.v)
          ∧ dot q.w (cross (r.at ((q.D - dot q.normal r.orig) / dot q.normal r.dir) - q.Q) q.v)
            ≤ 1)
        ∧ (0 ≤ dot q.w (cross q.u (r.at ((q.D - dot q.normal r.orig) / dot q.normal r.dir) - q.Q))
          ∧ dot q.w (cross q.u (r.at ((q.D - dot q.normal r.orig) / dot q.normal r.dir) - q.Q))
            ≤ 1)
      then (true, ({ rec with
          u := dot q.w (cross (r.at ((q.D - dot q.normal r.orig) / dot q.normal r.dir) - q.Q) q.v),
          v := dot q.w (cross q.u (r.at ((q.D - dot q.normal r.orig) / dot q.normal r.dir) - q.Q)),
          t := (q.D - dot q.normal r.orig) / dot q.normal r.dir,
          p := r.at ((q.D - dot q.normal r.orig) / dot q.normal r.dir),
          mat := q.mat } : hit_record α).set_face_normal r q.normal)
      else (false, rec) := by
  unfold quad.hit
  simp only [quad_is_interior_eq, fabs_eq_abs]
  by_cases h1 : |dot q.normal r.dir| < 1 / 100000000
  · rw [if_pos h1, if_neg (fun h => absurd h1 (not_lt.mpr h.1))]
  · rw [if_neg h1]
    by_cases h2 : ray_t.contains ((q.D - dot q.normal r.orig) / dot q.normal r.dir) = true
    · simp only [h2, Bool.not_true, Bool.false_eq_true, if_false, not_lt.mp h1, true_and]
      by_cases h3 : (0 ≤ dot q.w
            (cross (r.at ((q.D - dot q.normal r.orig) / dot q.normal r.dir) - q.Q) q.v)
          ∧ dot q.w (cross (r.at ((q.D - dot q.normal r.orig) / dot q.normal r.dir) - q.Q) q.v)
            ≤ 1)
        ∧ (0 ≤ dot q.w (cross q.u (r.at ((q.D - dot q.normal r.orig) / dot q.normal r.dir) - q.Q))
          ∧ dot q.w (cross q.u (r.at ((q.D - dot q.normal r.orig) / dot q.normal r.dir) - q.Q))
            ≤ 1)
      · rw [if_pos h3, if_pos h3]
        simp only [Bool.not_true, Bool.false_eq_true, if_false]
      · rw [if_neg h3, if_neg h3]
        simp only [Bool.not_false, if_true]
    · have h2' : ray_t.contains ((q.D - dot q.normal r.orig) / dot q.normal r.dir) = false := by
        simpa using h2
      simp only [h2', Bool.not_false, if_true, Bool.false_eq_true, false_and, and_false, if_false]

/-- Value of `triangle::hit`: the three tests, and the record written when all of them pass. -/
theorem triangle_hit_eq (q : triangle α) (r : ray α) (ray_t : interval (extended α))
    (rec : hit_record α) :
    q.hit r ray_t rec =
      if 1 / 100000000 ≤ |dot q.normal r.dir|
        ∧ ray_t.contains ((q.D - dot q.normal r.orig) / dot q.normal r.dir) = true
        ∧ 0 ≤ dot q.w (cross (r.at ((q.D - dot q.normal r.orig) / dot q.normal r.dir) - q.Q) q.v)
        ∧ 0 ≤ dot q.w (cross q.u (r.at ((q.D - dot q.normal r.orig) / dot q.normal r.dir) - q.Q))
        ∧ dot q.w (cross (r.at ((q.D - dot q.normal r.orig) / dot q.normal r.dir) - q.Q) q.v)
          + dot q.w (cross q.u (r.at ((q.D - dot q.normal r.orig) / dot q.normal r.dir) - q.Q)) ≤ 1
      then (true, ({ rec with
          u := dot q.w (cross (r.at ((q.D - dot q.normal r.orig) / dot q.normal r.dir) - q.Q) q.v),
          v := dot q.w (cross q.u (r.at ((q.D - dot q.normal r.orig) / dot q.normal r.dir) - q.Q)),
          t := (q.D - dot q.normal r.orig) / dot q.normal r.dir,
          p := r.at ((q.D - dot q.normal r.orig) / dot q.normal r.dir),
          mat := q.mat } : hit_record α).set_face_normal r q.normal)
      else (false, rec) := by
  unfold triangle.hit
  simp only [triangle_is_interior_eq, fabs_eq_abs]
  by_cases h1 : |dot q.normal r.dir| < 1 / 100000000
  · rw [if_pos h1, if_neg (fun h => absurd h1 (not_lt.mpr h.1))]
  · rw [if_neg h1]
    by_cases h2 : ray_t.contains ((q.D - dot q.normal r.orig) / dot q.normal r.dir) = true
    · simp only [h2, Bool.not_true, Bool.false_eq_true, if_false, not_lt.mp h1, true_and]
      by_cases h3 : 0 ≤ dot q.w (cross (r.at ((q.D - dot q.normal r.orig) / dot q.normal r.dir) - q.Q) q.v)
        ∧ 0 ≤ dot q.w (cross q.u (r.at ((q.D - dot q.normal r.orig) / dot q.normal r.dir) - q.Q))
        ∧ dot q.w (cross (r.at ((q.D - dot q.normal r.orig) / dot q.normal r.dir) - q.Q) q.v)
          + dot q.w (cross q.u (r.at ((q.D - dot q.normal r.orig) / dot q.normal r.dir) - q.Q)) ≤ 1
      · rw [if_pos h3, if_pos h3]
        simp only [Bool.not_true, Bool.false_eq_true, if_false]
      · rw [if_neg h3, if_neg h3]
        simp only [Bool.not_false, if_true]
    · have h2' : ray_t.contains ((q.D - dot q.normal r.orig) / dot q.normal r.dir) = false := by
        simpa using h2
      simp only [h2', Bool.not_false, if_true, Bool.false_eq_true, false_and, and_false, if_false]

/-- A miss of `quad::hit` returns the record it was given. -/
theorem quad_hit_miss (q : quad α) (r : ray α) (ray_t : interval (extended α))
    (rec : hit_record α) (h : (q.hit r ray_t rec).1 = false) : (q.hit r ray_t rec).2 = rec := by
  rw [quad_hit_eq] at h ⊢
  split_ifs at h with hc
  rw [if_neg hc]

/-- A miss of `triangle::hit` returns the record it was given. -/
theorem triangle_hit_miss (q : triangle α) (r : ray α) (ray_t : interval (extended α))
    (rec : hit_record α) (h : (q.hit r ray_t rec).1 = false) : (q.hit r ray_t rec).2 = rec := by
  rw [triangle_hit_eq] at h ⊢
  split_ifs at h with hc
  rw [if_neg hc]

/-- A miss of `translate::hit` returns the record as the child left it. -/
theorem translate_hit_miss (self : translate α) (r : ray α) (ray_t : interval (extended α))
    (rec : hit_record α) (h : (self.hit r ray_t rec).1 = false) :
    (self.object.hit (self.offset_r r) ray_t rec).1 = false ∧
    (self.hit r ray_t rec).2 = (self.object.hit (self.offset_r r) ray_t rec).2 := by
  rw [translate_hit_eq] at h ⊢
  split_ifs at h with hc
  rw [if_neg hc]
  exact ⟨by simpa using hc, rfl⟩

/-- A miss of `rotate::hit` returns the record as the child left it. -/
theorem rotate_hit_miss (self : rotate α) (r : ray α) (ray_t : interval (extended α))
    (rec : hit_record α) (h : (self.hit r ray_t rec).1 = false) :
    (self.object.hit (self.object_r r) ray_t rec).1 = false ∧
    (self.hit r ray_t rec).2 = (self.object.hit (self.object_r r) ray_t rec).2 := by
  rw [rotate_hit_eq] at h ⊢
  split_ifs at h with hc
  rw [if_neg hc]
  exact ⟨by simpa using hc, rfl⟩

/-- A miss of `scale::hit` returns the record as the child left it. -/
theorem scale_hit_miss (sqrt : α → α) (child : hittable α) (s : vec3 α) (r : ray α)
    (ray_t : interval (extended α)) (rec : hit_record α)
    (h : (scale.hit sqrt (scale.new child s) r ray_t rec).1 = false) :
    (child.hit ((scale.new child s).object_r r) ray_t rec).1 = false ∧
    (scale.hit sqrt (scale.new child s) r ray_t rec).2 =
      (child.hit ((scale.new child s).object_r r) ray_t rec).2 := by
  rw [scale_hit_eq] at h ⊢
  split_ifs at h with hc
  rw [if_neg hc]
  exact ⟨by simpa using hc, rfl⟩

/-- A miss of `transform::hit` returns the record as the child left it. -/
theorem transform_hit_miss (cos sin sqrt : α → α) (pi : α) (child : hittable α)
    (s e o : vec3 α) (r : ray α) (ray_t : interval (extended α)) (rec : hit_record α)
    (h : ((transform.new cos sin sqrt pi child s e o).hit r ray_t rec).1 = false) :
    (child.hit (fused_ray cos sin pi s e o r) ray_t rec).1 = false ∧
    ((transform.new cos sin sqrt pi child s e o).hit r ray_t rec).2 =
      (child.hit (fused_ray cos sin pi s e o r) ray_t rec).2 := by
  rw [transform_hit_fused] at h ⊢
  split_ifs at h with hc
  rw [if_neg hc]
  exact ⟨by simpa using hc, rfl⟩

/-- A miss of `constant_medium::hit` returns the record it was given: `rec` is written only on
the path that returns true. -/
theorem constant_medium_hit_miss (sqrt log : α → α) (U : α) (rec1 rec2 : hit_record α)
    (self : constant_medium α) (r : ray α) (ray_t : interval (extended α)) (rec : hit_record α)
    (h : (constant_medium.hit sqrt log U rec1 rec2 self r ray_t rec).1 = false) :
    (constant_medium.hit sqrt log U rec1 rec2 self r ray_t rec).2 = rec := by
  unfold constant_medium.hit at h ⊢
  simp only [] at h ⊢
  split_ifs at h ⊢ <;> rfl

end Lemmas

section RealLemmas

/-- In the object space of the doubled square the doubled ray is the sample ray. -/
theorem doubled_object_r :
    (doubled_quad Real.sqrt).object_r doubled_ray = probe_ray := by
  rw [doubled_quad, scale_object_r]
  simp [doubled_ray, probe_ray]

/-- Applying the Euler matrix after its inverse to a direction gives the direction back. -/
theorem euler_direction_round_trip (euler o v : vec3 ℝ) :
    (operator_mul (matrix.of_euler Real.cos Real.sin Real.pi euler o)
      (matrix.of_vec3 (operator_mul (matrix.of_euler Real.cos Real.sin Real.pi euler o).inverse
        (matrix.of_vec3 v false)).to_vec3 false)).to_vec3 = v := by
  simp only [of_euler_inverse_apply, of_euler_apply, Bool.false_eq_true, if_false,
    vec3.add_zero_vec, vec3.sub_zero_vec]
  rw [turn_x_redo _ _ (real_cos_sin _), turn_y_redo _ _ (real_cos_sin _),
    turn_z_redo _ _ (real_cos_sin _)]

/-- Applying the Euler matrix after its inverse to a point gives the point back. -/
theorem euler_point_round_trip (euler o p : vec3 ℝ) :
    (operator_mul (matrix.of_euler Real.cos Real.sin Real.pi euler o)
      (matrix.of_vec3 (operator_mul (matrix.of_euler Real.cos Real.sin Real.pi euler o).inverse
        (matrix.of_vec3 p true)).to_vec3 true)).to_vec3 = p := by
  rw [of_euler_inverse_apply, of_euler_apply]
  simp only [if_true]
  rw [turn_x_redo _ _ (real_cos_sin _), turn_y_redo _ _ (real_cos_sin _),
    turn_z_redo _ _ (real_cos_sin _), vec3.sub_add_cancel_right]

/-- In the object space of a quarter turn about z the spun ray is the sample ray. -/
theorem spun_object_r (child : hittable ℝ) :
    (rotate.new Real.cos Real.sin Real.pi child ⟨0, 0, 90⟩).object_r spun_ray = probe_ray := by
  have h90 : degrees_to_radians Real.pi (90 : ℝ) = Real.pi / 2 := by
    unfold degrees_to_radians; ring
  have h0 : degrees_to_radians Real.pi (0 : ℝ) = 0 := by
    unfold degrees_to_radians; ring
  simp only [rotate.object_r, rotate.new, of_euler_inverse_apply]
  simp [turn_x, turn_y, turn_z, vec3.sub_def, h90, h0, spun_ray, probe_ray]
  norm_num

/-- In the object space of the translation by `(1, 2, 3)` the shifted ray is the sample ray. -/
theorem shifted_offset_r (child : hittable ℝ) :
    (translate.new child ⟨1, 2, 3⟩).offset_r shifted_ray = probe_ray := by
  simp [translate.offset_r, translate.new, shifted_ray, probe_ray, vec3.sub_def]
  norm_num


/-- Cosine and sine at 0 and at 360 degrees. -/
theorem real_trig_full_turn :
    Real.cos (degrees_to_radians Real.pi 0) = 1 ∧ Real.sin (degrees_to_radians Real.pi 0) = 0 ∧
    Real.cos (degrees_to_radians Real.pi 360) = 1 ∧
    Real.sin (degrees_to_radians Real.pi 360) = 0 := by
  have h0 : degrees_to_radians Real.pi (0 : ℝ) = 0 := by
    unfold degrees_to_radians; ring
  have h360 : degrees_to_radians Real.pi (360 : ℝ) = 2 * Real.pi := by
    unfold degrees_to_radians; ring
  rw [h0, h360]
  exact ⟨Real.cos_zero, Real.sin_zero, Real.cos_two_pi, Real.sin_two_pi⟩

/-- For the four Euler triples of the identity the three cosines are one and the three sines
zero. -/
theorem real_trig_of_identity_angles (e : vec3 ℝ)
    (he : e = ⟨0, 0, 0⟩ ∨ e = ⟨360, 0, 0⟩ ∨ e = ⟨0, 360, 0⟩ ∨ e = ⟨0, 0, 360⟩) :
    (Real.cos (degrees_to_radians Real.pi e.x) = 1 ∧
      Real.sin (degrees_to_radians Real.pi e.x) = 0) ∧
    (Real.cos (degrees_to_radians Real.pi e.y) = 1 ∧
      Real.sin (degrees_to_radians Real.pi e.y) = 0) ∧
    (Real.cos (degrees_to_radians Real.pi e.z) = 1 ∧
      Real.sin (degrees_to_radians Real.pi e.z) = 0) := by
  obtain ⟨c0, s0, c1, s1⟩ := real_trig_full_turn
  rcases he with rfl | rfl | rfl | rfl <;> exact ⟨⟨by assumption, by assumption⟩,
    ⟨by assumption, by assumption⟩, ⟨by assumption, by assumption⟩⟩

/-- The length of a nonzero direction is positive. -/
theorem length_pos_of_ne_zero (v : vec3 ℝ) (hv : v ≠ ⟨0, 0, 0⟩) :
    0 < vec3.length Real.sqrt v := by
  rw [vec3.length]
  apply Real.sqrt_pos.mpr
  rw [vec3.length_squared]
  by_contra h
  have h0 : v.x * v.x + v.y * v.y + v.z * v.z = 0 :=
    le_antisymm (not_lt.mp h)
      (by nlinarith [mul_self_nonneg v.x, mul_self_nonneg v.y, mul_self_nonneg v.z])
  apply hv
  have hx : v.x = 0 := by nlinarith [mul_self_nonneg v.x, mul_self_nonneg v.y, mul_self_nonneg v.z]
  have hy : v.y = 0 := by nlinarith [mul_self_nonneg v.x, mul_self_nonneg v.y, mul_self_nonneg v.z]
  have hz : v.z = 0 := by nlinarith [mul_self_nonneg v.x, mul_self_nonneg v.y, mul_self_nonneg v.z]
  ext <;> assumption

/-- Over the reals, and for nonzero scale factors, the object-space map `S⁻¹ R⁻¹ (p − o)` and
the fused map `R (s ⊙ q) + o` are inverse to each other. -/
theorem fused_round_trip (s e o : vec3 ℝ) (hx : s.x ≠ 0) (hy : s.y ≠ 0) (hz : s.z ≠ 0) :
    (∀ q : vec3 ℝ, fused_S_inv s (fused_R_inv Real.cos Real.sin Real.pi e
      (fused_point Real.cos Real.sin Real.pi s e o q - o)) = q) ∧
    (∀ p : vec3 ℝ, fused_point Real.cos Real.sin Real.pi s e o
      (fused_S_inv s (fused_R_inv Real.cos Real.sin Real.pi e (p - o))) = p) := by
  constructor
  · intro q
    simp only [fused_point, fused_R, fused_R_inv, vec3.add_sub_cancel_right]
    rw [turn_z_undo _ _ (real_cos_sin _), turn_y_undo _ _ (real_cos_sin _),
      turn_x_undo _ _ (real_cos_sin _)]
    ext <;> simp only [fused_S, fused_S_inv] <;> field_simp
  · intro p
    have hS : ∀ w : vec3 ℝ, fused_S s (fused_S_inv s w) = w := by
      intro w
      ext <;> simp only [fused_S, fused_S_inv] <;> field_simp
    simp only [fused_point, fused_R, fused_R_inv, hS]
    rw [turn_x_redo _ _ (real_cos_sin _), turn_y_redo _ _ (real_cos_sin _),
      turn_z_redo _ _ (real_cos_sin _), vec3.sub_add_cancel_right]

/-- Over the reals the ray from `(0, 2, 5)` downwards reaches the doubled, turned and moved unit
square as the ray from `(0, 1/2, 1)` with direction `(0, 0, -1/2)`, which meets the square on its
edge `x = 0`. -/
theorem edge_fused_query_hit :
    fused_ray Real.cos Real.sin Real.pi ⟨2, 2, 2⟩ ⟨0, 0, 90⟩ ⟨1, 2, 3⟩ edge_ray
      = ⟨⟨0, 1 / 2, 1⟩, ⟨0, 0, -1 / 2⟩, 0⟩
    ∧ ((quad.new Real.sqrt ⟨0, 0, 0⟩ ⟨1, 0, 0⟩ ⟨0, 1, 0⟩ 0).to_hittable.hit
        (fused_ray Real.cos Real.sin Real.pi ⟨2, 2, 2⟩ ⟨0, 0, 90⟩ ⟨1, 2, 3⟩ edge_ray)
        nonneg_interval blank_record).1 = true := by
  have h90 : degrees_to_radians Real.pi (90 : ℝ) = Real.pi / 2 := by
    unfold degrees_to_radians; ring
  have h0 : degrees_to_radians Real.pi (0 : ℝ) = 0 := by
    unfold degrees_to_radians; ring
  have hr : fused_ray Real.cos Real.sin Real.pi ⟨2, 2, 2⟩ ⟨0, 0, 90⟩ ⟨1, 2, 3⟩ edge_ray
      = ⟨⟨0, 1 / 2, 1⟩, ⟨0, 0, -1 / 2⟩, 0⟩ := by
    simp [fused_ray, fused_R_inv, fused_S_inv, turn_x, turn_y, turn_z, vec3.sub_def, h90, h0,
      edge_ray]
    norm_num
  refine ⟨hr, ?_⟩
  rw [hr]
  have hq : (quad.new Real.sqrt ⟨0, 0, 0⟩ ⟨1, 0, 0⟩ ⟨0, 1, 0⟩ 0).to_hittable.hit
      ⟨⟨0, 1 / 2, 1⟩, ⟨0, 0, -1 / 2⟩, 0⟩ nonneg_interval blank_record =
      (quad.new Real.sqrt ⟨0, 0, 0⟩ ⟨1, 0, 0⟩ ⟨0, 1, 0⟩ 0).hit
        ⟨⟨0, 1 / 2, 1⟩, ⟨0, 0, -1 / 2⟩, 0⟩ nonneg_interval blank_record := rfl
  rw [hq, quad_hit_of_inside Real.sqrt ⟨0, 0, 0⟩ ⟨1, 0, 0⟩ ⟨0, 1, 0⟩ 0
    ⟨⟨0, 1 / 2, 1⟩, ⟨0, 0, -1 / 2⟩, 0⟩ nonneg_interval
    blank_record 2 0 (1 / 2) (by simp [cross])
    (by
      simp only [unit_vector, cross, vec3.sdiv, vec3.length, vec3.length_squared, dot,
        vec3.smul]
      norm_num
      rw [abs_of_pos (by norm_num)]
      norm_num)
    (by simp [interval.contains, nonneg_interval, extended.le])
    (by
      simp [ray.at, vec3.add_def, vec3.smul]
      norm_num)
    ⟨by norm_num, by norm_num⟩ ⟨by norm_num, by norm_num⟩]

end RealLemmas

/-! ## Claims -/

section Claims

/-- C1: over the reals, for every Euler triple, offset `o` and point `p`, with
`T = matrix(euler, o)` and `Tinv = T.inverse()`, applying `Tinv` to the point `T * p` gives `p`
back, and applying `T` to the point `Tinv * p` gives `p` back. -/
theorem rigid_inverse_round_trip (euler o p : vec3 ℝ) :
    (operator_mul (matrix.of_euler Real.cos Real.sin Real.pi euler o).inverse
        (matrix.of_vec3
          (operator_mul (matrix.of_euler Real.cos Real.sin Real.pi euler o)
            (matrix.of_vec3 p true)).to_vec3 true)).to_vec3 = p
    ∧ (operator_mul (matrix.of_euler Real.cos Real.sin Real.pi euler o)
        (matrix.of_vec3
          (operator_mul (matrix.of_euler Real.cos Real.sin Real.pi euler o).inverse
            (matrix.of_vec3 p true)).to_vec3 true)).to_vec3 = p := by
  constructor
  · rw [of_euler_apply, of_euler_inverse_apply]
    simp only [if_true, vec3.add_sub_cancel_right]
    rw [turn_z_undo _ _ (real_cos_sin _), turn_y_undo _ _ (real_cos_sin _),
      turn_x_undo _ _ (real_cos_sin _)]
  · rw [of_euler_inverse_apply, of_euler_apply]
    simp only [if_true]
    rw [turn_x_redo _ _ (real_cos_sin _), turn_y_redo _ _ (real_cos_sin _),
      turn_z_redo _ _ (real_cos_sin _), vec3.sub_add_cancel_right]

/-- Counterexample to C2 as stated, in IEEE double arithmetic: for
`A = matrix((2,0,0), (0,3,0), (0,0,4))`, `B = matrix((0,0,90), (1,2,3))` and the direction
`x = (1, 2, 3)`, `((A * B) * matrix(x, false)).to_vec3()` is `(-4, 3.0000000000000004, 12)` and
`(A * matrix((B * matrix(x, false)).to_vec3(), false)).to_vec3()` is
`(-4, 3.000000000000001, 12)`. -/
theorem compose_then_apply_counterexample :
    (operator_mul
        (operator_mul
          ((transform_ctor.basis ⟨2, 0, 0⟩ ⟨0, 3, 0⟩ ⟨0, 0, 4⟩).build std_cos std_sin pi_double)
          ((transform_ctor.euler ⟨0, 0, 90⟩ ⟨1, 2, 3⟩).build std_cos std_sin pi_double))
        (matrix.of_vec3 ⟨1, 2, 3⟩ false)).to_vec3
      = ⟨-4, double.of_binary 6755399441055745 51, 12⟩
    ∧ (operator_mul
        ((transform_ctor.basis ⟨2, 0, 0⟩ ⟨0, 3, 0⟩ ⟨0, 0, 4⟩).build std_cos std_sin pi_double)
        (matrix.of_vec3
          (operator_mul
            ((transform_ctor.euler ⟨0, 0, 90⟩ ⟨1, 2, 3⟩).build std_cos std_sin pi_double)
            (matrix.of_vec3 ⟨1, 2, 3⟩ false)).to_vec3
          false)).to_vec3
      = ⟨-4, double.of_binary 3377699720527873 50, 12⟩
    ∧ (operator_mul
        (operator_mul
          ((transform_ctor.basis ⟨2, 0, 0⟩ ⟨0, 3, 0⟩ ⟨0, 0, 4⟩).build std_cos std_sin pi_double)
          ((transform_ctor.euler ⟨0, 0, 90⟩ ⟨1, 2, 3⟩).build std_cos std_sin pi_double))
        (matrix.of_vec3 ⟨1, 2, 3⟩ false)).to_vec3
      ≠ (operator_mul
        ((transform_ctor.basis ⟨2, 0, 0⟩ ⟨0, 3, 0⟩ ⟨0, 0, 4⟩).build std_cos std_sin pi_double)
        (matrix.of_vec3
          (operator_mul
            ((transform_ctor.euler ⟨0, 0, 90⟩ ⟨1, 2, 3⟩).build std_cos std_sin pi_double)
            (matrix.of_vec3 ⟨1, 2, 3⟩ false)).to_vec3
          false)).to_vec3 := by
  refine ⟨?_, ?_, ?_⟩ <;> decide!

/-- C2 (amended): over exact real arithmetic, for all transforms `A` and `B` built by the
constructors (identity, Euler angles plus offset, three basis vectors), every vector `x` and
either flag `f`, applying `A * B` to `x` gives the same 3-vector as applying `A` to the result
of applying `B` to `x`. -/
theorem compose_then_apply (A B : transform_ctor ℝ) (x : vec3 ℝ) (f : Bool) :
    (operator_mul
        (operator_mul (A.build Real.cos Real.sin Real.pi) (B.build Real.cos Real.sin Real.pi))
        (matrix.of_vec3 x f)).to_vec3 =
      (operator_mul (A.build Real.cos Real.sin Real.pi)
        (matrix.of_vec3
          (operator_mul (B.build Real.cos Real.sin Real.pi) (matrix.of_vec3 x f)).to_vec3
          f)).to_vec3 := by
  obtain ⟨h0, h1, h2, h3⟩ := transform_ctor.build_affine Real.cos Real.sin Real.pi B
  exact operator_mul_apply_of_affine _ _ h0 h1 h2 h3 x f

/-- C3: for every rigid matrix `T = matrix(euler, offset)` and every vector `v`, transforming
`v` as a point equals transforming `v` as a direction plus `offset`, and the direction result is
the one obtained with the offset `(0,0,0)`. -/
theorem point_is_direction_plus_offset (euler offset v : vec3 ℝ) :
    (operator_mul (matrix.of_euler Real.cos Real.sin Real.pi euler offset)
        (matrix.of_vec3 v true)).to_vec3 =
      (operator_mul (matrix.of_euler Real.cos Real.sin Real.pi euler offset)
        (matrix.of_vec3 v false)).to_vec3 + offset
    ∧ (operator_mul (matrix.of_euler Real.cos Real.sin Real.pi euler offset)
        (matrix.of_vec3 v false)).to_vec3 =
      (operator_mul (matrix.of_euler Real.cos Real.sin Real.pi euler ⟨0, 0, 0⟩)
        (matrix.of_vec3 v false)).to_vec3 := by
  simp only [of_euler_apply]
  simp [vec3.add_zero_vec]

/-- Counterexample to C4 as stated, in IEEE double arithmetic: `degrees_to_radians(90)` is the
`double` `1.5707963267948966`, whose cosine is `6.123233995736766e-17`, and the direction
transform of `matrix((0,0,90), 0)` maps `(1, 0, 0)` to `(6.123233995736766e-17, 1, 0)`, not to
`(0, 1, 0)`. -/
theorem euler_is_Rz_Ry_Rx_counterexample :
    degrees_to_radians pi_double 90 = double.of_binary 884279719003555 49
    ∧ (operator_mul (matrix.of_euler std_cos std_sin pi_double ⟨0, 0, 90⟩ ⟨0, 0, 0⟩)
        (matrix.of_vec3 ⟨1, 0, 0⟩ false)).to_vec3
      = ⟨double.of_binary 4967757600021511 106, 1, 0⟩
    ∧ (operator_mul (matrix.of_euler std_cos std_sin pi_double ⟨0, 0, 90⟩ ⟨0, 0, 0⟩)
        (matrix.of_vec3 ⟨1, 0, 0⟩ false)).to_vec3 ≠ ⟨0, 1, 0⟩ := by
  refine ⟨?_, ?_, ?_⟩ <;> decide!

/-- C4 (amended): over exact real arithmetic (the real cosine, sine and `π`), for every Euler
triple `(ax, b_y, tz)` in degrees and every vector `v`, the direction
transform of `matrix((ax, b_y, tz), 0)` is `Rz(tz) (Ry(b_y) (Rx(ax) v))` with the standard
right-handed rotation matrices at the angles in radians (degrees times pi over 180): the x
rotation acts first, the z rotation last; and 90 degrees about z maps `(1,0,0)` to `(0,1,0)`. -/
theorem euler_is_Rz_Ry_Rx (ax b_y tz : ℝ) (v : vec3 ℝ) :
    ((operator_mul (matrix.of_euler Real.cos Real.sin Real.pi ⟨ax, b_y, tz⟩ ⟨0, 0, 0⟩)
        (matrix.of_vec3 v false)).to_vec3).column =
      (standard_Rz Real.cos Real.sin (tz * Real.pi / 180)).mulVec
        ((standard_Ry Real.cos Real.sin (b_y * Real.pi / 180)).mulVec
          ((standard_Rx Real.cos Real.sin (ax * Real.pi / 180)).mulVec v.column))
    ∧ ((operator_mul (matrix.of_euler Real.cos Real.sin Real.pi ⟨ax, b_y, tz⟩ ⟨0, 0, 0⟩)
        (matrix.of_vec3 v false)).to_vec3).column =
      (standard_Rz Real.cos Real.sin (tz * Real.pi / 180) *
        standard_Ry Real.cos Real.sin (b_y * Real.pi / 180) *
        standard_Rx Real.cos Real.sin (ax * Real.pi / 180)).mulVec v.column
    ∧ (operator_mul (matrix.of_euler Real.cos Real.sin Real.pi ⟨0, 0, 90⟩ ⟨0, 0, 0⟩)
        (matrix.of_vec3 ⟨1, 0, 0⟩ false)).to_vec3 = ⟨0, 1, 0⟩ := by
  have key : ((operator_mul (matrix.of_euler Real.cos Real.sin Real.pi ⟨ax, b_y, tz⟩ ⟨0, 0, 0⟩)
        (matrix.of_vec3 v false)).to_vec3).column =
      (standard_Rz Real.cos Real.sin (tz * Real.pi / 180)).mulVec
        ((standard_Ry Real.cos Real.sin (b_y * Real.pi / 180)).mulVec
          ((standard_Rx Real.cos Real.sin (ax * Real.pi / 180)).mulVec v.column)) := by
    rw [of_euler_apply, standard_Rx_mulVec, standard_Ry_mulVec, standard_Rz_mulVec]
    simp [vec3.add_zero_vec, degrees_to_radians]
  refine ⟨key, ?_, ?_⟩
  · rw [key, Matrix.mulVec_mulVec, Matrix.mulVec_mulVec]
  · rw [of_euler_apply]
    have h90 : degrees_to_radians Real.pi (90 : ℝ) = Real.pi / 2 := by
      unfold degrees_to_radians; ring
    have h0 : degrees_to_radians Real.pi (0 : ℝ) = 0 := by
      unfold degrees_to_radians; ring
    simp [turn_x, turn_y, turn_z, vec3.add_def, h90, h0]

/-- Counterexample to C5 as stated, in IEEE double arithmetic: the quad and the triangle
`Q = (0,0,0)`, `u = (0,1,1)`, `v = (2,0,1)` and the ray from `(0, 0.5, 1.5)` with direction
`(0, 0, -1)` over `[0, ∞)`. The ray meets the shape at `t0 = 1` in the point
`Q + 0.5 u + 0 v`, `cross(u,v) ≠ 0` and `|dot(unit normal, d)| ≥ 1e-8`, yet `hit` returns
false: it computes `t = 1.0000000000000002` and a negative second plane coordinate. -/
theorem planar_hit_complete_counterexample :
    cross (⟨0, 1, 1⟩ : vec3 double) ⟨2, 0, 1⟩ ≠ ⟨0, 0, 0⟩
    ∧ (1 : double) / 100000000 ≤ fabs (dot (unit_vector std_sqrt
        (cross (⟨0, 1, 1⟩ : vec3 double) ⟨2, 0, 1⟩)) skew_ray.dir)
    ∧ (nonneg_interval : interval (extended double)).contains 1 = true
    ∧ skew_ray.at 1 = (⟨0, 0, 0⟩ : vec3 double) + vec3.smul (1 / 2) ⟨0, 1, 1⟩
        + vec3.smul 0 ⟨2, 0, 1⟩
    ∧ ((0 : double) ≤ 1 / 2 ∧ (1 : double) / 2 ≤ 1 ∧ (1 : double) / 2 + 0 ≤ 1)
    ∧ ((quad.new std_sqrt ⟨0, 0, 0⟩ ⟨0, 1, 1⟩ ⟨2, 0, 1⟩ 0).hit skew_ray nonneg_interval
        blank_record).1 = false
    ∧ ((triangle.new std_sqrt ⟨0, 0, 0⟩ ⟨0, 1, 1⟩ ⟨2, 0, 1⟩ 0).hit skew_ray nonneg_interval
        blank_record).1 = false
    ∧ ((quad.new std_sqrt ⟨0, 0, 0⟩ ⟨0, 1, 1⟩ ⟨2, 0, 1⟩ 0).D
          - dot (quad.new std_sqrt ⟨0, 0, 0⟩ ⟨0, 1, 1⟩ ⟨2, 0, 1⟩ 0).normal skew_ray.orig)
        / dot (quad.new std_sqrt ⟨0, 0, 0⟩ ⟨0, 1, 1⟩ ⟨2, 0, 1⟩ 0).normal skew_ray.dir
      = double.of_binary 4503599627370497 52 := by
  refine ⟨?_, ?_, ?_, ?_, ?_, ?_, ?_, ?_⟩ <;> decide!

/-- C5 (amended): completeness of the planar hit over exact real arithmetic. For a quad (resp.
triangle) with `cross(u,v) ≠ 0`, a
ray with `|dot(unit normal, d)| ≥ 1e-8`, an interval `ray_t` and `t0` in `ray_t` such that
`o + t0 d = Q + a u + b v` with `a, b` in `[0,1]` (resp. `a ≥ 0`, `b ≥ 0`, `a + b ≤ 1`), `hit`
returns true with `rec.t = t0 = (D - dot(normal, o)) / dot(normal, d)`, `rec.p = o + t0 d` and
`(rec.u, rec.v) = (a, b)`. -/
theorem planar_hit_complete (Q u v : vec3 ℝ) (mat : material) (r : ray ℝ)
    (ray_t : interval (extended ℝ)) (rec : hit_record ℝ) (t0 a b : ℝ)
    (hn : cross u v ≠ ⟨0, 0, 0⟩)
    (hd : 1 / 100000000 ≤ |dot (unit_vector Real.sqrt (cross u v)) r.dir|)
    (ht : ray_t.contains t0 = true)
    (hp : r.at t0 = Q + vec3.smul a u + vec3.smul b v) :
    ((0 ≤ a ∧ a ≤ 1) ∧ (0 ≤ b ∧ b ≤ 1) →
      ((quad.new Real.sqrt Q u v mat).hit r ray_t rec).1 = true ∧
      ((quad.new Real.sqrt Q u v mat).hit r ray_t rec).2.t = t0 ∧
      t0 = ((quad.new Real.sqrt Q u v mat).D - dot (quad.new Real.sqrt Q u v mat).normal r.orig)
              / dot (quad.new Real.sqrt Q u v mat).normal r.dir ∧
      ((quad.new Real.sqrt Q u v mat).hit r ray_t rec).2.p = r.orig + vec3.smul t0 r.dir ∧
      ((quad.new Real.sqrt Q u v mat).hit r ray_t rec).2.u = a ∧
      ((quad.new Real.sqrt Q u v mat).hit r ray_t rec).2.v = b)
    ∧ (0 ≤ a ∧ 0 ≤ b ∧ a + b ≤ 1 →
      ((triangle.new Real.sqrt Q u v mat).hit r ray_t rec).1 = true ∧
      ((triangle.new Real.sqrt Q u v mat).hit r ray_t rec).2.t = t0 ∧
      t0 = ((triangle.new Real.sqrt Q u v mat).D
              - dot (triangle.new Real.sqrt Q u v mat).normal r.orig)
              / dot (triangle.new Real.sqrt Q u v mat).normal r.dir ∧
      ((triangle.new Real.sqrt Q u v mat).hit r ray_t rec).2.p = r.orig + vec3.smul t0 r.dir ∧
      ((triangle.new Real.sqrt Q u v mat).hit r ray_t rec).2.u = a ∧
      ((triangle.new Real.sqrt Q u v mat).hit r ray_t rec).2.v = b) := by
  have hd0 : dot (vec3.smul (1 / vec3.length Real.sqrt (cross u v)) (cross u v)) r.dir ≠ 0 := by
    intro h0
    rw [unit_vector, vec3.sdiv, h0] at hd
    norm_num at hd
  have hT := plane_parameter (1 / vec3.length Real.sqrt (cross u v)) Q u v r t0 a b hd0 hp
  constructor
  · rintro ⟨ha, hb⟩
    rw [quad_hit_of_inside Real.sqrt Q u v mat r ray_t rec t0 a b hn hd ht hp ha hb]
    refine ⟨rfl, rfl, ?_, rfl, rfl, rfl⟩
    simp only [quad.new, unit_vector, vec3.sdiv]
    exact hT.symm
  · rintro ⟨ha, hb, hab⟩
    rw [triangle_hit_of_inside Real.sqrt Q u v mat r ray_t rec t0 a b hn hd ht hp ha hb hab]
    refine ⟨rfl, rfl, ?_, rfl, rfl, rfl⟩
    simp only [triangle.new, unit_vector, vec3.sdiv]
    exact hT.symm

/-- Witness of C5 (amended): the quad `Q = (0,0,0)`, `u = (1,0,0)`, `v = (0,1,0)` and the ray from
`(1/2, 1/2, 1)` with direction `(0,0,-1)` over `[0, ∞)` give `t = 1`, `p = (1/2, 1/2, 0)` and
`(u, v) = (1/2, 1/2)`. -/
theorem planar_hit_complete_witness :
    ((quad.new Real.sqrt ⟨0, 0, 0⟩ ⟨1, 0, 0⟩ ⟨0, 1, 0⟩ 0).hit probe_ray nonneg_interval
        blank_record).1 = true ∧
    ((quad.new Real.sqrt ⟨0, 0, 0⟩ ⟨1, 0, 0⟩ ⟨0, 1, 0⟩ 0).hit probe_ray nonneg_interval
        blank_record).2.t = 1 ∧
    ((quad.new Real.sqrt ⟨0, 0, 0⟩ ⟨1, 0, 0⟩ ⟨0, 1, 0⟩ 0).hit probe_ray nonneg_interval
        blank_record).2.p = ⟨1 / 2, 1 / 2, 0⟩ ∧
    ((quad.new Real.sqrt ⟨0, 0, 0⟩ ⟨1, 0, 0⟩ ⟨0, 1, 0⟩ 0).hit probe_ray nonneg_interval
        blank_record).2.u = 1 / 2 ∧
    ((quad.new Real.sqrt ⟨0, 0, 0⟩ ⟨1, 0, 0⟩ ⟨0, 1, 0⟩ 0).hit probe_ray nonneg_interval
        blank_record).2.v = 1 / 2 := by
  have h := (planar_hit_complete ⟨0, 0, 0⟩ ⟨1, 0, 0⟩ ⟨0, 1, 0⟩ 0 probe_ray nonneg_interval
    blank_record 1 (1 / 2) (1 / 2)
    (by simp [cross])
    (by
      simp [unit_vector, cross, vec3.sdiv, vec3.length, vec3.length_squared, dot, vec3.smul,
        probe_ray]
      norm_num)
    (by simp [interval.contains, nonneg_interval, extended.le])
    (by simp [ray.at, probe_ray, vec3.add_def, vec3.smul])).1
    ⟨⟨by norm_num, by norm_num⟩, ⟨by norm_num, by norm_num⟩⟩
  obtain ⟨h1, h2, -, h4, h5, h6⟩ := h
  refine ⟨h1, h2, ?_, h5, h6⟩
  rw [h4]
  simp [probe_ray, vec3.add_def, vec3.smul]

/-- C7 (the code at the failing input): for the medium of density 1 bounded by the slab, the
sample `exp(-1)` and the interval `[0, 1/2]`, `constant_medium::hit` returns true with
`rec.t = 2`, which the interval does not contain. -/
theorem constant_medium_hit_outside_ray_t :
    constant_medium.hit Real.sqrt Real.log (Real.exp (-1)) blank_record blank_record
        (constant_medium.new (slab_boundary Real.sqrt) 1 5) slab_ray near_interval blank_record
      = (true, ⟨⟨1 / 2, 1 / 2, 0⟩, ⟨1, 0, 0⟩, 5, 2, 0, 0, true⟩)
    ∧ (near_interval : interval (extended ℝ)).contains
        (constant_medium.hit Real.sqrt Real.log (Real.exp (-1)) blank_record blank_record
          (constant_medium.new (slab_boundary Real.sqrt) 1 5) slab_ray near_interval
          blank_record).2.t = false := by
  have h : constant_medium.hit Real.sqrt Real.log (Real.exp (-1)) blank_record blank_record
        (constant_medium.new (slab_boundary Real.sqrt) 1 5) slab_ray near_interval blank_record
      = (true, ⟨⟨1 / 2, 1 / 2, 0⟩, ⟨1, 0, 0⟩, 5, 2, 0, 0, true⟩) := by
    simp only [constant_medium.hit, constant_medium.new, slab_entry]
    rw [slab_exit _ (by norm_num) (by norm_num)]
    simp [vec3.length, vec3.length_squared, slab_ray, blank_record, ray.at, vec3.add_def,
      vec3.smul]
    norm_num
  refine ⟨h, ?_⟩
  rw [h]
  simp [near_interval, interval.contains, extended.le]
  norm_num

/-- Counterexample to C10 as stated, in IEEE double arithmetic: the unit square moved by
`(0, 0, 0.3)` and the ray from `(0.5, 0.5, 1)` with direction `(0, 0, -1)`. The child hits the
remapped ray with `p = object_ray.at(t)`, but `translate::hit` returns `p = (0.5, 0.5, 0.3)`
while `r.at(rec.t) = (0.5, 0.5, 0.30000000000000004)`. -/
theorem decorators_preserve_ray_point_counterexample :
    ((quad.new std_sqrt ⟨0, 0, 0⟩ ⟨1, 0, 0⟩ ⟨0, 1, 0⟩ 0).to_hittable.hit
        ((translate.new (quad.new std_sqrt ⟨0, 0, 0⟩ ⟨1, 0, 0⟩ ⟨0, 1, 0⟩ 0).to_hittable
          ⟨0, 0, 3 / 10⟩).offset_r probe_ray) nonneg_interval blank_record).1 = true
    ∧ ((quad.new std_sqrt ⟨0, 0, 0⟩ ⟨1, 0, 0⟩ ⟨0, 1, 0⟩ 0).to_hittable.hit
        ((translate.new (quad.new std_sqrt ⟨0, 0, 0⟩ ⟨1, 0, 0⟩ ⟨0, 1, 0⟩ 0).to_hittable
          ⟨0, 0, 3 / 10⟩).offset_r probe_ray) nonneg_interval blank_record).2.p =
      ((translate.new (quad.new std_sqrt ⟨0, 0, 0⟩ ⟨1, 0, 0⟩ ⟨0, 1, 0⟩ 0).to_hittable
          ⟨0, 0, 3 / 10⟩).offset_r probe_ray).at
        ((quad.new std_sqrt ⟨0, 0, 0⟩ ⟨1, 0, 0⟩ ⟨0, 1, 0⟩ 0).to_hittable.hit
          ((translate.new (quad.new std_sqrt ⟨0, 0, 0⟩ ⟨1, 0, 0⟩ ⟨0, 1, 0⟩ 0).to_hittable
            ⟨0, 0, 3 / 10⟩).offset_r probe_ray) nonneg_interval blank_record).2.t
    ∧ ((translate.new (quad.new std_sqrt ⟨0, 0, 0⟩ ⟨1, 0, 0⟩ ⟨0, 1, 0⟩ 0).to_hittable
        ⟨0, 0, 3 / 10⟩).hit probe_ray nonneg_interval blank_record).2.p
      = ⟨1 / 2, 1 / 2, 3 / 10⟩
    ∧ (probe_ray : ray double).at
        ((translate.new (quad.new std_sqrt ⟨0, 0, 0⟩ ⟨1, 0, 0⟩ ⟨0, 1, 0⟩ 0).to_hittable
          ⟨0, 0, 3 / 10⟩).hit probe_ray nonneg_interval blank_record).2.t
      = ⟨1 / 2, 1 / 2, double.of_binary 5404319552844596 54⟩
    ∧ ((translate.new (quad.new std_sqrt ⟨0, 0, 0⟩ ⟨1, 0, 0⟩ ⟨0, 1, 0⟩ 0).to_hittable
        ⟨0, 0, 3 / 10⟩).hit probe_ray nonneg_interval blank_record).2.p
      ≠ (probe_ray : ray double).at
        ((translate.new (quad.new std_sqrt ⟨0, 0, 0⟩ ⟨1, 0, 0⟩ ⟨0, 1, 0⟩ 0).to_hittable
          ⟨0, 0, 3 / 10⟩).hit probe_ray nonneg_interval blank_record).2.t := by
  refine ⟨?_, ?_, ?_, ?_, ?_⟩ <;> decide!

/-- C10 (amended): decorators preserve `p = ray.at(t)` over exact real arithmetic. For
Translate (any offset), Rotate (any Euler angles) and Scale (all factors nonzero) around a child, every world ray and interval: the
decorator's `hit` returns the boolean the child's `hit` returns on the remapped object-space ray
with the same interval, leaves `rec.t` equal to the child's `t`, and if the child hits with
`p = object_ray.at(t)` then the returned record has `rec.p = r.at(rec.t)`. -/
theorem decorators_preserve_ray_point (child : hittable ℝ) (offset euler s : vec3 ℝ)
    (r : ray ℝ) (ray_t : interval (extended ℝ)) (rec : hit_record ℝ)
    (hs : s.x ≠ 0 ∧ s.y ≠ 0 ∧ s.z ≠ 0) :
    (((translate.new child offset).hit r ray_t rec).1 =
        (child.hit ((translate.new child offset).offset_r r) ray_t rec).1 ∧
      ((translate.new child offset).hit r ray_t rec).2.t =
        (child.hit ((translate.new child offset).offset_r r) ray_t rec).2.t ∧
      ((child.hit ((translate.new child offset).offset_r r) ray_t rec).1 = true →
        (child.hit ((translate.new child offset).offset_r r) ray_t rec).2.p =
          ((translate.new child offset).offset_r r).at
            (child.hit ((translate.new child offset).offset_r r) ray_t rec).2.t →
        ((translate.new child offset).hit r ray_t rec).2.p =
          r.at ((translate.new child offset).hit r ray_t rec).2.t))
    ∧ (((rotate.new Real.cos Real.sin Real.pi child euler).hit r ray_t rec).1 =
        (child.hit ((rotate.new Real.cos Real.sin Real.pi child euler).object_r r) ray_t rec).1 ∧
      ((rotate.new Real.cos Real.sin Real.pi child euler).hit r ray_t rec).2.t =
        (child.hit ((rotate.new Real.cos Real.sin Real.pi child euler).object_r r) ray_t
          rec).2.t ∧
      ((child.hit ((rotate.new Real.cos Real.sin Real.pi child euler).object_r r) ray_t rec).1
          = true →
        (child.hit ((rotate.new Real.cos Real.sin Real.pi child euler).object_r r) ray_t
            rec).2.p =
          ((rotate.new Real.cos Real.sin Real.pi child euler).object_r r).at
            (child.hit ((rotate.new Real.cos Real.sin Real.pi child euler).object_r r) ray_t
              rec).2.t →
        ((rotate.new Real.cos Real.sin Real.pi child euler).hit r ray_t rec).2.p =
          r.at ((rotate.new Real.cos Real.sin Real.pi child euler).hit r ray_t rec).2.t))
    ∧ ((scale.hit Real.sqrt (scale.new child s) r ray_t rec).1 =
        (child.hit ((scale.new child s).object_r r) ray_t rec).1 ∧
      (scale.hit Real.sqrt (scale.new child s) r ray_t rec).2.t =
        (child.hit ((scale.new child s).object_r r) ray_t rec).2.t ∧
      ((child.hit ((scale.new child s).object_r r) ray_t rec).1 = true →
        (child.hit ((scale.new child s).object_r r) ray_t rec).2.p =
          ((scale.new child s).object_r r).at
            (child.hit ((scale.new child s).object_r r) ray_t rec).2.t →
        (scale.hit Real.sqrt (scale.new child s) r ray_t rec).2.p =
          r.at (scale.hit Real.sqrt (scale.new child s) r ray_t rec).2.t)) := by
  refine ⟨?_, ?_, ?_⟩
  · rw [translate_hit_eq]
    have ho : (translate.new child offset).object = child := rfl
    rw [ho]
    by_cases h : (child.hit ((translate.new child offset).offset_r r) ray_t rec).1 = true
    · rw [if_pos h]
      refine ⟨h.symm, rfl, fun _ hp => ?_⟩
      show (child.hit ((translate.new child offset).offset_r r) ray_t rec).2.p
        + (translate.new child offset).offset = _
      rw [hp]
      ext <;> simp [ray.at, translate.offset_r, translate.new, vec3.add_def, vec3.sub_def,
        vec3.smul] <;> ring
    · rw [if_neg h]
      exact ⟨by simpa using h, rfl, fun h' => absurd h' h⟩
  · rw [rotate_hit_eq]
    have ho : (rotate.new Real.cos Real.sin Real.pi child euler).object = child := rfl
    rw [ho]
    by_cases h : (child.hit ((rotate.new Real.cos Real.sin Real.pi child euler).object_r r)
        ray_t rec).1 = true
    · rw [if_pos h]
      refine ⟨h.symm, rfl, fun _ hp => ?_⟩
      show (operator_mul (rotate.new Real.cos Real.sin Real.pi child euler).trans
        (matrix.of_vec3 (child.hit ((rotate.new Real.cos Real.sin Real.pi child euler).object_r
          r) ray_t rec).2.p true)).to_vec3 = _
      rw [hp]
      simp only [ray.at, rotate.object_r, rotate.new, of_euler_apply_at,
        euler_point_round_trip, euler_direction_round_trip]
    · rw [if_neg h]
      exact ⟨by simpa using h, rfl, fun h' => absurd h' h⟩
  · rw [scale_hit_eq]
    generalize child.hit ((scale.new child s).object_r r) ray_t rec = q
    by_cases h : q.1 = true
    · rw [if_pos h]
      refine ⟨h.symm, rfl, fun _ hp => ?_⟩
      obtain ⟨hx, hy, hz⟩ := hs
      have hpx := congrArg vec3.x hp
      have hpy := congrArg vec3.y hp
      have hpz := congrArg vec3.z hp
      simp only [scale_object_r, ray.at, vec3.add_def, vec3.smul] at hpx hpy hpz
      ext
      · show s.x * q.2.p.x = r.orig.x + q.2.t * r.dir.x
        rw [hpx]; field_simp
      · show s.y * q.2.p.y = r.orig.y + q.2.t * r.dir.y
        rw [hpy]; field_simp
      · show s.z * q.2.p.z = r.orig.z + q.2.t * r.dir.z
        rw [hpz]; field_simp
    · rw [if_neg h]
      exact ⟨by simpa using h, rfl, fun h' => absurd h' h⟩

/-- Witness of C10 (amended): the unit square moved by `(1, 2, 3)`, turned by 90 degrees about
z, and doubled, each hit by the world ray that is the sample ray in object space. -/
theorem decorators_preserve_ray_point_witness :
    (((translate.new (quad.new Real.sqrt ⟨0, 0, 0⟩ ⟨1, 0, 0⟩ ⟨0, 1, 0⟩ 0).to_hittable
        ⟨1, 2, 3⟩).hit shifted_ray nonneg_interval blank_record).1 = true ∧
      ((translate.new (quad.new Real.sqrt ⟨0, 0, 0⟩ ⟨1, 0, 0⟩ ⟨0, 1, 0⟩ 0).to_hittable
        ⟨1, 2, 3⟩).hit shifted_ray nonneg_interval blank_record).2.p =
        (shifted_ray : ray ℝ).at
          ((translate.new (quad.new Real.sqrt ⟨0, 0, 0⟩ ⟨1, 0, 0⟩ ⟨0, 1, 0⟩ 0).to_hittable
            ⟨1, 2, 3⟩).hit shifted_ray nonneg_interval blank_record).2.t)
    ∧ (((rotate.new Real.cos Real.sin Real.pi
        (quad.new Real.sqrt ⟨0, 0, 0⟩ ⟨1, 0, 0⟩ ⟨0, 1, 0⟩ 0).to_hittable ⟨0, 0, 90⟩).hit
        spun_ray nonneg_interval blank_record).1 = true ∧
      ((rotate.new Real.cos Real.sin Real.pi
        (quad.new Real.sqrt ⟨0, 0, 0⟩ ⟨1, 0, 0⟩ ⟨0, 1, 0⟩ 0).to_hittable ⟨0, 0, 90⟩).hit
        spun_ray nonneg_interval blank_record).2.p =
        (spun_ray : ray ℝ).at
          ((rotate.new Real.cos Real.sin Real.pi
            (quad.new Real.sqrt ⟨0, 0, 0⟩ ⟨1, 0, 0⟩ ⟨0, 1, 0⟩ 0).to_hittable ⟨0, 0, 90⟩).hit
            spun_ray nonneg_interval blank_record).2.t)
    ∧ ((scale.hit Real.sqrt (scale.new
        (quad.new Real.sqrt ⟨0, 0, 0⟩ ⟨1, 0, 0⟩ ⟨0, 1, 0⟩ 0).to_hittable ⟨2, 2, 2⟩)
        doubled_ray nonneg_interval blank_record).1 = true ∧
      (scale.hit Real.sqrt (scale.new
        (quad.new Real.sqrt ⟨0, 0, 0⟩ ⟨1, 0, 0⟩ ⟨0, 1, 0⟩ 0).to_hittable ⟨2, 2, 2⟩)
        doubled_ray nonneg_interval blank_record).2.p =
        (doubled_ray : ray ℝ).at
          (scale.hit Real.sqrt (scale.new
            (quad.new Real.sqrt ⟨0, 0, 0⟩ ⟨1, 0, 0⟩ ⟨0, 1, 0⟩ 0).to_hittable ⟨2, 2, 2⟩)
            doubled_ray nonneg_interval blank_record).2.t) := by
  have hchild : (quad.new Real.sqrt ⟨0, 0, 0⟩ ⟨1, 0, 0⟩ ⟨0, 1, 0⟩ 0).to_hittable.hit
      probe_ray nonneg_interval blank_record
      = (true, ⟨⟨1 / 2, 1 / 2, 0⟩, ⟨0, 0, 1⟩, 0, 1, 1 / 2, 1 / 2, true⟩) := probe_quad_hit
  have hat : (probe_ray : ray ℝ).at 1 = ⟨1 / 2, 1 / 2, 0⟩ := by
    simp [ray.at, probe_ray, vec3.add_def, vec3.smul]
  have hobj : (scale.new (quad.new Real.sqrt ⟨0, 0, 0⟩ ⟨1, 0, 0⟩ ⟨0, 1, 0⟩ 0).to_hittable
      ⟨2, 2, 2⟩).object_r (doubled_ray : ray ℝ) = probe_ray := doubled_object_r
  have hs : ((2 : ℝ) ≠ 0 ∧ (2 : ℝ) ≠ 0 ∧ (2 : ℝ) ≠ 0) := ⟨by norm_num, by norm_num, by norm_num⟩
  have ht := (decorators_preserve_ray_point
    (quad.new Real.sqrt ⟨0, 0, 0⟩ ⟨1, 0, 0⟩ ⟨0, 1, 0⟩ 0).to_hittable ⟨1, 2, 3⟩ ⟨0, 0, 90⟩
    ⟨2, 2, 2⟩ shifted_ray nonneg_interval blank_record hs).1
  have hr := (decorators_preserve_ray_point
    (quad.new Real.sqrt ⟨0, 0, 0⟩ ⟨1, 0, 0⟩ ⟨0, 1, 0⟩ 0).to_hittable ⟨1, 2, 3⟩ ⟨0, 0, 90⟩
    ⟨2, 2, 2⟩ spun_ray nonneg_interval blank_record hs).2.1
  have hsc := (decorators_preserve_ray_point
    (quad.new Real.sqrt ⟨0, 0, 0⟩ ⟨1, 0, 0⟩ ⟨0, 1, 0⟩ 0).to_hittable ⟨1, 2, 3⟩ ⟨0, 0, 90⟩
    ⟨2, 2, 2⟩ doubled_ray nonneg_interval blank_record hs).2.2
  rw [shifted_offset_r, hchild] at ht
  rw [spun_object_r, hchild] at hr
  rw [hobj, hchild] at hsc
  exact ⟨⟨ht.1, ht.2.2 rfl hat.symm⟩, ⟨hr.1, hr.2.2 rfl hat.symm⟩, ⟨hsc.1, hsc.2.2 rfl hat.symm⟩⟩

/-- C11: translate round trip. For every hittable `x`, offset `o`, ray and interval,
`translate(translate(x, o), -o).hit` returns what `x.hit` returns: the same boolean and the same
record (so the same `p`, `normal` and `t` on a hit); and a single `translate(x, o).hit` returns
the child's boolean, leaves `normal` and `t` as the child wrote them and, on a hit, adds the
offset to the child's `p`. -/
theorem translate_round_trip (x : hittable ℝ) (o : vec3 ℝ) (r : ray ℝ)
    (ray_t : interval (extended ℝ)) (rec : hit_record ℝ) :
    (translate.new (translate.new x o).to_hittable (-o)).hit r ray_t rec = x.hit r ray_t rec
    ∧ ((translate.new x o).hit r ray_t rec).1 =
        (x.hit ((translate.new x o).offset_r r) ray_t rec).1
    ∧ ((translate.new x o).hit r ray_t rec).2.normal =
        (x.hit ((translate.new x o).offset_r r) ray_t rec).2.normal
    ∧ ((translate.new x o).hit r ray_t rec).2.t =
        (x.hit ((translate.new x o).offset_r r) ray_t rec).2.t
    ∧ ((translate.new x o).hit r ray_t rec).2.p =
        (if (x.hit ((translate.new x o).offset_r r) ray_t rec).1 = true then
          (x.hit ((translate.new x o).offset_r r) ray_t rec).2.p + o
        else (x.hit ((translate.new x o).offset_r r) ray_t rec).2.p) := by
  have single : ∀ (y : hittable ℝ) (q : vec3 ℝ) (s : ray ℝ),
      (translate.new y q).hit s ray_t rec =
        if (y.hit ((translate.new y q).offset_r s) ray_t rec).1 = true then
          (true, { (y.hit ((translate.new y q).offset_r s) ray_t rec).2 with
            p := (y.hit ((translate.new y q).offset_r s) ray_t rec).2.p + q })
        else (false, (y.hit ((translate.new y q).offset_r s) ray_t rec).2) := by
    intro y q s
    rw [translate_hit_eq]
    rfl
  refine ⟨?_, ?_⟩
  · rw [single]
    have inner : (translate.new x o).to_hittable.hit
        ((translate.new (translate.new x o).to_hittable (-o)).offset_r r) ray_t rec =
        (translate.new x o).hit
          ((translate.new (translate.new x o).to_hittable (-o)).offset_r r) ray_t rec := rfl
    rw [inner, single, translate_offset_r_round_trip]
    by_cases h : (x.hit r ray_t rec).1 = true
    · simp only [h, if_true, vec3.add_add_neg_cancel]
      rw [← h]
    · have h' : (x.hit r ray_t rec).1 = false := by simpa using h
      simp only [h', Bool.false_eq_true, if_false]
      rw [← h']
  · rw [single]
    by_cases h : (x.hit ((translate.new x o).offset_r r) ray_t rec).1 = true
    · simp only [h, if_true]
      exact ⟨trivial, trivial, trivial, trivial⟩
    · have h' : (x.hit ((translate.new x o).offset_r r) ray_t rec).1 = false := by
        simpa using h
      simp only [h', Bool.false_eq_true, if_false]
      exact ⟨trivial, trivial, trivial, trivial⟩

/-- C12: rotation by 0 or 360 degrees is the identity. For every child whose bounding box has
`min ≤ max` on every axis and for the Euler angles `(0,0,0)`, `(360,0,0)`, `(0,360,0)` or
`(0,0,360)`, the box `rotate::rotate` stores is the child's box, and `rotate::hit` returns the
boolean and the record (`p`, `normal`, `t`, `u`, `v`, `front_face`, `mat`) that the child's
`hit` returns. -/
theorem rotate_identity_angles (child : hittable ℝ) (bbox : aabb ℝ) (e : vec3 ℝ)
    (r : ray ℝ) (ray_t : interval (extended ℝ)) (rec : hit_record ℝ)
    (hbox : bbox.x.min ≤ bbox.x.max ∧ bbox.y.min ≤ bbox.y.max ∧ bbox.z.min ≤ bbox.z.max)
    (he : e = ⟨0, 0, 0⟩ ∨ e = ⟨360, 0, 0⟩ ∨ e = ⟨0, 360, 0⟩ ∨ e = ⟨0, 0, 360⟩) :
    rotate.bbox Real.cos Real.sin Real.pi bbox e = bbox.lift ∧
    (rotate.new Real.cos Real.sin Real.pi child e).hit r ray_t rec = child.hit r ray_t rec := by
  obtain ⟨⟨hcx, hsx⟩, ⟨hcy, hsy⟩, ⟨hcz, hsz⟩⟩ := real_trig_of_identity_angles e he
  exact ⟨rotate_bbox_of_trivial Real.cos Real.sin Real.pi bbox e hcx hsx hcy hsy hcz hsz
      hbox.1 hbox.2.1 hbox.2.2,
    rotate_hit_of_trivial Real.cos Real.sin Real.pi child e hcx hsx hcy hsy hcz hsz r ray_t rec⟩

/-- Witness of C12: the unit square with the unit cube as its box, turned by 360 degrees about
x and hit by the sample ray. -/
theorem rotate_identity_angles_witness :
    rotate.bbox Real.cos Real.sin Real.pi unit_cube ⟨360, 0, 0⟩ = (unit_cube : aabb ℝ).lift ∧
    (rotate.new Real.cos Real.sin Real.pi
        (quad.new Real.sqrt ⟨0, 0, 0⟩ ⟨1, 0, 0⟩ ⟨0, 1, 0⟩ 0).to_hittable ⟨360, 0, 0⟩).hit
      probe_ray nonneg_interval blank_record =
      (true, ⟨⟨1 / 2, 1 / 2, 0⟩, ⟨0, 0, 1⟩, 0, 1, 1 / 2, 1 / 2, true⟩) := by
  have h := rotate_identity_angles
    (quad.new Real.sqrt ⟨0, 0, 0⟩ ⟨1, 0, 0⟩ ⟨0, 1, 0⟩ 0).to_hittable unit_cube ⟨360, 0, 0⟩
    probe_ray nonneg_interval blank_record
    (by simp [unit_cube, aabb.of_points]) (Or.inr (Or.inl rfl))
  refine ⟨h.1, ?_⟩
  rw [h.2]
  exact probe_quad_hit

/-- C18: the box of `rotate` encloses the rotated child box. For every child box (with
`min ≤ max` on each axis, as any box with a point inside), every Euler triple and every point
`q` inside the child's box, the
transformed point `(trans * matrix(q, true)).to_vec3()` lies inside the box `rotate::rotate`
stores, which on each axis runs from the least to the greatest coordinate of the eight
transformed corners. -/
theorem rotate_bbox_encloses (bbox : aabb ℝ) (euler q : vec3 ℝ)
    (hq : (bbox.x.min ≤ q.x ∧ q.x ≤ bbox.x.max) ∧ (bbox.y.min ≤ q.y ∧ q.y ≤ bbox.y.max) ∧
      (bbox.z.min ≤ q.z ∧ q.z ≤ bbox.z.max)) :
    (rotate.bbox Real.cos Real.sin Real.pi bbox euler).contains
      ((matrix.of_euler Real.cos Real.sin Real.pi euler ⟨0, 0, 0⟩).operator_mul
        (matrix.of_vec3 q true)).to_vec3 = true
    ∧ rotate.bbox Real.cos Real.sin Real.pi bbox euler =
      ⟨⟨extended.finite (bbox.corner_min fun c =>
          ((matrix.of_euler Real.cos Real.sin Real.pi euler ⟨0, 0, 0⟩).operator_mul
            (matrix.of_vec3 c true)).to_vec3.x),
        extended.finite (bbox.corner_max fun c =>
          ((matrix.of_euler Real.cos Real.sin Real.pi euler ⟨0, 0, 0⟩).operator_mul
            (matrix.of_vec3 c true)).to_vec3.x)⟩,
       ⟨extended.finite (bbox.corner_min fun c =>
          ((matrix.of_euler Real.cos Real.sin Real.pi euler ⟨0, 0, 0⟩).operator_mul
            (matrix.of_vec3 c true)).to_vec3.y),
        extended.finite (bbox.corner_max fun c =>
          ((matrix.of_euler Real.cos Real.sin Real.pi euler ⟨0, 0, 0⟩).operator_mul
            (matrix.of_vec3 c true)).to_vec3.y)⟩,
       ⟨extended.finite (bbox.corner_min fun c =>
          ((matrix.of_euler Real.cos Real.sin Real.pi euler ⟨0, 0, 0⟩).operator_mul
            (matrix.of_vec3 c true)).to_vec3.z),
        extended.finite (bbox.corner_max fun c =>
          ((matrix.of_euler Real.cos Real.sin Real.pi euler ⟨0, 0, 0⟩).operator_mul
            (matrix.of_vec3 c true)).to_vec3.z)⟩⟩ :=
  ⟨rotate_bbox_contains Real.cos Real.sin Real.pi bbox euler q hq.1 hq.2.1 hq.2.2,
    rotate_bbox_eq Real.cos Real.sin Real.pi bbox euler⟩

/-- Witness of C18: the centre of the unit cube, turned by 90 degrees about z, lies in the box
stored for the turned unit cube. -/
theorem rotate_bbox_encloses_witness :
    (rotate.bbox Real.cos Real.sin Real.pi unit_cube ⟨0, 0, 90⟩).contains
      ((matrix.of_euler Real.cos Real.sin Real.pi ⟨0, 0, 90⟩ ⟨0, 0, 0⟩).operator_mul
        (matrix.of_vec3 ⟨1 / 2, 1 / 2, 1 / 2⟩ true)).to_vec3 = true :=
  (rotate_bbox_encloses unit_cube ⟨0, 0, 90⟩ ⟨1 / 2, 1 / 2, 1 / 2⟩
    (by simp [unit_cube, aabb.of_points]; norm_num)).1

/-- Counterexample to C13 as stated, in IEEE double arithmetic: for `a = (0.1, 0, 0)` and
`b = (0.5, 1, 1)`, `box` computes `dx = 0.5 - 0.1 = 0.4` and the back quad reaches
`x = 0.5 - 0.4 = 0.09999999999999998`, so the union of the six boxes starts below
`min(a.x, b.x) = 0.1`, where the box with corners `a` and `b` starts. -/
theorem box_six_quads_counterexample :
    (aabb.union_all ((box std_sqrt ⟨1 / 10, 0, 0⟩ ⟨1 / 2, 1, 1⟩ 0).map
        quad.set_bounding_box)).map (fun B => B.x.min)
      = some (double.of_binary 900719925474099 53)
    ∧ (aabb.of_points (⟨1 / 10, 0, 0⟩ : vec3 double) ⟨1 / 2, 1, 1⟩).x.min = 1 / 10
    ∧ min ((1 : double) / 10) (1 / 2) = 1 / 10
    ∧ double.of_binary 900719925474099 53 < (1 : double) / 10 := by
  refine ⟨?_, ?_, ?_, ?_⟩ <;> decide!

/-- C13 (amended): over exact real arithmetic, for all corner points `a` and `b`,
`box(a, b, mat)` returns a list of exactly 6 quads,
and the union of the 6 quads' bounding boxes is exactly the axis-aligned box with corners
`(min(a.x,b.x), min(a.y,b.y), min(a.z,b.z))` and `(max(a.x,b.x), max(a.y,b.y), max(a.z,b.z))`,
which is the box `aabb(a, b)`. -/
theorem box_six_quads (a b : vec3 ℝ) (mat : material) :
    (box Real.sqrt a b mat).length = 6 ∧
    aabb.union_all ((box Real.sqrt a b mat).map quad.set_bounding_box) =
      some ⟨⟨min a.x b.x, max a.x b.x⟩, ⟨min a.y b.y, max a.y b.y⟩,
        ⟨min a.z b.z, max a.z b.z⟩⟩ ∧
    (⟨⟨min a.x b.x, max a.x b.x⟩, ⟨min a.y b.y, max a.y b.y⟩, ⟨min a.z b.z, max a.z b.z⟩⟩ :
        aabb ℝ) =
      aabb.of_points ⟨min a.x b.x, min a.y b.y, min a.z b.z⟩
        ⟨max a.x b.x, max a.y b.y, max a.z b.z⟩ ∧
    aabb.of_points ⟨min a.x b.x, min a.y b.y, min a.z b.z⟩
        ⟨max a.x b.x, max a.y b.y, max a.z b.z⟩ = aabb.of_points a b := by
  have hx : min a.x b.x ≤ max a.x b.x := min_le_max
  have hy : min a.y b.y ≤ max a.y b.y := min_le_max
  have hz : min a.z b.z ≤ max a.z b.z := min_le_max
  refine ⟨by simp [box], ?_, ?_, ?_⟩
  · rw [box_quad_boxes]
    simp [aabb.union_all, List.foldl, aabb.union, hx, hy, hz]
  · simp [aabb.of_points, hx, hy, hz]
  · simp [aabb.of_points, hx, hy, hz]

/-- Counterexample to C14 as stated: the points `(0,0,0)`, `(1,0,0)`, `(0,1,0)`, `(0,0,1e-9)`
are not coplanar (their scalar triple product is `1e-9`), and `tetrahedron` returns one
triangle for them, not four. -/
theorem tetrahedron_count_counterexample :
    dot (cross ((⟨1, 0, 0⟩ : vec3 ℝ) - ⟨0, 0, 0⟩) (⟨0, 1, 0⟩ - ⟨0, 0, 0⟩))
      (near_flat_apex - ⟨0, 0, 0⟩) ≠ 0 ∧
    (tetrahedron Real.sqrt ⟨0, 0, 0⟩ ⟨1, 0, 0⟩ ⟨0, 1, 0⟩ near_flat_apex 0).length = 1 := by
  have hv : dot (cross ((⟨1, 0, 0⟩ : vec3 ℝ) - ⟨0, 0, 0⟩) (⟨0, 1, 0⟩ - ⟨0, 0, 0⟩))
      (near_flat_apex - ⟨0, 0, 0⟩) = 1 / 1000000000 := by
    simp [dot, cross, vec3.sub_def, near_flat_apex]
  refine ⟨by rw [hv]; norm_num, ?_⟩
  rw [tetrahedron_of_flat]
  · rfl
  · rw [hv, abs_of_pos (by norm_num)]
    norm_num

/-- C14 (amended): for all points `a`, `b`, `c`, `d`, if
`|dot(cross(b−a, c−a), d−a)| ≥ 1e-8` then `tetrahedron(a,b,c,d,mat)` returns a list of exactly
4 triangles, and if `|dot(cross(b−a, c−a), d−a)| < 1e-8` (in particular if the four points are
coplanar) it returns a list of exactly 1 triangle, namely `triangle(a, b−a, c−a)`. -/
theorem tetrahedron_count (a b c d : vec3 ℝ) (mat : material) :
    (1 / 100000000 ≤ |dot (cross (b - a) (c - a)) (d - a)| →
      (tetrahedron Real.sqrt a b c d mat).length = 4) ∧
    (|dot (cross (b - a) (c - a)) (d - a)| < 1 / 100000000 →
      tetrahedron Real.sqrt a b c d mat = [triangle.new Real.sqrt a (b - a) (c - a) mat]) ∧
    (dot (cross (b - a) (c - a)) (d - a) = 0 →
      tetrahedron Real.sqrt a b c d mat = [triangle.new Real.sqrt a (b - a) (c - a) mat]) := by
  refine ⟨fun h => ?_, fun h => tetrahedron_of_flat Real.sqrt a b c d mat h, fun h0 => ?_⟩
  · rcases lt_trichotomy (dot (cross (b - a) (c - a)) (d - a)) 0 with hneg | h0 | hpos
    · rw [tetrahedron_of_neg Real.sqrt a b c d mat h hneg]; rfl
    · rw [h0] at h; norm_num at h
    · rw [tetrahedron_of_pos Real.sqrt a b c d mat h hpos]; rfl
  · apply tetrahedron_of_flat
    rw [h0]; norm_num

/-- Witness of C14 (amended): the unit simplex gives four triangles, and four points of the
plane `z = 0` give the single triangle `triangle(a, b−a, c−a)`. -/
theorem tetrahedron_count_witness :
    (tetrahedron Real.sqrt ⟨0, 0, 0⟩ ⟨1, 0, 0⟩ ⟨0, 1, 0⟩ ⟨0, 0, 1⟩ 0).length = 4 ∧
    tetrahedron Real.sqrt ⟨0, 0, 0⟩ ⟨1, 0, 0⟩ ⟨0, 1, 0⟩ ⟨1, 1, 0⟩ 0 =
      [triangle.new Real.sqrt ⟨0, 0, 0⟩ (⟨1, 0, 0⟩ - ⟨0, 0, 0⟩) (⟨0, 1, 0⟩ - ⟨0, 0, 0⟩) 0] :=
  ⟨(tetrahedron_count ⟨0, 0, 0⟩ ⟨1, 0, 0⟩ ⟨0, 1, 0⟩ ⟨0, 0, 1⟩ 0).1
      (by simp [dot, cross, vec3.sub_def]; norm_num),
    (tetrahedron_count ⟨0, 0, 0⟩ ⟨1, 0, 0⟩ ⟨0, 1, 0⟩ ⟨1, 1, 0⟩ 0).2.2
      (by simp [dot, cross, vec3.sub_def])⟩

/-- C16 (the code at the failing input): for the unit simplex `a = (0,0,0)`, `b = (1,0,0)`,
`c = (0,1,0)`, `d = (0,0,1)` the vertex triples `(Q, Q+u, Q+v)` of the four emitted triangles
are `(a,c,b)`, `(c,d,b)`, `(d,a,b)`, `(a,c,b)`: the face `{a,b,c}` is emitted twice and the face
`{a,c,d}` is missing. -/
theorem tetrahedron_repeats_a_face :
    (tetrahedron Real.sqrt ⟨0, 0, 0⟩ ⟨1, 0, 0⟩ ⟨0, 1, 0⟩ ⟨0, 0, 1⟩ 0).map
        (fun T => (T.Q, T.Q + T.u, T.Q + T.v)) =
      [(⟨0, 0, 0⟩, ⟨0, 1, 0⟩, ⟨1, 0, 0⟩), (⟨0, 1, 0⟩, ⟨0, 0, 1⟩, ⟨1, 0, 0⟩),
       (⟨0, 0, 1⟩, ⟨0, 0, 0⟩, ⟨1, 0, 0⟩), (⟨0, 0, 0⟩, ⟨0, 1, 0⟩, ⟨1, 0, 0⟩)] := by
  have hv : dot (cross ((⟨1, 0, 0⟩ : vec3 ℝ) - ⟨0, 0, 0⟩) (⟨0, 1, 0⟩ - ⟨0, 0, 0⟩))
      (⟨0, 0, 1⟩ - ⟨0, 0, 0⟩) = 1 := by
    simp [dot, cross, vec3.sub_def]
  rw [tetrahedron_of_pos Real.sqrt _ _ _ _ 0 (by rw [hv]; norm_num) (by rw [hv]; norm_num)]
  simp only [List.map, triangle.new, vec3.add_sub_cancel_left]

/-- C19: density limits of the medium. For a boundary that the ray enters at `t1` and leaves at
`t2` with `t2 > max(t1, 0)`, a ray with nonzero direction and a fixed sample `U` in `(0,1)`:
for every `ε > 0` there is a density `ρ0 > 0` such that for every density `≥ ρ0`
`constant_medium::hit` returns true with `max(t1,0) ≤ rec.t ≤ max(t1,0) + ε`; and there is a
density `ρ1 > 0` such that for every density in `(0, ρ1)` it returns false. -/
theorem medium_density_limits (boundary : hittable ℝ) (U : ℝ) (phase : material)
    (rec1 rec2 rec rc1 rc2 : hit_record ℝ) (r : ray ℝ) (ray_t : interval (extended ℝ))
    (hU0 : 0 < U) (hU1 : U < 1) (hdir : r.dir ≠ ⟨0, 0, 0⟩)
    (e1 : boundary.hit r interval.universe_ rec1 = (true, rc1))
    (e2 : boundary.hit r ⟨extended.finite (rc1.t + 1 / 10000), extended.infinity⟩ rec2
      = (true, rc2))
    (ht : max rc1.t 0 < rc2.t) :
    (∀ ε : ℝ, 0 < ε → ∃ ρ0 : ℝ, 0 < ρ0 ∧ ∀ density : ℝ, ρ0 ≤ density →
      (constant_medium.hit Real.sqrt Real.log U rec1 rec2
        (constant_medium.new boundary density phase) r ray_t rec).1 = true
      ∧ max rc1.t 0 ≤ (constant_medium.hit Real.sqrt Real.log U rec1 rec2
        (constant_medium.new boundary density phase) r ray_t rec).2.t
      ∧ (constant_medium.hit Real.sqrt Real.log U rec1 rec2
        (constant_medium.new boundary density phase) r ray_t rec).2.t ≤ max rc1.t 0 + ε)
    ∧ (∃ ρ1 : ℝ, 0 < ρ1 ∧ ∀ density : ℝ, 0 < density → density < ρ1 →
      (constant_medium.hit Real.sqrt Real.log U rec1 rec2
        (constant_medium.new boundary density phase) r ray_t rec).1 = false) := by
  have hL : 0 < vec3.length Real.sqrt r.dir := length_pos_of_ne_zero r.dir hdir
  have hA : 0 < -Real.log U := neg_pos.mpr (Real.log_neg hU0 hU1)
  have hD : 0 < (rc2.t - max rc1.t 0) * vec3.length Real.sqrt r.dir :=
    mul_pos (sub_pos.mpr ht) hL
  have hs : ∀ density : ℝ, -1 / density * Real.log U = -Real.log U / density := by
    intro density; ring
  refine ⟨fun ε hε => ?_, ?_⟩
  · refine ⟨max (-Real.log U / ((rc2.t - max rc1.t 0) * vec3.length Real.sqrt r.dir))
      (-Real.log U / (ε * vec3.length Real.sqrt r.dir)),
      lt_max_of_lt_left (div_pos hA hD), fun density hρ => ?_⟩
    have h1 : -Real.log U / ((rc2.t - max rc1.t 0) * vec3.length Real.sqrt r.dir) ≤ density :=
      le_trans (le_max_left _ _) hρ
    have h2 : -Real.log U / (ε * vec3.length Real.sqrt r.dir) ≤ density :=
      le_trans (le_max_right _ _) hρ
    have hd : 0 < density := lt_of_lt_of_le (div_pos hA hD) h1
    have h3 : -Real.log U / density ≤ (rc2.t - max rc1.t 0) * vec3.length Real.sqrt r.dir := by
      rw [div_le_iff₀ hd]
      rw [div_le_iff₀ hD] at h1
      linarith
    have h4 : -Real.log U / density / vec3.length Real.sqrt r.dir ≤ ε := by
      rw [div_le_iff₀ hL, div_le_iff₀ hd]
      rw [div_le_iff₀ (mul_pos hε hL)] at h2
      linarith
    have h5 : 0 ≤ -Real.log U / density / vec3.length Real.sqrt r.dir :=
      div_nonneg (div_nonneg hA.le hd.le) hL.le
    rw [constant_medium_hit_of_boundary Real.sqrt Real.log U density phase boundary rec1 rec2 rec
      rc1 rc2 r ray_t e1 e2, hs, if_neg (not_lt.mpr h3)]
    refine ⟨rfl, ?_, ?_⟩
    · simp only []
      linarith
    · simp only []
      linarith
  · refine ⟨-Real.log U / ((rc2.t - max rc1.t 0) * vec3.length Real.sqrt r.dir),
      div_pos hA hD, fun density hd hρ => ?_⟩
    have h3 : (rc2.t - max rc1.t 0) * vec3.length Real.sqrt r.dir < -Real.log U / density := by
      rw [lt_div_iff₀ hd]
      rw [lt_div_iff₀ hD] at hρ
      linarith
    rw [constant_medium_hit_of_boundary Real.sqrt Real.log U density phase boundary rec1 rec2 rec
      rc1 rc2 r ray_t e1 e2, hs, if_pos h3]

/-- C19 witness: the slab boundary, which the sample ray enters at `t = 1` and leaves at
`t = 2`, with the sample `exp(-1)`. -/
theorem medium_density_limits_witness :
    ∃ ρ1 : ℝ, 0 < ρ1 ∧ ∀ density : ℝ, 0 < density → density < ρ1 →
      (constant_medium.hit Real.sqrt Real.log (Real.exp (-1)) blank_record blank_record
        (constant_medium.new (slab_boundary Real.sqrt) density 5) slab_ray near_interval
        blank_record).1 = false :=
  (medium_density_limits (slab_boundary Real.sqrt) (Real.exp (-1)) 5 blank_record blank_record
    blank_record _ _ slab_ray near_interval (Real.exp_pos _) (Real.exp_lt_one_iff.mpr (by norm_num))
    (by simp [slab_ray]) (slab_entry _) (slab_exit _ (by norm_num) (by norm_num) _)
    (by norm_num)).2

/-- Counterexample to C21 as stated: the unit square doubled, turned by 90 degrees about z and
moved by `(1, 2, 3)`. The fused affine map sends the centre `(1/2, 1/2, 0)` to `(0, 3, 3)`, and
in IEEE double arithmetic `transform.center()` is `(1.1102230246251565e-16, 3, 3)`; the fused
map queries the child with the ray from `(0, 1/2, 1)`, which hits the square on its edge, and in
IEEE double arithmetic `transform::hit` hands the child the origin
`(-3.061616997868383e-17, 0.5, 1)` and returns false. -/
theorem transform_is_fused_affine_counterexample :
    fused_point Real.cos Real.sin Real.pi ⟨2, 2, 2⟩ ⟨0, 0, 90⟩ ⟨1, 2, 3⟩ ⟨1 / 2, 1 / 2, 0⟩
      = ⟨0, 3, 3⟩
    ∧ (transform.new std_cos std_sin std_sqrt pi_double
        (quad.new std_sqrt ⟨0, 0, 0⟩ ⟨1, 0, 0⟩ ⟨0, 1, 0⟩ 0).to_hittable
        ⟨2, 2, 2⟩ ⟨0, 0, 90⟩ ⟨1, 2, 3⟩).center ⟨1 / 2, 1 / 2, 0⟩
      = ⟨double.of_binary 1 53, 3, 3⟩
    ∧ ((quad.new Real.sqrt ⟨0, 0, 0⟩ ⟨1, 0, 0⟩ ⟨0, 1, 0⟩ 0).to_hittable.hit
        (fused_ray Real.cos Real.sin Real.pi ⟨2, 2, 2⟩ ⟨0, 0, 90⟩ ⟨1, 2, 3⟩ edge_ray)
        nonneg_interval blank_record).1 = true
    ∧ ((scale.new (quad.new std_sqrt ⟨0, 0, 0⟩ ⟨1, 0, 0⟩ ⟨0, 1, 0⟩ 0).to_hittable
          ⟨2, 2, 2⟩).object_r
        ((rotate.new std_cos std_sin pi_double
            ((scale.new (quad.new std_sqrt ⟨0, 0, 0⟩ ⟨1, 0, 0⟩ ⟨0, 1, 0⟩ 0).to_hittable
              ⟨2, 2, 2⟩).to_hittable std_sqrt) ⟨0, 0, 90⟩).object_r
          ((translate.new (rotate.new std_cos std_sin pi_double
              ((scale.new (quad.new std_sqrt ⟨0, 0, 0⟩ ⟨1, 0, 0⟩ ⟨0, 1, 0⟩ 0).to_hittable
                ⟨2, 2, 2⟩).to_hittable std_sqrt) ⟨0, 0, 90⟩).to_hittable
            ⟨1, 2, 3⟩).offset_r edge_ray))).orig
      = ⟨double.of_binary (-4967757600021511) 107, 1 / 2, 1⟩
    ∧ ((transform.new std_cos std_sin std_sqrt pi_double
        (quad.new std_sqrt ⟨0, 0, 0⟩ ⟨1, 0, 0⟩ ⟨0, 1, 0⟩ 0).to_hittable
        ⟨2, 2, 2⟩ ⟨0, 0, 90⟩ ⟨1, 2, 3⟩).hit edge_ray nonneg_interval blank_record).1
      = false := by
  have h90 : degrees_to_radians Real.pi (90 : ℝ) = Real.pi / 2 := by
    unfold degrees_to_radians; ring
  have h0 : degrees_to_radians Real.pi (0 : ℝ) = 0 := by
    unfold degrees_to_radians; ring
  refine ⟨?_, ?_, edge_fused_query_hit.2, ?_, ?_⟩
  · simp [fused_point, fused_R, fused_S, turn_x, turn_y, turn_z, vec3.add_def, h90, h0]
    norm_num
  · decide!
  · decide!
  · decide!

/-- C21 (amended): over exact real arithmetic, transform equals the fused affine map in the
order scale, rotate, translate. For every
child, nonzero scale factors `s`, Euler angles `e` and offset `o`,
`transform(child, s, e, o).hit` returns what `translate(rotate(scale(child, s), e), o).hit`
returns; it queries the child with the ray of origin `S⁻¹ R⁻¹ (r.origin − o)` and direction
`S⁻¹ R⁻¹ r.direction`, returns the child's boolean, and on a hit maps the child's point `q` to
`R(e) (s ⊙ q) + o` (and the child's normal `n` to `R(e) unit(s ⊙ n)`);
`transform.center()` is `R(e) (s ⊙ c) + o` for the child's centre `c`; and the object-space map
is the inverse of the fused map. -/
theorem transform_is_fused_affine (child : hittable ℝ) (s e o c : vec3 ℝ) (r : ray ℝ)
    (ray_t : interval (extended ℝ)) (rec : hit_record ℝ)
    (hs : s.x ≠ 0 ∧ s.y ≠ 0 ∧ s.z ≠ 0) :
    (transform.new Real.cos Real.sin Real.sqrt Real.pi child s e o).hit r ray_t rec =
      (translate.new (rotate.new Real.cos Real.sin Real.pi
        ((scale.new child s).to_hittable Real.sqrt) e).to_hittable o).hit r ray_t rec
    ∧ (transform.new Real.cos Real.sin Real.sqrt Real.pi child s e o).hit r ray_t rec =
      (if (child.hit (fused_ray Real.cos Real.sin Real.pi s e o r) ray_t rec).1 = true then
        (true, { (child.hit (fused_ray Real.cos Real.sin Real.pi s e o r) ray_t rec).2 with
          p := fused_point Real.cos Real.sin Real.pi s e o
            (child.hit (fused_ray Real.cos Real.sin Real.pi s e o r) ray_t rec).2.p,
          normal := fused_R Real.cos Real.sin Real.pi e (unit_vector Real.sqrt
            (fused_S s
              (child.hit (fused_ray Real.cos Real.sin Real.pi s e o r) ray_t rec).2.normal)) })
      else (false, (child.hit (fused_ray Real.cos Real.sin Real.pi s e o r) ray_t rec).2))
    ∧ (transform.new Real.cos Real.sin Real.sqrt Real.pi child s e o).center c =
      fused_point Real.cos Real.sin Real.pi s e o c
    ∧ (∀ q : vec3 ℝ, fused_S_inv s (fused_R_inv Real.cos Real.sin Real.pi e
      (fused_point Real.cos Real.sin Real.pi s e o q - o)) = q)
    ∧ (∀ p : vec3 ℝ, fused_point Real.cos Real.sin Real.pi s e o
      (fused_S_inv s (fused_R_inv Real.cos Real.sin Real.pi e (p - o))) = p) :=
  ⟨transform_hit_nested Real.cos Real.sin Real.sqrt Real.pi child s e o r ray_t rec,
    transform_hit_fused Real.cos Real.sin Real.sqrt Real.pi child s e o r ray_t rec,
    transform_center_fused Real.cos Real.sin Real.sqrt Real.pi child s e o c,
    (fused_round_trip s e o hs.1 hs.2.1 hs.2.2).1,
    (fused_round_trip s e o hs.1 hs.2.1 hs.2.2).2⟩

/-- Witness of C21 (amended), over exact real arithmetic: the unit square doubled, turned by 90 degrees about z and moved by
`(1, 2, 3)`; its centre `(1/2, 1/2, 0)` goes to `(0, 3, 3)`, and the ray from `(0, 3, 5)` with
direction `(0, 0, -1)` reaches the child as the ray from `(1/2, 1/2, 1)` with direction
`(0, 0, -1/2)`. -/
theorem transform_is_fused_affine_witness :
    (transform.new Real.cos Real.sin Real.sqrt Real.pi
        (quad.new Real.sqrt ⟨0, 0, 0⟩ ⟨1, 0, 0⟩ ⟨0, 1, 0⟩ 0).to_hittable
        ⟨2, 2, 2⟩ ⟨0, 0, 90⟩ ⟨1, 2, 3⟩).center ⟨1 / 2, 1 / 2, 0⟩ = ⟨0, 3, 3⟩
    ∧ fused_ray Real.cos Real.sin Real.pi ⟨2, 2, 2⟩ ⟨0, 0, 90⟩ ⟨1, 2, 3⟩
        ⟨⟨0, 3, 5⟩, ⟨0, 0, -1⟩, 0⟩ = ⟨⟨1 / 2, 1 / 2, 1⟩, ⟨0, 0, -1 / 2⟩, 0⟩ := by
  have h90 : degrees_to_radians Real.pi (90 : ℝ) = Real.pi / 2 := by
    unfold degrees_to_radians; ring
  have h0 : degrees_to_radians Real.pi (0 : ℝ) = 0 := by
    unfold degrees_to_radians; ring
  constructor
  · rw [(transform_is_fused_affine (quad.new Real.sqrt ⟨0, 0, 0⟩ ⟨1, 0, 0⟩ ⟨0, 1, 0⟩ 0).to_hittable
      ⟨2, 2, 2⟩ ⟨0, 0, 90⟩ ⟨1, 2, 3⟩ ⟨1 / 2, 1 / 2, 0⟩ probe_ray nonneg_interval blank_record
      ⟨by norm_num, by norm_num, by norm_num⟩).2.2.1]
    simp [fused_point, fused_R, fused_S, turn_x, turn_y, turn_z, vec3.add_def, h90, h0]
    norm_num
  · simp [fused_ray, fused_R_inv, fused_S_inv, turn_x, turn_y, turn_z, vec3.sub_def, h90, h0]
    norm_num

/-- C25: a miss leaves the hit record unchanged. For a quad and a triangle, whenever `hit`
returns false the record is the one passed in; for `translate`, `rotate`, `scale`, `transform`
and `constant_medium`, whenever `hit` returns false the record is the one passed in, provided
the wrapped child leaves the record unchanged on a miss. -/
theorem miss_leaves_record (q : quad ℝ) (T : triangle ℝ) (child : hittable ℝ) (s e o : vec3 ℝ)
    (density U : ℝ) (phase : material) (rec1 rec2 rec : hit_record ℝ) (r : ray ℝ)
    (ray_t : interval (extended ℝ))
    (hchild : ∀ (r1 : ray ℝ) (t1 : interval (extended ℝ)) (rc : hit_record ℝ),
      (child.hit r1 t1 rc).1 = false → (child.hit r1 t1 rc).2 = rc) :
    ((q.hit r ray_t rec).1 = false → (q.hit r ray_t rec).2 = rec)
    ∧ ((T.hit r ray_t rec).1 = false → (T.hit r ray_t rec).2 = rec)
    ∧ (((translate.new child o).hit r ray_t rec).1 = false →
        ((translate.new child o).hit r ray_t rec).2 = rec)
    ∧ (((rotate.new Real.cos Real.sin Real.pi child e).hit r ray_t rec).1 = false →
        ((rotate.new Real.cos Real.sin Real.pi child e).hit r ray_t rec).2 = rec)
    ∧ ((scale.hit Real.sqrt (scale.new child s) r ray_t rec).1 = false →
        (scale.hit Real.sqrt (scale.new child s) r ray_t rec).2 = rec)
    ∧ (((transform.new Real.cos Real.sin Real.sqrt Real.pi child s e o).hit r ray_t rec).1
          = false →
        ((transform.new Real.cos Real.sin Real.sqrt Real.pi child s e o).hit r ray_t rec).2
          = rec)
    ∧ ((constant_medium.hit Real.sqrt Real.log U rec1 rec2
          (constant_medium.new child density phase) r ray_t rec).1 = false →
        (constant_medium.hit Real.sqrt Real.log U rec1 rec2
          (constant_medium.new child density phase) r ray_t rec).2 = rec) := by
  refine ⟨quad_hit_miss q r ray_t rec, triangle_hit_miss T r ray_t rec, fun h => ?_, fun h => ?_,
    fun h => ?_, fun h => ?_, constant_medium_hit_miss _ _ _ _ _ _ _ _ _⟩
  · obtain ⟨h1, h2⟩ := translate_hit_miss _ r ray_t rec h
    rw [h2]
    exact hchild _ _ _ h1
  · obtain ⟨h1, h2⟩ := rotate_hit_miss _ r ray_t rec h
    rw [h2]
    exact hchild _ _ _ h1
  · obtain ⟨h1, h2⟩ := scale_hit_miss _ _ _ r ray_t rec h
    rw [h2]
    exact hchild _ _ _ h1
  · obtain ⟨h1, h2⟩ := transform_hit_miss _ _ _ _ _ _ _ _ r ray_t rec h
    rw [h2]
    exact hchild _ _ _ h1

/-- Witness of C25: the unit square as the child; the ray from `(1/2, 1/2, 2)` downwards meets
its plane at `t = 2`, outside the interval `[0, 1/2]`, and the blank record comes back. -/
theorem miss_leaves_record_witness :
    ((quad.new Real.sqrt ⟨0, 0, 0⟩ ⟨1, 0, 0⟩ ⟨0, 1, 0⟩ 0).hit slab_ray near_interval
      blank_record).2 = blank_record :=
  (miss_leaves_record (quad.new Real.sqrt ⟨0, 0, 0⟩ ⟨1, 0, 0⟩ ⟨0, 1, 0⟩ 0)
    (triangle.new Real.sqrt ⟨0, 0, 0⟩ ⟨1, 0, 0⟩ ⟨0, 1, 0⟩ 0)
    (quad.new Real.sqrt ⟨0, 0, 0⟩ ⟨1, 0, 0⟩ ⟨0, 1, 0⟩ 0).to_hittable
    ⟨1, 1, 1⟩ ⟨0, 0, 0⟩ ⟨0, 0, 0⟩ 1 (1 / 2) 0 blank_record blank_record blank_record slab_ray
    near_interval (fun r1 t1 rc => quad_hit_miss _ r1 t1 rc)).1
    (by
      rw [slab_quad_hit]
      simp [near_interval, interval.contains, extended.le]
      norm_num)

end Claims

end RayTracer
